import Mathlib

/-!
# Zopfli core (zopfli_cgbi): block splitter, match finder, greedy LZ77

A shallow embedding of `src/zopfli/blocksplitter.c`, `src/zopfli/lz77.c`, the
symbol functions of `src/zopfli/util.c` and `src/zopfli/gzip_container.c`.

Conventions.
* C arrays that are only read are functions `Nat → Nat` (index ↦ value);
  growable arrays (the LZ77 store, the split-point list) are lists.
* `size_t` / `unsigned` values are natural numbers.  Subtractions are written
  with `-` on `Nat` only where the C code guards them (by an `assert` or by the
  loop structure); the wrap-around distance rule of the hash chain keeps its
  explicit `% 2^32`.  Block sizes are `size_t` bit counts; the sum of two of
  them is a `size_t` sum and carries its `% 2^64`.
* Loops whose termination needs an invariant carry a fuel argument and return
  `none` when the fuel is exhausted; the theorems show that this never happens.
* Collaborators whose source is not part of `src/` (`ZopfliCalculateBlockSize`,
  the hash maintenance of `hash.c`, the `sublen` functions of `cache.c`, the
  checksum, the deflate encoder and the append macro that the gzip container
  uses) are parameters.
-/

namespace Zopfli

/-! ## Constants -/

/-- The sliding window size (`ZOPFLI_WINDOW_SIZE`). -/
def ZOPFLI_WINDOW_SIZE : Nat := 32768

/-- The window mask (`ZOPFLI_WINDOW_MASK`), `ZOPFLI_WINDOW_SIZE - 1`. -/
def ZOPFLI_WINDOW_MASK : Nat := 32767

/-- Minimum length of a back-reference (`ZOPFLI_MIN_MATCH`). -/
def ZOPFLI_MIN_MATCH : Nat := 3

/-- Maximum length of a back-reference (`ZOPFLI_MAX_MATCH`). -/
def ZOPFLI_MAX_MATCH : Nat := 258

/-- The value of `(size_t)(-1)`, used as "no best yet" in `FindMinimum`. -/
def SIZE_MAX : Nat := 18446744073709551615

/-! ## blocksplitter.c -/

/-- The linear scan of `FindMinimum` (`end - start < 1024`): `n` iterations are
left, `i` is the loop index, `best` / `result` the running minimum. -/
def FindMinimumScan (f : Nat → Nat) : Nat → Nat → Nat → Nat → Nat
  | 0, _, _, result => result
  | n + 1, i, best, result =>
    if f i < best then FindMinimumScan f n (i + 1) (f i) i
    else FindMinimumScan f n (i + 1) best result

/-- Number of probes of the bracketed search (`NUM`). -/
def NUM : Nat := 9

/-- Probe position `p[i] = start + (i + 1) * ((end - start) / (NUM + 1))`. -/
def probe (start stop i : Nat) : Nat :=
  start + (i + 1) * ((stop - start) / (NUM + 1))

/-- The selection loop `for (i = 1; i < NUM; i++) if (vp[i] < best) ...`:
returns `(besti, best)`, starting from `(0, vp[0])`. -/
def bestProbe (vp : Nat → Nat) : Nat × Nat :=
  (List.range' 1 (NUM - 1)).foldl
    (fun acc i => if vp i < acc.2 then (i, vp i) else acc) (0, vp 0)

/-- The bracketed search of `FindMinimum` (`end - start >= 1024`): the body of
`for (;;)`, with the loop variables `start`, `end`, `lastbest`, `pos`.  Every
continued iteration shrinks `end - start`, so `end - start` units of fuel are
enough (`FindMinimumBracket_fuel`); with no fuel left `end - start` is `0`, and
the loop leaves through `if (end - start <= NUM) break`. -/
def FindMinimumBracket (f : Nat → Nat) : Nat → Nat → Nat → Nat → Nat → Nat
  | 0, _, _, _, pos => pos
  | fuel + 1, start, stop, lastbest, pos =>
    if stop - start ≤ NUM then pos
    else
      let vp : Nat → Nat := fun i => f (probe start stop i)
      let besti := (bestProbe vp).1
      let best := (bestProbe vp).2
      if best > lastbest then pos
      else
        FindMinimumBracket f fuel
          (if besti = 0 then start else probe start stop (besti - 1))
          (if besti = NUM - 1 then stop else probe start stop (besti + 1))
          best (probe start stop besti)

/-- The function `FindMinimum(f, context, start, end)`: linear scan below 1024
elements, bracketed search otherwise.  It is called with `start <= end`
(`assert(lstart < lend)` precedes the call), so `end - start` does not wrap. -/
def FindMinimum (f : Nat → Nat) (start stop : Nat) : Nat :=
  if stop - start < 1024 then FindMinimumScan f (stop - start) start SIZE_MAX start
  else FindMinimumBracket f (stop - start) start stop SIZE_MAX start

/-- The function `EstimateCost`: the block size in bits under cost model 2 (dynamic
Huffman).  `ZopfliCalculateBlockSize` lives in `deflate.c`, which is not part of
the sources at hand; it is the parameter `blockSize`. -/
def EstimateCost (blockSize : List Nat → List Nat → Nat → Nat → Nat → Nat)
    (litlens dists : List Nat) (lstart lend : Nat) : Nat :=
  blockSize litlens dists lstart lend 2

/-- The function `SplitCost(i, context)`: cost of the left part plus cost of the right part,
added in `size_t`. -/
def SplitCost (blockSize : List Nat → List Nat → Nat → Nat → Nat → Nat)
    (litlens dists : List Nat) (start stop i : Nat) : Nat :=
  (EstimateCost blockSize litlens dists start i + EstimateCost blockSize litlens dists i stop)
    % 2 ^ 64

/-- The function `AddSorted(value, out, outsize)`: the first loop skips the entries that are
not greater than `value`, the second loop inserts `value` there and shifts the
remaining entries one place up. -/
def AddSorted (value : Nat) : List Nat → List Nat
  | [] => [value]
  | x :: xs => if x > value then value :: x :: xs else x :: AddSorted value xs

/-- Left end of the `i`-th block: `i == 0 ? 0 : splitpoints[i - 1]`. -/
def blockStart (splitpoints : List Nat) (i : Nat) : Nat :=
  if i = 0 then 0 else splitpoints.getD (i - 1) 0

/-- Right end of the `i`-th block as `FindLargestSplittableBlock` computes it:
`i == npoints ? llsize - 1 : splitpoints[i]`. -/
def blockEnd (llsize : Nat) (splitpoints : List Nat) (i : Nat) : Nat :=
  if i = splitpoints.length then llsize - 1 else splitpoints.getD i 0

/-- Loop state of `FindLargestSplittableBlock`. -/
structure LargestState where
  found : Bool
  lstart : Nat
  lend : Nat
  longest : Nat

/-- One iteration of the loop of `FindLargestSplittableBlock`. -/
def largestStep (llsize : Nat) (done : Nat → Bool) (splitpoints : List Nat)
    (st : LargestState) (i : Nat) : LargestState :=
  let start := blockStart splitpoints i
  let stop := blockEnd llsize splitpoints i
  if done start = false ∧ stop - start > st.longest then
    { found := true, lstart := start, lend := stop, longest := stop - start }
  else st

/-- The function `FindLargestSplittableBlock(llsize, done, splitpoints, npoints,
&lstart, &lend)`; `lstart` and `lend` keep their incoming values when nothing is
found.  It is called with `llsize >= 10` and increasing split points below
`llsize`, so neither `llsize - 1` nor `end - start` wraps. -/
def FindLargestSplittableBlock (llsize : Nat) (done : Nat → Bool) (splitpoints : List Nat)
    (lstart lend : Nat) : LargestState :=
  (List.range (splitpoints.length + 1)).foldl (largestStep llsize done splitpoints)
    { found := false, lstart := lstart, lend := lend, longest := 0 }

/-- The `for (;;)` loop of `ZopfliBlockSplitLZ77`.  `done[lstart] = 1` is a
pointwise update; `numblocks` counts the blocks; `none` means out of fuel. -/
def splitLoop (blockSize : List Nat → List Nat → Nat → Nat → Nat → Nat)
    (litlens dists : List Nat) (llsize maxblocks : Nat) :
    Nat → Nat → Nat → Nat → (Nat → Bool) → List Nat → Option (List Nat)
  | 0, _, _, _, _, _ => none
  | fuel + 1, lstart, lend, numblocks, done, splitpoints =>
    if maxblocks > 0 ∧ numblocks ≥ maxblocks then some splitpoints
    else
      let llpos := FindMinimum (SplitCost blockSize litlens dists lstart lend) (lstart + 1) lend
      let splitcost := (EstimateCost blockSize litlens dists lstart llpos
        + EstimateCost blockSize litlens dists llpos lend) % 2 ^ 64
      let origcost := EstimateCost blockSize litlens dists lstart lend
      let refuse : Bool := decide (splitcost > origcost ∨ llpos = lstart + 1 ∨ llpos = lend)
      let done1 : Nat → Bool := if refuse then fun i => if i = lstart then true else done i else done
      let points1 := if refuse then splitpoints else AddSorted llpos splitpoints
      let numblocks1 := if refuse then numblocks else numblocks + 1
      let r := FindLargestSplittableBlock llsize done1 points1 lstart lend
      if r.found = false then some points1
      else if r.lend - r.lstart < 10 then some points1
      else splitLoop blockSize litlens dists llsize maxblocks fuel r.lstart r.lend numblocks1 done1 points1

/-- The function `ZopfliBlockSplitLZ77(options, litlens, dists, llsize, maxblocks, &splitpoints,
&npoints)`: returns the caller's list with the new split points inserted.
Every iteration either inserts a point or marks a block start as done, so
`2 * llsize + 1` iterations are a safe supply of fuel. -/
def ZopfliBlockSplitLZ77 (blockSize : List Nat → List Nat → Nat → Nat → Nat → Nat)
    (litlens dists : List Nat) (llsize maxblocks : Nat) (splitpoints : List Nat) :
    Option (List Nat) :=
  if llsize < 10 then some splitpoints
  else splitLoop blockSize litlens dists llsize maxblocks (2 * llsize + 1) 0 llsize 1
    (fun _ => false) splitpoints

/-! ## lz77.c

The build options `ZOPFLI_HASH_SAME`, `ZOPFLI_HASH_SAME_HASH` and
`ZOPFLI_LAZY_MATCHING` are taken as defined (the code paths the specification
describes); `ZOPFLI_MAX_CHAIN_HITS` and the word size seen by `GetMatch` are
build parameters. -/

/-- How `GetMatch` compares: 8 bytes at once (`sizeof(size_t) == 8`), 4 bytes at
once (`sizeof(unsigned int) == 4`), or the unrolled byte comparison. -/
inductive WordSize where
  | eight
  | four
  | unrolled
  deriving DecidableEq

/-- Build parameters that `util.h` fixes. -/
structure Build where
  /-- The value of `ZOPFLI_MAX_CHAIN_HITS`. -/
  maxChainHits : Nat
  /-- The comparison `GetMatch` is compiled to. -/
  wordSize : WordSize

/-- The LZ77 store: the parallel arrays `litlens` and `dists`; `size` is their
length. -/
structure ZopfliLZ77Store where
  litlens : List Nat
  dists : List Nat
  deriving DecidableEq

/-- The field `size` of the store. -/
def ZopfliLZ77Store.size (store : ZopfliLZ77Store) : Nat := store.litlens.length

/-- The function `ZopfliInitLZ77Store`: the empty store. -/
def ZopfliInitLZ77Store : ZopfliLZ77Store := { litlens := [], dists := [] }

/-- The function `ZopfliStoreLitLenDist(length, dist, store)`: writes `litlens[size] = length`,
`dists[size] = dist` and increments `size`. -/
def ZopfliStoreLitLenDist (length dist : Nat) (store : ZopfliLZ77Store) : ZopfliLZ77Store :=
  { litlens := store.litlens ++ [length], dists := store.dists ++ [dist] }

/-- The function `GetLengthScore(length, distance)` on `int`. -/
def GetLengthScore (length distance : Int) : Int :=
  if distance > 1024 then length - 1 else length

/-- The function `ZopfliVerifyLenDist(data, datasize, pos, dist, length)`: `true` when neither
assertion fails, i.e. `pos + length <= datasize` and
`data[pos - dist + i] == data[pos + i]` for every `i < length`. -/
def ZopfliVerifyLenDist (data : Nat → Nat) (datasize pos dist length : Nat) : Bool :=
  decide (pos + length ≤ datasize) &&
    (List.range length).all (fun i => data (pos - dist + i) == data (pos + i))

/-- Equality of the `n`-byte words at `scan` and at `mtch`
(`*((size_t*)scan) == *((size_t*)match)`): all their bytes agree. -/
def wordsEqual (array : Nat → Nat) (n scan mtch : Nat) : Bool :=
  (List.range n).all (fun k => array (scan + k) == array (mtch + k))

/-- The word loop of `GetMatch`:
`while (scan < safe_end && word(scan) == word(match)) { scan += n; match += n; }`
with `safe_end = end - n`; returns `(scan, match)`. -/
def GetMatchWords (array : Nat → Nat) (n : Nat) : Nat → Nat → Nat → Nat → Nat × Nat
  | 0, scan, mtch, _ => (scan, mtch)
  | fuel + 1, scan, mtch, stop =>
    if scan < stop - n ∧ wordsEqual array n scan mtch = true then
      GetMatchWords array n fuel (scan + n) (mtch + n) stop
    else (scan, mtch)

/-- The chain `*++scan == *++match && ...` of the unrolled loop condition, `k`
comparisons long: each comparison first advances both pointers; returns the
pointers and whether all comparisons succeeded. -/
def unrolledChain (array : Nat → Nat) : Nat → Nat → Nat → Nat × Nat × Bool
  | 0, scan, mtch => (scan, mtch, true)
  | k + 1, scan, mtch =>
    if array (scan + 1) = array (mtch + 1) then unrolledChain array k (scan + 1) (mtch + 1)
    else (scan + 1, mtch + 1, false)

/-- The unrolled loop of `GetMatch` (`safe_end = end - 8`): the condition is
`scan < safe_end && *scan == *match` followed by seven pre-incrementing
comparisons; the body is `scan++; match++`. -/
def GetMatchUnrolled (array : Nat → Nat) : Nat → Nat → Nat → Nat → Nat × Nat
  | 0, scan, mtch, _ => (scan, mtch)
  | fuel + 1, scan, mtch, stop =>
    if scan < stop - 8 ∧ array scan = array mtch then
      let r := unrolledChain array 7 scan mtch
      if r.2.2 then GetMatchUnrolled array fuel (r.1 + 1) (r.2.1 + 1) stop
      else (r.1, r.2.1)
    else (scan, mtch)

/-- The last loop of `GetMatch`:
`while (scan != end && *scan == *match) { scan++; match++; }`. -/
def GetMatchBytes (array : Nat → Nat) : Nat → Nat → Nat → Nat → Nat
  | 0, scan, _, _ => scan
  | fuel + 1, scan, mtch, stop =>
    if scan ≠ stop ∧ array scan = array mtch then
      GetMatchBytes array fuel (scan + 1) (mtch + 1) stop
    else scan

/-- The function `GetMatch(scan, match, end)` with pointers as indices into `array`; it is
called with `scan <= end`, and every loop advances `scan` towards `end`, so
`end - scan` bounds the iterations of each loop. -/
def GetMatch (ws : WordSize) (array : Nat → Nat) (scan mtch stop : Nat) : Nat :=
  let r : Nat × Nat :=
    match ws with
    | WordSize.eight => GetMatchWords array 8 (stop - scan) scan mtch stop
    | WordSize.four => GetMatchWords array 4 (stop - scan) scan mtch stop
    | WordSize.unrolled => GetMatchUnrolled array (stop - scan) scan mtch stop
  GetMatchBytes array (stop - r.1) r.1 r.2 stop

/-- The hash state (`ZopfliHash`) as far as `lz77.c` reads it: `head`, `hashval`
and `val` hold `int`, `prev` holds `unsigned short`, `same` the run lengths. -/
structure ZopfliHash where
  head : Nat → Int
  prev : Nat → Nat
  hashval : Nat → Int
  val : Int
  head2 : Nat → Int
  prev2 : Nat → Nat
  hashval2 : Nat → Int
  val2 : Int
  same : Nat → Nat

/-- Result of `ZopfliFindLongestMatch`: the outputs `*distance`, `*length` and the
array `sublen` after the call (`none` when `sublen` was a null pointer), and, as
a record of the run, the distances at which the loop examined a candidate
(`visited`) and the length `currentlength` it found for each (`lengths`), in
the order of examination. -/
structure MatchResult where
  sublen : Option (Nat → Nat)
  distance : Nat
  length : Nat
  visited : List Nat
  lengths : List Nat

/-- Local variables of the chain walk of `ZopfliFindLongestMatch`.  `second` says
that `hhead`, `hprev`, `hhashval`, `hval` have been switched to the second hash;
`visited` records the examined distances and `lengths` the value of
`currentlength` found for each of them. -/
structure WalkState where
  pp : Nat
  p : Nat
  dist : Nat
  bestdist : Nat
  bestlength : Nat
  sublen : Option (Nat → Nat)
  second : Bool
  chain_counter : Int
  visited : List Nat
  lengths : List Nat

/-- The distance step `p < pp ? pp - p : pp - p + ZOPFLI_WINDOW_SIZE` in
`unsigned` arithmetic. -/
def chainStep (pp p : Nat) : Nat :=
  if p < pp then pp - p else (pp + ZOPFLI_WINDOW_SIZE + 4294967296 - p) % 4294967296

/-- The length found for the candidate at distance `dist` (the body of
`if (dist > 0)` up to `currentlength`): the test of the byte at `bestlength`,
the skip over the run recorded in `same`, and `GetMatch`. -/
def currentLength (b : Build) (h : ZopfliHash) (array : Nat → Nat)
    (pos size limit dist bestlength : Nat) : Nat :=
  if pos + bestlength ≥ size ∨ array (pos + bestlength) = array (pos - dist + bestlength) then
    let same0 := h.same (pos &&& ZOPFLI_WINDOW_MASK)
    let skip :=
      if same0 > 2 ∧ array pos = array (pos - dist) then
        let same1 := h.same ((pos - dist) &&& ZOPFLI_WINDOW_MASK)
        let same := if same0 < same1 then same0 else same1
        if same > limit then limit else same
      else 0
    GetMatch b.wordSize array (pos + skip) (pos - dist + skip) (pos + limit) - pos
  else 0

/-- The `for` loop `sublen[j] = dist` for `j` in `bestlength + 1 ..= currentlength`. -/
def fillSublen (sublen : Nat → Nat) (bestlength currentlength dist : Nat) : Nat → Nat :=
  fun j => if bestlength < j ∧ j ≤ currentlength then dist else sublen j

/-- The block `if (dist > 0) { ... }` of the chain walk: the candidate at `dist` is
measured and, when it is longer than the best so far, becomes the best and is
entered into `sublen`.  The flag tells whether `break` was taken
(`currentlength >= limit`). -/
def examineCandidate (b : Build) (h : ZopfliHash) (array : Nat → Nat) (pos size limit : Nat)
    (st : WalkState) : WalkState × Bool :=
  if st.dist > 0 then
    let currentlength := currentLength b h array pos size limit st.dist st.bestlength
    if currentlength > st.bestlength then
      ({ st with
          bestdist := st.dist
          sublen := st.sublen.map (fun s => fillSublen s st.bestlength currentlength st.dist)
          bestlength := currentlength
          visited := st.visited ++ [st.dist]
          lengths := st.lengths ++ [currentlength] },
        decide (currentlength ≥ limit))
    else
      ({ st with visited := st.visited ++ [st.dist]
                 lengths := st.lengths ++ [currentlength] }, false)
  else (st, false)

/-- The rest of the loop body of the chain walk: the switch to the second hash,
`pp = p; p = hprev[p]; if (p == pp) break;`, the new distance and the chain
counter (compiled in when `ZOPFLI_MAX_CHAIN_HITS < ZOPFLI_WINDOW_SIZE`).  The
flag tells whether a `break` was taken. -/
def advanceChain (b : Build) (h : ZopfliHash) (pos : Nat) (st : WalkState) : WalkState × Bool :=
  let second : Bool := st.second ||
    decide (st.bestlength ≥ h.same (pos &&& ZOPFLI_WINDOW_MASK) ∧ h.val2 = h.hashval2 st.p)
  let pp := st.p
  let p := if second then h.prev2 pp else h.prev pp
  if p = pp then ({ st with second := second, pp := pp, p := p }, true)
  else
    let dist := (st.dist + chainStep pp p) % 4294967296
    let counter := if b.maxChainHits < ZOPFLI_WINDOW_SIZE then st.chain_counter - 1
      else st.chain_counter
    ({ st with second := second, pp := pp, p := p, dist := dist, chain_counter := counter },
      decide (b.maxChainHits < ZOPFLI_WINDOW_SIZE ∧ counter ≤ 0))

/-- The loop `while (dist < ZOPFLI_WINDOW_SIZE)` of `ZopfliFindLongestMatch`.
`limit` is the clamped limit.  The result is `none` when `assert(dist <= pos)`
fails (the candidate would lie before the array) or when the fuel runs out. -/
def chainWalk (b : Build) (h : ZopfliHash) (array : Nat → Nat) (pos size limit : Nat) :
    Nat → WalkState → Option WalkState
  | 0, st => if st.dist < ZOPFLI_WINDOW_SIZE then none else some st
  | fuel + 1, st =>
    if st.dist < ZOPFLI_WINDOW_SIZE then
      if st.dist > 0 ∧ pos < st.dist then none
      else
        let e := examineCandidate b h array pos size limit st
        if e.2 then some e.1
        else
          let a := advanceChain b h pos e.1
          if a.2 then some a.1
          else chainWalk b h array pos size limit fuel a.1
    else some st

/-- The clamped limit: `if (pos + limit > size) limit = size - pos;`. -/
def clampedLimit (pos size limit : Nat) : Nat :=
  if pos + limit > size then size - pos else limit

/-- The function `ZopfliFindLongestMatch(s, h, array, pos, size, limit, sublen, &distance,
&length)` for a block state without longest-match cache (`s->lmc == 0`), called
with `pos < size` and `3 <= limit <= 258` as the assertions demand.  Every
iteration of the walk adds at least 1 to `dist`, so `ZOPFLI_WINDOW_SIZE`
iterations are a safe supply of fuel. -/
def ZopfliFindLongestMatch (b : Build) (h : ZopfliHash) (array : Nat → Nat)
    (pos size limit : Nat) (sublen : Option (Nat → Nat)) : Option MatchResult :=
  if size - pos < ZOPFLI_MIN_MATCH then
    some { sublen := sublen, distance := 0, length := 0, visited := [], lengths := [] }
  else
    let limit := clampedLimit pos size limit
    let pp := (h.head h.val.toNat % 4294967296).toNat
    let p := h.prev pp
    let st0 : WalkState :=
      { pp := pp, p := p, dist := chainStep pp p, bestdist := 0, bestlength := 1,
        sublen := sublen, second := false, chain_counter := b.maxChainHits, visited := [],
        lengths := [] }
    (chainWalk b h array pos size limit ZOPFLI_WINDOW_SIZE st0).map
      (fun st => { sublen := st.sublen, distance := st.bestdist, length := st.bestlength,
                   visited := st.visited, lengths := st.lengths })

/-- The operations of `hash.c`, which is not part of the sources at hand:
`ZopfliInitHash(window_size, h)`, `ZopfliWarmupHash(array, pos, end, h)` and
`ZopfliUpdateHash(array, pos, end, h)`. -/
structure HashOps where
  init : Nat → ZopfliHash
  warmup : (Nat → Nat) → Nat → Nat → ZopfliHash → ZopfliHash
  update : (Nat → Nat) → Nat → Nat → ZopfliHash → ZopfliHash

/-- State of the main loop of `ZopfliLZ77Greedy`.  `verified` records the calls of
`ZopfliVerifyLenDist` as `(pos, dist, length)`, in order; `inRange` is `true` as
long as no `assert(i < inend)` has failed. -/
structure GreedyState where
  i : Nat
  h : ZopfliHash
  store : ZopfliLZ77Store
  dummysublen : Nat → Nat
  prev_length : Nat
  prev_match : Nat
  match_available : Bool
  verified : List (Nat × Nat × Nat)
  inRange : Bool

/-- The loops `for (j = ...; j < leng; j++) { assert(i < inend); i++;
ZopfliUpdateHash(in, i, inend, h); }`, `n` iterations long; returns `i`, the hash
and whether every assertion held. -/
def skipPositions (ops : HashOps) (array : Nat → Nat) (inend : Nat) :
    Nat → Nat → ZopfliHash → Bool → Nat × ZopfliHash × Bool
  | 0, i, h, ok => (i, h, ok)
  | n + 1, i, h, ok =>
    skipPositions ops array inend n (i + 1) (ops.update array (i + 1) inend h)
      (ok && decide (i < inend))

/-- The part "Add to output" of the loop body of `ZopfliLZ77Greedy`, followed by
the loop that skips the positions the emitted symbol covers. -/
def addToOutput (ops : HashOps) (array : Nat → Nat) (inend : Nat) (st : GreedyState)
    (leng dist : Nat) (lengthscore : Int) : GreedyState :=
  let emitMatch : Bool := decide (lengthscore ≥ (ZOPFLI_MIN_MATCH : Int))
  let leng1 := if emitMatch then leng else 1
  let r := skipPositions ops array inend (leng1 - 1) st.i st.h st.inRange
  { st with
    store := if emitMatch then ZopfliStoreLitLenDist leng dist st.store
      else ZopfliStoreLitLenDist (array st.i) 0 st.store
    verified := if emitMatch then st.verified ++ [(st.i, dist, leng)] else st.verified
    i := r.1, h := r.2.1, inRange := r.2.2 }

/-- One pass through the body of `for (i = instart; i < inend; i++)` in
`ZopfliLZ77Greedy`, without the final `i++`; `find h i sublen` stands for the
call `ZopfliFindLongestMatch(s, h, in, i, inend, ZOPFLI_MAX_MATCH, dummysublen,
&dist, &leng)`. -/
def greedyBody (find : ZopfliHash → Nat → (Nat → Nat) → Option MatchResult)
    (ops : HashOps) (array : Nat → Nat) (inend : Nat) (st : GreedyState) :
    Option GreedyState :=
  let h1 := ops.update array st.i inend st.h
  match find h1 st.i st.dummysublen with
  | none => none
  | some r =>
    let leng := r.length
    let dist := r.distance
    let lengthscore := GetLengthScore leng dist
    let prevlengthscore := GetLengthScore st.prev_length st.prev_match
    let st1 : GreedyState :=
      { st with h := h1, dummysublen := (r.sublen.getD st.dummysublen) }
    if st1.match_available then
      if lengthscore > prevlengthscore + 1 then
        let st2 : GreedyState :=
          { st1 with match_available := false,
                     store := ZopfliStoreLitLenDist (array (st1.i - 1)) 0 st1.store }
        if lengthscore ≥ (ZOPFLI_MIN_MATCH : Int) ∧ leng < ZOPFLI_MAX_MATCH then
          some { st2 with match_available := true, prev_length := leng, prev_match := dist }
        else some (addToOutput ops array inend st2 leng dist lengthscore)
      else
        let r2 := skipPositions ops array inend (st1.prev_length - 2) st1.i st1.h st1.inRange
        some { st1 with
               match_available := false
               verified := st1.verified ++ [(st1.i - 1, st1.prev_match, st1.prev_length)]
               store := ZopfliStoreLitLenDist st1.prev_length st1.prev_match st1.store
               i := r2.1, h := r2.2.1, inRange := r2.2.2 }
    else if lengthscore ≥ (ZOPFLI_MIN_MATCH : Int) ∧ leng < ZOPFLI_MAX_MATCH then
      some { st1 with match_available := true, prev_length := leng, prev_match := dist }
    else some (addToOutput ops array inend st1 leng dist lengthscore)

/-- The loop `for (i = instart; i < inend; i++)` of `ZopfliLZ77Greedy`; `none`
when the match finder gives no answer or the fuel runs out. -/
def greedyLoop (find : ZopfliHash → Nat → (Nat → Nat) → Option MatchResult)
    (ops : HashOps) (array : Nat → Nat) (inend : Nat) :
    Nat → GreedyState → Option GreedyState
  | 0, st => if st.i < inend then none else some st
  | fuel + 1, st =>
    if st.i < inend then
      match greedyBody find ops array inend st with
      | none => none
      | some st1 => greedyLoop find ops array inend fuel { st1 with i := st1.i + 1 }
    else some st

/-- The variable `windowstart` of `ZopfliLZ77Greedy`. -/
def windowStart (instart : Nat) : Nat :=
  if instart > ZOPFLI_WINDOW_SIZE then instart - ZOPFLI_WINDOW_SIZE else 0

/-- The hash after `ZopfliInitHash`, `ZopfliWarmupHash(in, windowstart, inend, h)`
and `ZopfliUpdateHash(in, j, inend, h)` for `j = windowstart, ..., i - 1`. -/
def hashBefore (ops : HashOps) (array : Nat → Nat) (instart inend i : Nat) : ZopfliHash :=
  (List.range' (windowStart instart) (i - windowStart instart)).foldl
    (fun h j => ops.update array j inend h)
    (ops.warmup array (windowStart instart) inend (ops.init ZOPFLI_WINDOW_SIZE))

/-- The function `ZopfliLZ77Greedy` with the match finder as a parameter.  The loop index
grows in every pass, so `inend - instart` passes are a safe supply of fuel.  The
array `dummysublen` is uninitialised in C; it starts as the zero array here. -/
def LZ77GreedyWith (find : ZopfliHash → Nat → (Nat → Nat) → Option MatchResult)
    (ops : HashOps) (array : Nat → Nat) (instart inend : Nat) (store : ZopfliLZ77Store) :
    Option GreedyState :=
  let st0 : GreedyState :=
    { i := instart, h := hashBefore ops array instart inend instart, store := store,
      dummysublen := fun _ => 0, prev_length := 0, prev_match := 0,
      match_available := false, verified := [], inRange := true }
  if instart = inend then some st0
  else greedyLoop find ops array inend (inend - instart) st0

/-- The function `ZopfliLZ77Greedy(s, in, instart, inend, store)` for a block state without
longest-match cache. -/
def ZopfliLZ77Greedy (b : Build) (ops : HashOps) (array : Nat → Nat) (instart inend : Nat)
    (store : ZopfliLZ77Store) : Option GreedyState :=
  LZ77GreedyWith
    (fun h i sublen => ZopfliFindLongestMatch b h array i inend ZOPFLI_MAX_MATCH (some sublen))
    ops array instart inend store

/-- The conversion loop of `ZopfliBlockSplit`: `n` iterations of
`for (i = 0; i < store.size; i++)` are left; `out` is `_splitpoints` (so
`_npoints` is its length) and `pos` the byte position of symbol `i`. -/
def convertLoop (store : ZopfliLZ77Store) (lz77splitpoints : List Nat) :
    Nat → Nat → Nat → List Nat → List Nat
  | 0, _, _, out => out
  | n + 1, i, pos, out =>
    let out1 := if lz77splitpoints.getD out.length 0 = i then out ++ [pos] else out
    if lz77splitpoints.getD out.length 0 = i ∧ out1.length = lz77splitpoints.length then out1
    else
      convertLoop store lz77splitpoints n (i + 1)
        (pos + (if store.dists.getD i 0 = 0 then 1 else store.litlens.getD i 0)) out1

/-- The function `ZopfliBlockSplit` with the match finder as a parameter: greedy LZ77, block
splitting on the LZ77 symbols, conversion to byte positions. -/
def BlockSplitWith (find : ZopfliHash → Nat → (Nat → Nat) → Option MatchResult)
    (ops : HashOps) (blockSize : List Nat → List Nat → Nat → Nat → Nat → Nat)
    (array : Nat → Nat) (instart inend maxblocks : Nat) : Option (List Nat) :=
  match LZ77GreedyWith find ops array instart inend ZopfliInitLZ77Store with
  | none => none
  | some g =>
    match ZopfliBlockSplitLZ77 blockSize g.store.litlens g.store.dists g.store.size
        maxblocks [] with
    | none => none
    | some lz77splitpoints =>
      if lz77splitpoints.length > 0 then
        some (convertLoop g.store lz77splitpoints g.store.size 0 instart [])
      else some []

/-- The function `ZopfliBlockSplit(options, in, instart, inend, maxblocks, &splitpoints,
&npoints)`; the block state it builds has no longest-match cache. -/
def ZopfliBlockSplit (b : Build) (ops : HashOps)
    (blockSize : List Nat → List Nat → Nat → Nat → Nat → Nat)
    (array : Nat → Nat) (instart inend maxblocks : Nat) : Option (List Nat) :=
  BlockSplitWith
    (fun h i sublen => ZopfliFindLongestMatch b h array i inend ZOPFLI_MAX_MATCH (some sublen))
    ops blockSize array instart inend maxblocks

/-- Length of the common prefix of the bytes at `a` and at `b`, bounded by `n`:
the number of leading offsets `k < n` with `array[a + k] == array[b + k]`. -/
def matchLength (array : Nat → Nat) : Nat → Nat → Nat → Nat
  | 0, _, _ => 0
  | n + 1, a, b => if array a = array b then matchLength array n (a + 1) (b + 1) + 1 else 0

/-- Well-formedness of the hash state `h` for a query at position `pos` of
`array[0 .. size)`, as `ZopfliFindLongestMatch` relies on it:
* `head[val]` is the slot of `pos` (`assert(pp == hpos)`);
* the chain links stay inside the window (`assert(p < ZOPFLI_WINDOW_SIZE)`);
* as long as the window has not wrapped (`pos + 1 < ZOPFLI_WINDOW_SIZE`) the
  slots in use link only to slots in use, which gives `assert(dist <= pos)`;
* for every position `q = pos - d` of the window, `same[q & mask]` bytes after
  `q` (as far as they lie below `size`) repeat the byte at `q`. -/
structure HashWF (h : ZopfliHash) (array : Nat → Nat) (pos size : Nat) : Prop where
  head_pos : h.head h.val.toNat = ((pos &&& ZOPFLI_WINDOW_MASK : Nat) : Int)
  prev_lt : ∀ s, s < ZOPFLI_WINDOW_SIZE → h.prev s < ZOPFLI_WINDOW_SIZE
  prev2_lt : ∀ s, s < ZOPFLI_WINDOW_SIZE → h.prev2 s < ZOPFLI_WINDOW_SIZE
  links_seen : pos + 1 < ZOPFLI_WINDOW_SIZE → ∀ s, s ≤ pos → h.prev s ≤ pos ∧ h.prev2 s ≤ pos
  same_run : ∀ d, d ≤ pos → d < ZOPFLI_WINDOW_SIZE →
    ∀ k, k ≤ h.same ((pos - d) &&& ZOPFLI_WINDOW_MASK) → pos - d + k < size →
      array (pos - d + k) = array (pos - d)

/-- What holds of the best match (`bestlength`, `bestdist`), of `sublen` and of the
examined distances `visited` during and after the chain walk; `limit` is the
clamped limit and the length of the candidate at distance `d` is
`matchLength array limit pos (pos - d)`. -/
structure BestInv (array : Nat → Nat) (pos limit bestlength bestdist : Nat)
    (sublen : Option (Nat → Nat)) (visited : List Nat) : Prop where
  bl_pos : 1 ≤ bestlength
  bl_le : bestlength ≤ limit
  vis_sorted : visited.Pairwise (· < ·)
  vis_range : ∀ d ∈ visited, 0 < d ∧ d ≤ pos ∧ d < ZOPFLI_WINDOW_SIZE
  vis_len : ∀ d ∈ visited, matchLength array limit pos (pos - d) ≤ bestlength
  no_best : bestlength < 2 → bestdist = 0
  best : 2 ≤ bestlength → bestdist ∈ visited ∧
    matchLength array limit pos (pos - bestdist) = bestlength ∧
      ∀ d ∈ visited, matchLength array limit pos (pos - d) = bestlength → bestdist ≤ d
  sub : ∀ s, sublen = some s → ∀ L, 2 ≤ L → L ≤ bestlength →
    s L ∈ visited ∧ L ≤ matchLength array limit pos (pos - s L) ∧
      ∀ d ∈ visited, L ≤ matchLength array limit pos (pos - d) → s L ≤ d
  sub_best : ∀ s, sublen = some s → 2 ≤ bestlength → s bestlength = bestdist

/-- What holds of the recorded lengths during and after the chain walk: there is
one for each examined distance; each is `0` or the bounded common prefix of the
candidate; a recorded length of 1 was found when the best length was already
at least 2; and the best match is recorded with its length. -/
structure LenInv (array : Nat → Nat) (pos limit bestlength bestdist : Nat)
    (visited lengths : List Nat) : Prop where
  len_eq : lengths.length = visited.length
  computed : ∀ e ∈ visited.zip lengths,
    e.2 = 0 ∨ e.2 = matchLength array limit pos (pos - e.1)
  one : ∀ e ∈ visited.zip lengths, e.2 = 1 → 2 ≤ bestlength
  best_rec : 2 ≤ bestlength → (bestdist, bestlength) ∈ visited.zip lengths

/-- The invariant `BestInv` of a state of the chain walk. -/
abbrev WalkInv (array : Nat → Nat) (pos limit : Nat) (st : WalkState) : Prop :=
  BestInv array pos limit st.bestlength st.bestdist st.sublen st.visited

/-- What holds at the head of the loop of the chain walk: the distance is
positive and beyond every examined one, the current slot lies in the window and,
before the window has wrapped, is the slot of `pos - dist`; `fuel` iterations
are enough to bring `dist` to the window size. -/
structure WalkHead (pos fuel : Nat) (st : WalkState) : Prop where
  dist_pos : 0 < st.dist
  vis_lt : ∀ d ∈ st.visited, d < st.dist
  p_lt : st.p < ZOPFLI_WINDOW_SIZE
  early : pos + 1 < ZOPFLI_WINDOW_SIZE → st.dist < ZOPFLI_WINDOW_SIZE → st.dist + st.p = pos
  fuel_ok : ZOPFLI_WINDOW_SIZE < st.dist + fuel

/-- A hash state without any chain: every slot links to itself (`prev[p] == p`,
the "uninited prev value" of the chain walk) and no run is recorded. -/
def unlinkedHash : ZopfliHash :=
  { head := fun _ => 0, prev := fun s => s, hashval := fun _ => 0, val := 0,
    head2 := fun _ => 0, prev2 := fun s => s, hashval2 := fun _ => 0, val2 := 0,
    same := fun _ => 0 }

/-- A build with the chain counter compiled in and 8-byte comparison. -/
def build64 : Build := { maxChainHits := 8192, wordSize := WordSize.eight }

/-- A hash state for a query at `pos` with a single chain through all earlier
positions: `head` holds the slot of `pos`, every slot links to the slot before
it (slot 0 to itself), and no run is recorded. -/
def chainedHash (pos : Nat) : ZopfliHash :=
  { head := fun _ => ((pos &&& ZOPFLI_WINDOW_MASK : Nat) : Int), prev := fun s => s - 1,
    hashval := fun _ => 0, val := 0,
    head2 := fun _ => ((pos &&& ZOPFLI_WINDOW_MASK : Nat) : Int), prev2 := fun s => s - 1,
    hashval2 := fun _ => 0, val2 := 0, same := fun _ => 0 }

/-- The bytes `0 1 2 0 1 2 ...`, a sequence of period 3. -/
def period3 : Nat → Nat := fun i => i % 3

/-- The hash at the query for position `i`: `hashBefore` followed by
`ZopfliUpdateHash(in, i, inend, h)`. -/
def hashAt (ops : HashOps) (array : Nat → Nat) (instart inend i : Nat) : ZopfliHash :=
  ops.update array i inend (hashBefore ops array instart inend i)

/-- What `ZopfliVerifyLenDist` and the LZ77 format ask of a back-reference
`v = (pos, dist, length)` into `array[0 .. inend)`. -/
def GoodRef (array : Nat → Nat) (inend : Nat) (v : Nat × Nat × Nat) : Prop :=
  1 ≤ v.2.1 ∧ 3 ≤ v.2.2 ∧ v.2.2 ≤ 258 ∧ v.2.1 ≤ v.1 ∧ v.1 + v.2.2 ≤ inend ∧
    ∀ k, k < v.2.2 → array (v.1 - v.2.1 + k) = array (v.1 + k)

/-- The store `out` is `store0` with the `(litlen, dist)` entries `es` appended. -/
def Appended (store0 out : ZopfliLZ77Store) (es : List (Nat × Nat)) : Prop :=
  out.litlens = store0.litlens ++ es.map Prod.fst ∧
    out.dists = store0.dists ++ es.map Prod.snd

/-- Invariant of the main loop of `ZopfliLZ77Greedy` at the loop head: the hash
has seen the positions before `i`; every verified back-reference is good; a
deferred match is a good back-reference for position `i - 1`; the
back-references among the appended entries are the verified ones. -/
structure GreedyInv (ops : HashOps) (array : Nat → Nat) (instart inend : Nat)
    (store0 : ZopfliLZ77Store) (st : GreedyState) : Prop where
  hash : st.h = hashBefore ops array instart inend st.i
  i_ge : instart ≤ st.i
  ver : ∀ v ∈ st.verified, GoodRef array inend v
  avail : st.match_available = true →
    instart < st.i ∧ GoodRef array inend (st.i - 1, st.prev_match, st.prev_length)
  app : ∃ es, Appended store0 st.store es ∧
    es.filter (fun e => decide (e.2 ≠ 0)) = st.verified.map (fun v => (v.2.2, v.2.1))

/-- Hash operations that keep a single chain through all positions: the update
at `pos` yields `chainedHash pos`. -/
def chainedOps : HashOps :=
  { init := fun _ => unlinkedHash, warmup := fun _ _ _ h => h,
    update := fun _ pos _ _ => chainedHash pos }

/-- Number of symbols that the greedy loop has committed to: the entries of the
store, plus one for a deferred match. -/
def committed (st : GreedyState) : Nat :=
  st.store.litlens.length + (if st.match_available then 1 else 0)

/-- Total estimated cost of the partition `[0, s_1), [s_1, s_2), ..., [s_m, llsize)`
implied by the split points `s_1 < ... < s_m`, the blocks being taken from
`start` on. -/
def partitionCost (blockSize : List Nat → List Nat → Nat → Nat → Nat → Nat)
    (litlens dists : List Nat) (llsize : Nat) : Nat → List Nat → Nat
  | start, [] => EstimateCost blockSize litlens dists start llsize
  | start, s :: rest =>
    EstimateCost blockSize litlens dists start s
      + partitionCost blockSize litlens dists llsize s rest

/-- A block-size estimator given by a table, for a store of 13 symbols: the blocks
`[0, 2)`, `[2, 13)`, `[2, 4)` and `[4, 12)` cost nothing, `[0, 13)` costs 10 bits,
`[4, 13)` costs 100 bits and every other block 1 bit. -/
def tableCost (_litlens _dists : List Nat) (lstart lend _btype : Nat) : Nat :=
  if (lstart, lend) = (0, 2) ∨ (lstart, lend) = (2, 13) ∨ (lstart, lend) = (2, 4)
      ∨ (lstart, lend) = (4, 12) then 0
  else if (lstart, lend) = (0, 13) then 10
  else if (lstart, lend) = (4, 13) then 100
  else 1

/-- Number of block starts below `n` that are not yet marked in `done`. -/
def notDone (done : Nat → Bool) (n : Nat) : Nat :=
  (List.range n).countP (fun i => !done i)

/-! ## util.c

The distance and length functions are those of the `#else` branch, compiled when
`_MSC_VER` is not defined.  The `int` arguments and results of the distance
functions are integers; the length functions index their tables with a natural
number; the tables are lists, indexed from 0. -/

/-- The table `ZopfliGetLengthSymbolTable[259]`: the length symbol of each length. -/
def ZopfliGetLengthSymbolTable : List Nat :=
  [0, 0, 0, 257, 258, 259, 260, 261, 262, 263, 264, 265, 265, 266, 266, 267,
   267, 268, 268, 269, 269, 269, 269, 270, 270, 270, 270, 271, 271, 271, 271, 272,
   272, 272, 272, 273, 273, 273, 273, 273, 273, 273, 273, 274, 274, 274, 274, 274,
   274, 274, 274, 275, 275, 275, 275, 275, 275, 275, 275, 276, 276, 276, 276, 276,
   276, 276, 276, 277, 277, 277, 277, 277, 277, 277, 277, 277, 277, 277, 277, 277,
   277, 277, 277, 278, 278, 278, 278, 278, 278, 278, 278, 278, 278, 278, 278, 278,
   278, 278, 278, 279, 279, 279, 279, 279, 279, 279, 279, 279, 279, 279, 279, 279,
   279, 279, 279, 280, 280, 280, 280, 280, 280, 280, 280, 280, 280, 280, 280, 280,
   280, 280, 280, 281, 281, 281, 281, 281, 281, 281, 281, 281, 281, 281, 281, 281,
   281, 281, 281, 281, 281, 281, 281, 281, 281, 281, 281, 281, 281, 281, 281, 281,
   281, 281, 281, 282, 282, 282, 282, 282, 282, 282, 282, 282, 282, 282, 282, 282,
   282, 282, 282, 282, 282, 282, 282, 282, 282, 282, 282, 282, 282, 282, 282, 282,
   282, 282, 282, 283, 283, 283, 283, 283, 283, 283, 283, 283, 283, 283, 283, 283,
   283, 283, 283, 283, 283, 283, 283, 283, 283, 283, 283, 283, 283, 283, 283, 283,
   283, 283, 283, 284, 284, 284, 284, 284, 284, 284, 284, 284, 284, 284, 284, 284,
   284, 284, 284, 284, 284, 284, 284, 284, 284, 284, 284, 284, 284, 284, 284, 284,
   284, 284, 285]

/-- The table `ZopfliGetLengthExtraBitsTable[259]`: the number of extra bits of each
length. -/
def ZopfliGetLengthExtraBitsTable : List Nat :=
  [0, 0, 0, 0, 0, 0, 0, 0, 0, 0, 0, 1, 1, 1, 1, 1, 1, 1, 1, 2, 2, 2, 2, 2,
   2, 2, 2, 2, 2, 2, 2, 2, 2, 2, 2, 3, 3, 3, 3, 3, 3, 3, 3, 3, 3, 3, 3, 3,
   3, 3, 3, 3, 3, 3, 3, 3, 3, 3, 3, 3, 3, 3, 3, 3, 3, 3, 3, 4, 4, 4, 4, 4,
   4, 4, 4, 4, 4, 4, 4, 4, 4, 4, 4, 4, 4, 4, 4, 4, 4, 4, 4, 4, 4, 4, 4, 4,
   4, 4, 4, 4, 4, 4, 4, 4, 4, 4, 4, 4, 4, 4, 4, 4, 4, 4, 4, 4, 4, 4, 4, 4,
   4, 4, 4, 4, 4, 4, 4, 4, 4, 4, 4, 5, 5, 5, 5, 5, 5, 5, 5, 5, 5, 5, 5, 5,
   5, 5, 5, 5, 5, 5, 5, 5, 5, 5, 5, 5, 5, 5, 5, 5, 5, 5, 5, 5, 5, 5, 5, 5,
   5, 5, 5, 5, 5, 5, 5, 5, 5, 5, 5, 5, 5, 5, 5, 5, 5, 5, 5, 5, 5, 5, 5, 5,
   5, 5, 5, 5, 5, 5, 5, 5, 5, 5, 5, 5, 5, 5, 5, 5, 5, 5, 5, 5, 5, 5, 5, 5,
   5, 5, 5, 5, 5, 5, 5, 5, 5, 5, 5, 5, 5, 5, 5, 5, 5, 5, 5, 5, 5, 5, 5, 5,
   5, 5, 5, 5, 5, 5, 5, 5, 5, 5, 5, 5, 5, 5, 5, 5, 5, 5, 0]

/-- The table `ZopfliGetLengthExtraBitsValueTable[259]`: the value of the extra bits of
each length. -/
def ZopfliGetLengthExtraBitsValueTable : List Nat :=
  [0, 0, 0, 0, 0, 0, 0, 0, 0, 0, 0, 0, 1, 0, 1, 0, 1, 0, 1, 0, 1, 2, 3, 0,
   1, 2, 3, 0, 1, 2, 3, 0, 1, 2, 3, 0, 1, 2, 3, 4, 5, 6, 7, 0, 1, 2, 3, 4,
   5, 6, 7, 0, 1, 2, 3, 4, 5, 6, 7, 0, 1, 2, 3, 4, 5, 6, 7, 0, 1, 2, 3, 4,
   5, 6, 7, 8, 9, 10, 11, 12, 13, 14, 15, 0, 1, 2, 3, 4, 5, 6, 7, 8, 9, 10, 11, 12,
   13, 14, 15, 0, 1, 2, 3, 4, 5, 6, 7, 8, 9, 10, 11, 12, 13, 14, 15, 0, 1, 2, 3, 4,
   5, 6, 7, 8, 9, 10, 11, 12, 13, 14, 15, 0, 1, 2, 3, 4, 5, 6, 7, 8, 9, 10, 11, 12,
   13, 14, 15, 16, 17, 18, 19, 20, 21, 22, 23, 24, 25, 26, 27, 28, 29, 30, 31, 0, 1, 2, 3, 4,
   5, 6, 7, 8, 9, 10, 11, 12, 13, 14, 15, 16, 17, 18, 19, 20, 21, 22, 23, 24, 25, 26, 27, 28,
   29, 30, 31, 0, 1, 2, 3, 4, 5, 6, 7, 8, 9, 10, 11, 12, 13, 14, 15, 16, 17, 18, 19, 20,
   21, 22, 23, 24, 25, 26, 27, 28, 29, 30, 31, 0, 1, 2, 3, 4, 5, 6, 7, 8, 9, 10, 11, 12,
   13, 14, 15, 16, 17, 18, 19, 20, 21, 22, 23, 24, 25, 26, 27, 28, 29, 30, 0]

/-- The table `DistSymbols[30]`: the first distance of each distance symbol, the
symbols 0 to 14 followed by the symbols 15 to 29. -/
def DistSymbols : List Nat :=
  [1, 2, 3, 4, 5, 7, 9, 13, 17, 25, 33, 49, 65, 97, 129] ++
    [193, 257, 385, 513, 769, 1025, 1537, 2049, 3073, 4097, 6145, 8193, 12289, 16385, 24577]

/-- The function `ZopfliGetDistExtraBits(dist)`. -/
def ZopfliGetDistExtraBits (dist : Int) : Int :=
  if dist < 5 then 0
  else if dist < 9 then 1
  else if dist < 17 then 2
  else if dist < 33 then 3
  else if dist < 65 then 4
  else if dist < 129 then 5
  else if dist < 257 then 6
  else if dist < 513 then 7
  else if dist < 1025 then 8
  else if dist < 2049 then 9
  else if dist < 4097 then 10
  else if dist < 8193 then 11
  else if dist < 16385 then 12
  else 13

/-- The operation `x & m` of C on an `int` `x` that is not negative and a mask `m`. -/
def maskBits (x : Int) (m : Nat) : Int := ((x.toNat &&& m : Nat) : Int)

/-- The function `ZopfliGetDistExtraBitsValue(dist)`; in every branch that masks, the
masked difference is not negative. -/
def ZopfliGetDistExtraBitsValue (dist : Int) : Int :=
  if dist < 5 then 0
  else if dist < 9 then maskBits (dist - 5) 1
  else if dist < 17 then maskBits (dist - 9) 3
  else if dist < 33 then maskBits (dist - 17) 7
  else if dist < 65 then maskBits (dist - 33) 15
  else if dist < 129 then maskBits (dist - 65) 31
  else if dist < 257 then maskBits (dist - 129) 63
  else if dist < 513 then maskBits (dist - 257) 127
  else if dist < 1025 then maskBits (dist - 513) 255
  else if dist < 2049 then maskBits (dist - 1025) 511
  else if dist < 4097 then maskBits (dist - 2049) 1023
  else if dist < 8193 then maskBits (dist - 4097) 2047
  else if dist < 16385 then maskBits (dist - 8193) 4095
  else maskBits (dist - 16385) 8191

/-- The function `ZopfliGetDistSymbol(dist)`. -/
def ZopfliGetDistSymbol (dist : Int) : Int :=
  if dist < 193 then
    if dist < 13 then
      if dist < 5 then dist - 1
      else if dist < 7 then 4
      else if dist < 9 then 5
      else 6
    else
      if dist < 17 then 7
      else if dist < 25 then 8
      else if dist < 33 then 9
      else if dist < 49 then 10
      else if dist < 65 then 11
      else if dist < 97 then 12
      else if dist < 129 then 13
      else 14
  else
    if dist < 2049 then
      if dist < 257 then 15
      else if dist < 385 then 16
      else if dist < 513 then 17
      else if dist < 769 then 18
      else if dist < 1025 then 19
      else if dist < 1537 then 20
      else 21
    else
      if dist < 3073 then 22
      else if dist < 4097 then 23
      else if dist < 6145 then 24
      else if dist < 8193 then 25
      else if dist < 12289 then 26
      else if dist < 16385 then 27
      else if dist < 24577 then 28
      else 29

/-- The function `ZopfliGetLengthSymbol(l)`: `ZopfliGetLengthSymbolTable[l]`, for `l` in
`0 ..= 258`. -/
def ZopfliGetLengthSymbol (l : Nat) : Nat := ZopfliGetLengthSymbolTable.getD l 0

/-- The function `ZopfliGetLengthExtraBits(l)`: `ZopfliGetLengthExtraBitsTable[l]`, for `l` in
`0 ..= 258`. -/
def ZopfliGetLengthExtraBits (l : Nat) : Nat := ZopfliGetLengthExtraBitsTable.getD l 0

/-- The function `ZopfliGetLengthExtraBitsValue(l)`: `ZopfliGetLengthExtraBitsValueTable[l]`,
for `l` in `0 ..= 258`. -/
def ZopfliGetLengthExtraBitsValue (l : Nat) : Nat :=
  ZopfliGetLengthExtraBitsValueTable.getD l 0

/-! ## Conversion of split points, store buffers, longest-match cache -/

/-- Number of input bytes that symbol `i` of the store stands for
(`store.dists[i] == 0 ? 1 : store.litlens[i]`). -/
def symbolBytes (store : ZopfliLZ77Store) (i : Nat) : Nat :=
  if store.dists.getD i 0 = 0 then 1 else store.litlens.getD i 0

/-- Byte position of the LZ77 symbol `s`: `instart` plus the bytes of the symbols
before `s`. -/
def bytePosition (store : ZopfliLZ77Store) (instart s : Nat) : Nat :=
  instart + ((List.range s).map (symbolBytes store)).sum

/-- The store as `ZopfliStoreLitLenDist` finds it in memory: `size`, the contents
of the buffers `litlens` and `dists`, and the number of elements each buffer is
allocated for (0 for the null pointer of an initialised store). -/
structure StoreBuffers where
  size : Nat
  litlens : Nat → Nat
  dists : Nat → Nat
  litlensCap : Nat
  distsCap : Nat

/-- The memory after `ZopfliInitLZ77Store`: size 0 and two null pointers. -/
def StoreBuffers.init : StoreBuffers :=
  { size := 0, litlens := fun _ => 0, dists := fun _ => 0, litlensCap := 0, distsCap := 0 }

/-- The function `ZopfliStoreLitLenDist(length, dist, store)` on the buffers.  When
`!(size & (size-1))` holds (for `size == 0` the operand `size - 1` wraps, and
`0 & x` is 0 all the same) both buffers are reallocated, to 1 element for
`size == 0` and to `size * 2` elements otherwise; `realloc` keeps the elements
and is taken to succeed.  Then `length` and `dist` are written at index `size`;
the result is `none` when a write falls outside its buffer. -/
def StoreBuffers.ZopfliStoreLitLenDist (length dist : Nat) (s : StoreBuffers) :
    Option StoreBuffers :=
  let grow : Bool := decide (s.size &&& (s.size - 1) = 0)
  let lcap := if grow then (if s.size = 0 then 1 else s.size * 2) else s.litlensCap
  let dcap := if grow then (if s.size = 0 then 1 else s.size * 2) else s.distsCap
  if s.size < lcap ∧ s.size < dcap then
    some { size := s.size + 1
           litlens := fun i => if i = s.size then length else s.litlens i
           dists := fun i => if i = s.size then dist else s.dists i
           litlensCap := lcap
           distsCap := dcap }
  else none

/-- The function `ZopfliCopyLZ77Store(source, dest)` on the buffers: the old buffers of
`dest` are freed and `dest` gets two buffers of exactly `source->size`
elements (`malloc`, taken to succeed) that hold the elements of `source`; an
element that the loop does not write reads as 0 here. -/
def StoreBuffers.ZopfliCopyLZ77Store (source : StoreBuffers) : StoreBuffers :=
  { size := source.size
    litlens := fun i => if i < source.size then source.litlens i else 0
    dists := fun i => if i < source.size then source.dists i else 0
    litlensCap := source.size
    distsCap := source.size }

/-- The sequences that the buffers hold: their first `size` elements. -/
def StoreBuffers.toStore (s : StoreBuffers) : ZopfliLZ77Store :=
  { litlens := (List.range s.size).map s.litlens, dists := (List.range s.size).map s.dists }

/-- The allocation discipline of `ZopfliStoreLitLenDist`: each buffer has room for
`size` elements and a capacity that is 0 or a power of two
(`cap & (cap - 1) == 0`). -/
def StoreBuffers.Allocated (s : StoreBuffers) : Prop :=
  s.size ≤ s.litlensCap ∧ s.size ≤ s.distsCap ∧
    s.litlensCap &&& (s.litlensCap - 1) = 0 ∧ s.distsCap &&& (s.distsCap - 1) = 0

/-- The longest-match cache (`ZopfliLongestMatchCache`): the arrays `length` and
`dist`, indexed by the position in the block, and the packed table `sublen`.
The structure is declared in `cache.h`, which is not part of the sources at
hand; the elements of `length` and `dist` hold the values written to them. -/
structure ZopfliLongestMatchCache where
  length : Nat → Nat
  dist : Nat → Nat
  sublen : Nat → Nat

/-- The functions of `cache.c`, which is not part of the sources at hand:
`ZopfliMaxCachedSublen(lmc, pos, length)`, `ZopfliCacheToSublen(lmc, pos, length,
sublen)` (its result is the array `sublen` after the call) and
`ZopfliSublenToCache(sublen, pos, length, lmc)` (its result is the cache after the
call). -/
structure CacheOps where
  ZopfliMaxCachedSublen : ZopfliLongestMatchCache → Nat → Nat → Nat
  ZopfliCacheToSublen : ZopfliLongestMatchCache → Nat → Nat → (Nat → Nat) → (Nat → Nat)
  ZopfliSublenToCache : (Nat → Nat) → Nat → Nat → ZopfliLongestMatchCache →
    ZopfliLongestMatchCache

/-- Outcome of `TryGetFromLongestMatchCache`: return value 1 with the outputs
`sublen`, `*distance` and `*length`, or return value 0 with the value of `*limit`
after the call. -/
inductive CacheLookup where
  | hit (sublen : Option (Nat → Nat)) (distance length : Nat)
  | miss (limit : Nat)

/-- The function `TryGetFromLongestMatchCache(lmc, lmcpos, &limit, sublen, &distance,
&length)`; `*distance` and `*length` are `unsigned short`.  The result is `none`
when `assert(sublen[len] == lmcdist)` fails. -/
def TryGetFromLongestMatchCache (c : CacheOps) (lmc : ZopfliLongestMatchCache)
    (lmcpos limit : Nat) (sublen : Option (Nat → Nat)) : Option CacheLookup :=
  let lmclength := lmc.length lmcpos
  let lmcdist := lmc.dist lmcpos
  let cachedlen := c.ZopfliMaxCachedSublen lmc lmcpos lmclength
  let cache_available : Bool := decide (lmclength = 0 ∨ lmcdist ≠ 0)
  let limit_ok_for_cache : Bool := cache_available &&
    (decide (limit = ZOPFLI_MAX_MATCH) || decide (lmclength ≤ limit) ||
      (sublen.isSome && decide (cachedlen ≥ limit)))
  if limit_ok_for_cache then
    if sublen.isNone ∨ lmclength ≤ cachedlen then
      let len := if lmclength > limit then limit else lmclength
      match sublen with
      | none => some (CacheLookup.hit none (lmcdist % 65536) (len % 65536))
      | some s =>
        let s1 := c.ZopfliCacheToSublen lmc lmcpos len s
        if limit = ZOPFLI_MAX_MATCH ∧ len ≥ ZOPFLI_MIN_MATCH ∧ s1 len ≠ lmcdist then none
        else some (CacheLookup.hit (some s1) (s1 len % 65536) (len % 65536))
    else some (CacheLookup.miss lmclength)
  else some (CacheLookup.miss limit)

/-- The function `StoreInLongestMatchCache(lmc, lmcpos, limit, sublen, distance, length)`:
the cache after the call, or `none` when `assert(lmclength == 1 && lmcdist == 0)`
or `assert(!(lmclength == 1 && lmcdist == 0))` fails. -/
def StoreInLongestMatchCache (c : CacheOps) (lmc : ZopfliLongestMatchCache)
    (lmcpos limit : Nat) (sublen : Option (Nat → Nat)) (distance length : Nat) :
    Option ZopfliLongestMatchCache :=
  let lmclength := lmc.length lmcpos
  let lmcdist := lmc.dist lmcpos
  let cache_available : Bool := decide (lmclength = 0 ∨ lmcdist ≠ 0)
  match sublen with
  | none => some lmc
  | some s =>
    if limit = ZOPFLI_MAX_MATCH ∧ cache_available = false then
      if lmclength = 1 ∧ lmcdist = 0 then
        let lmcdist1 := if length < ZOPFLI_MIN_MATCH then 0 else distance
        let lmclength1 := if length < ZOPFLI_MIN_MATCH then 0 else length
        if lmclength1 = 1 ∧ lmcdist1 = 0 then none
        else
          some (c.ZopfliSublenToCache s lmcpos length
            { lmc with dist := Function.update lmc.dist lmcpos lmcdist1
                       length := Function.update lmc.length lmcpos lmclength1 })
      else none
    else some lmc

/-- The function `ZopfliFindLongestMatch` for a block state with a longest-match cache
(`s->lmc != 0`) and block start `blockstart`: the answer and the cache after the
call.  The result is `none` when an assertion fails. -/
def ZopfliFindLongestMatchLMC (b : Build) (c : CacheOps) (lmc : ZopfliLongestMatchCache)
    (blockstart : Nat) (h : ZopfliHash) (array : Nat → Nat) (pos size limit : Nat)
    (sublen : Option (Nat → Nat)) : Option (MatchResult × ZopfliLongestMatchCache) :=
  let lmcpos := pos - blockstart
  match TryGetFromLongestMatchCache c lmc lmcpos limit sublen with
  | none => none
  | some (CacheLookup.hit sublen1 distance length) =>
    if pos + length ≤ size then
      some ({ sublen := sublen1, distance := distance, length := length, visited := [],
              lengths := [] }, lmc)
    else none
  | some (CacheLookup.miss limit1) =>
    if limit1 ≤ ZOPFLI_MAX_MATCH ∧ ZOPFLI_MIN_MATCH ≤ limit1 ∧ pos < size then
      match ZopfliFindLongestMatch b h array pos size limit1 sublen with
      | none => none
      | some r =>
        if size - pos < ZOPFLI_MIN_MATCH then some (r, lmc)
        else
          (StoreInLongestMatchCache c lmc lmcpos (clampedLimit pos size limit1) r.sublen
            r.distance r.length).map (fun lmc1 => (r, lmc1))
    else none

/-- A sequence of calls of `StoreInLongestMatchCache`, each given as
`(lmcpos, limit, sublen, distance, length)`, one after the other. -/
def storeSequence (c : CacheOps) :
    List (Nat × Nat × Option (Nat → Nat) × Nat × Nat) → ZopfliLongestMatchCache →
      Option ZopfliLongestMatchCache
  | [], lmc => some lmc
  | call :: rest, lmc =>
    match StoreInLongestMatchCache c lmc call.1 call.2.1 call.2.2.1 call.2.2.2.1
        call.2.2.2.2 with
    | none => none
    | some lmc1 => storeSequence c rest lmc1

/-- Cache functions that keep no `sublen` data: nothing is cached, nothing is
written and nothing is read back. -/
def plainCache : CacheOps :=
  { ZopfliMaxCachedSublen := fun _ _ _ => 0
    ZopfliCacheToSublen := fun _ _ _ sublen => sublen
    ZopfliSublenToCache := fun _ _ _ lmc => lmc }

/-- A cache in which no slot is populated yet: every slot holds the sentinel
`length == 1`, `dist == 0`. -/
def freshCache : ZopfliLongestMatchCache :=
  { length := fun _ => 1, dist := fun _ => 0, sublen := fun _ => 0 }

/-- The function `ZopfliSublenToCache` writes the packed table only: it leaves the arrays
`length` and `dist` of the cache as they are. -/
def CacheOps.KeepsSlots (c : CacheOps) : Prop :=
  ∀ sublen pos length lmc,
    (c.ZopfliSublenToCache sublen pos length lmc).length = lmc.length ∧
      (c.ZopfliSublenToCache sublen pos length lmc).dist = lmc.dist

/-- Invariant of the main loop of `ZopfliLZ77Greedy` for the length scores: every
verified back-reference and the deferred match score at least 3, and so does
every appended entry with a distance. -/
structure ScoreInv (store0 : ZopfliLZ77Store) (st : GreedyState) : Prop where
  ver : ∀ v ∈ st.verified, 3 ≤ GetLengthScore v.2.2 v.2.1
  avail : st.match_available = true → 3 ≤ GetLengthScore st.prev_length st.prev_match
  app : ∃ es, Appended store0 st.store es ∧
    ∀ e ∈ es, e.2 ≠ 0 → 3 ≤ GetLengthScore e.1 e.2

/-- The 12 bytes `41 42 43 41 42 43 41 42 43 41 42 43` ("ABCABCABCABC"). -/
def abcInput : Nat → Nat :=
  fun i => [0x41, 0x42, 0x43, 0x41, 0x42, 0x43, 0x41, 0x42, 0x43, 0x41, 0x42, 0x43].getD i 0

/-! ## Records of runs, symbol counts, gzip container -/

/-- The probe positions at which the bracketed search of `FindMinimum` evaluates
`f`, in order of evaluation: a record of the run of `FindMinimumBracket` with the
same loop variables. -/
def bracketProbes (f : Nat → Nat) : Nat → Nat → Nat → Nat → List Nat
  | 0, _, _, _ => []
  | fuel + 1, start, stop, lastbest =>
    if stop - start ≤ NUM then []
    else
      let vp : Nat → Nat := fun i => f (probe start stop i)
      let besti := (bestProbe vp).1
      let best := (bestProbe vp).2
      let probes := (List.range NUM).map (probe start stop)
      if best > lastbest then probes
      else probes ++ bracketProbes f fuel
          (if besti = 0 then start else probe start stop (besti - 1))
          (if besti = NUM - 1 then stop else probe start stop (besti + 1))
          best

/-- One pass through the `for (;;)` loop of `ZopfliBlockSplitLZ77`, as a record: the
block `[lstart, lend)` it works on, the position `llpos` that `FindMinimum`
returns, the two costs, and `done` and the split points before (`done`,
`points`) and after (`done1`, `points1`) the `if` statement. -/
structure SplitPass where
  lstart : Nat
  lend : Nat
  llpos : Nat
  splitcost : Nat
  origcost : Nat
  done : Nat → Bool
  points : List Nat
  done1 : Nat → Bool
  points1 : List Nat

/-- The loop of `ZopfliBlockSplitLZ77` once more, returning the record of its passes
together with the final split points; the statements are those of
`splitLoop`. -/
def splitPasses (blockSize : List Nat → List Nat → Nat → Nat → Nat → Nat)
    (litlens dists : List Nat) (llsize maxblocks : Nat) :
    Nat → Nat → Nat → Nat → (Nat → Bool) → List Nat → Option (List SplitPass × List Nat)
  | 0, _, _, _, _, _ => none
  | fuel + 1, lstart, lend, numblocks, done, splitpoints =>
    if maxblocks > 0 ∧ numblocks ≥ maxblocks then some ([], splitpoints)
    else
      let llpos := FindMinimum (SplitCost blockSize litlens dists lstart lend) (lstart + 1) lend
      let splitcost := (EstimateCost blockSize litlens dists lstart llpos
        + EstimateCost blockSize litlens dists llpos lend) % 2 ^ 64
      let origcost := EstimateCost blockSize litlens dists lstart lend
      let refuse : Bool := decide (splitcost > origcost ∨ llpos = lstart + 1 ∨ llpos = lend)
      let done1 : Nat → Bool := if refuse then fun i => if i = lstart then true else done i else done
      let points1 := if refuse then splitpoints else AddSorted llpos splitpoints
      let numblocks1 := if refuse then numblocks else numblocks + 1
      let pass : SplitPass :=
        { lstart := lstart, lend := lend, llpos := llpos, splitcost := splitcost,
          origcost := origcost, done := done, points := splitpoints, done1 := done1,
          points1 := points1 }
      let r := FindLargestSplittableBlock llsize done1 points1 lstart lend
      if r.found = false then some ([pass], points1)
      else if r.lend - r.lstart < 10 then some ([pass], points1)
      else
        (splitPasses blockSize litlens dists llsize maxblocks fuel r.lstart r.lend numblocks1
          done1 points1).map (fun t => (pass :: t.1, t.2))

/-- A cost estimate whose sum wraps in `size_t`: the parts `[0, 5)` and `[5, 13)`
cost `2^63` each, the block `[0, 13)` costs 1, every other block costs 10. -/
def wrapCost : List Nat → List Nat → Nat → Nat → Nat → Nat :=
  fun _ _ lstart lend _ =>
    if (lstart = 0 ∧ lend = 5) ∨ (lstart = 5 ∧ lend = 13) then 2 ^ 63
    else if lstart = 0 ∧ lend = 13 then 1
    else 10

/-- Number of input bytes that the `(litlen, dist)` entries `es` stand for: 1 for
a literal (`dist == 0`), `litlen` for a back-reference. -/
def coveredBytes (es : List (Nat × Nat)) : Nat :=
  (es.map (fun e => if e.2 = 0 then 1 else e.1)).sum

/-- The statement `counts[k]++` on an array held as a list; `none` when `k` is
outside the array. -/
def bumpCount (counts : List Nat) (k : Nat) : Option (List Nat) :=
  if k < counts.length then some (counts.set k (counts.getD k 0 + 1)) else none

/-- The body of the loop `for (i = start; i < end; i++)` of `ZopfliLZ77Counts` on the
counters `(ll_count, d_count)`; `none` when it reads outside `litlens` /
`dists` or increments outside a counter array. -/
def countStep (litlens dists : List Nat) (acc : Option (List Nat × List Nat)) (i : Nat) :
    Option (List Nat × List Nat) :=
  match acc, litlens[i]?, dists[i]? with
  | some c, some litlen, some dist =>
    if dist = 0 then (bumpCount c.1 litlen).map (fun ll => (ll, c.2))
    else
      match bumpCount c.1 (ZopfliGetLengthSymbol litlen),
          bumpCount c.2 (ZopfliGetDistSymbol (Int.ofNat dist)).toNat with
      | some ll, some d => some (ll, d)
      | _, _ => none
  | _, _, _ => none

/-- The function `ZopfliLZ77Counts(litlens, dists, start, end, ll_count, d_count)`: returns
`(ll_count, d_count)`, arrays of 288 and 32 counters that start at 0; after
the loop `ll_count[256] = 1` is written.  The counters are `size_t`; a range
has fewer than `2^64` entries, so no counter wraps. -/
def ZopfliLZ77Counts (litlens dists : List Nat) (start stop : Nat) :
    Option (List Nat × List Nat) :=
  let counted := (List.range' start (stop - start)).foldl (countStep litlens dists)
    (some (List.replicate 288 0, List.replicate 32 0))
  counted.map (fun c => (c.1.set 256 1, c.2))

/-- The literal/length symbol of entry `i` of a store, as the specification
counts it: the literal value when `dists[i] == 0`, the length symbol of
`litlens[i]` otherwise. -/
def litLenSymbol (litlens dists : List Nat) (i : Nat) : Nat :=
  if dists.getD i 0 = 0 then litlens.getD i 0 else ZopfliGetLengthSymbol (litlens.getD i 0)

/-- The collaborators of `ZopfliGzipCompress` whose source is not part of `src/`:
`lodepng_crc32(in, insize)` of `crc.h`; `ZopfliDeflate(options, btype, final, in,
insize, &bp, out, outsize)` of `deflate.h`, as a function of `btype`, `final`,
the input, `bp` and the output so far that returns the new `bp` and output; and
the macro `ZOPFLI_APPEND_DATA(value, out, outsize)` of `util.h`, as a function of
the value and the output so far. -/
structure GzipOps where
  lodepng_crc32 : List Nat → Nat
  ZopfliDeflate : Nat → Nat → List Nat → Nat → List Nat → Nat × List Nat
  ZOPFLI_APPEND_DATA : Nat → List Nat → List Nat

/-- The function `ZopfliGzipCompress(options, in, insize, out, outsize)`: the output after
the call (`insize` is the length of `input`; the verbose printing is left
out). -/
def ZopfliGzipCompress (ops : GzipOps) (input : List Nat) (out : List Nat) : List Nat :=
  let crcvalue := ops.lodepng_crc32 input
  let insize := input.length
  let bp := 0
  let out := ops.ZOPFLI_APPEND_DATA 31 out
  let out := ops.ZOPFLI_APPEND_DATA 139 out
  let out := ops.ZOPFLI_APPEND_DATA 8 out
  let out := ops.ZOPFLI_APPEND_DATA 0 out
  let out := ops.ZOPFLI_APPEND_DATA 0 out
  let out := ops.ZOPFLI_APPEND_DATA 0 out
  let out := ops.ZOPFLI_APPEND_DATA 0 out
  let out := ops.ZOPFLI_APPEND_DATA 0 out
  let out := ops.ZOPFLI_APPEND_DATA 2 out
  let out := ops.ZOPFLI_APPEND_DATA 3 out
  let out := (ops.ZopfliDeflate 2 1 input bp out).2
  let out := ops.ZOPFLI_APPEND_DATA (crcvalue % 256) out
  let out := ops.ZOPFLI_APPEND_DATA ((crcvalue >>> 8) % 256) out
  let out := ops.ZOPFLI_APPEND_DATA ((crcvalue >>> 16) % 256) out
  let out := ops.ZOPFLI_APPEND_DATA ((crcvalue >>> 24) % 256) out
  let out := ops.ZOPFLI_APPEND_DATA (insize % 256) out
  let out := ops.ZOPFLI_APPEND_DATA ((insize >>> 8) % 256) out
  let out := ops.ZOPFLI_APPEND_DATA ((insize >>> 16) % 256) out
  ops.ZOPFLI_APPEND_DATA ((insize >>> 24) % 256) out

/-- Value of a little-endian byte sequence. -/
def littleEndian : List Nat → Nat
  | [] => 0
  | b :: bs => b + 256 * littleEndian bs

/-- Sample collaborators for `ZopfliGzipCompress`: a checksum that adds the bytes,
a deflate stand-in that appends the input as it is, and the append of one
byte. -/
def sampleGzipOps : GzipOps :=
  { lodepng_crc32 := fun input => input.sum
    ZopfliDeflate := fun _ _ input bp out => (bp, out ++ input)
    ZOPFLI_APPEND_DATA := fun value out => out ++ [value] }

/-- What holds of a pass `p` of the loop of `ZopfliBlockSplitLZ77`: the block has at
least 10 symbols and ends inside the store; `llpos`, `splitcost` and `origcost`
are the values the loop body computes; the three assertions of the body hold;
the block start is not yet done and `llpos` is not yet a split point; and the
`if` statement either marks the block start as done or inserts `llpos`. -/
structure PassInv (blockSize : List Nat → List Nat → Nat → Nat → Nat → Nat)
    (litlens dists : List Nat) (llsize : Nat) (p : SplitPass) : Prop where
  block : p.lstart + 10 ≤ p.lend ∧ p.lend ≤ llsize
  llpos_eq : p.llpos
    = FindMinimum (SplitCost blockSize litlens dists p.lstart p.lend) (p.lstart + 1) p.lend
  split_eq : p.splitcost = (EstimateCost blockSize litlens dists p.lstart p.llpos
    + EstimateCost blockSize litlens dists p.llpos p.lend) % 2 ^ 64
  orig_eq : p.origcost = EstimateCost blockSize litlens dists p.lstart p.lend
  asserts : p.lstart < p.lend ∧ p.llpos > p.lstart ∧ p.llpos < p.lend
  not_done : p.done p.lstart = false
  fresh : p.llpos ∉ p.points
  refused : p.splitcost > p.origcost ∨ p.llpos = p.lstart + 1 →
    p.points1 = p.points ∧ p.done1 = fun i => if i = p.lstart then true else p.done i
  inserted : ¬ (p.splitcost > p.origcost ∨ p.llpos = p.lstart + 1) →
    p.points1 = AddSorted p.llpos p.points ∧ p.done1 = p.done

/-- A cost with the same least value at 7 and at 9 and `SIZE_MAX` elsewhere. -/
def twoMinima : Nat → Nat := fun j => if j = 7 ∨ j = 9 then 3 else SIZE_MAX

/-- A cost that falls to 0 at 700 and rises again. -/
def veeCost : Nat → Nat := fun q => if q < 700 then 700 - q else q - 700

/-- Invariant of the main loop of `ZopfliLZ77Greedy` at the loop head, for the
coverage of the input: the hash has seen the positions before `i`; `i` lies
in `[instart, inend]`; no `assert(i < inend)` has failed; the appended entries
stand for the bytes `[instart, i)`, less the one byte at `i - 1` for which a
match is deferred; a deferred match has length at least 3, a distance of at
least 1 and ends inside the input. -/
structure CoverInv (ops : HashOps) (array : Nat → Nat) (instart inend : Nat)
    (store0 : ZopfliLZ77Store) (st : GreedyState) : Prop where
  hash : st.h = hashBefore ops array instart inend st.i
  i_ge : instart ≤ st.i
  i_le : st.i ≤ inend
  ok : st.inRange = true
  cover : ∃ es, Appended store0 st.store es ∧
    coveredBytes es + (if st.match_available = true then 1 else 0) = st.i - instart
  avail : st.match_available = true →
    instart < st.i ∧ 3 ≤ st.prev_length ∧ 1 ≤ st.prev_match ∧
      st.i - 1 + st.prev_length ≤ inend

/-! ## Block splitter: auxiliary facts -/

theorem FindMinimumScan_range (f : Nat → Nat) (n i best result : Nat) :
    FindMinimumScan f n i best result = result ∨
      (i ≤ FindMinimumScan f n i best result ∧ FindMinimumScan f n i best result < i + n) := by
  induction n generalizing i best result with
  | zero => left; rfl
  | succ n ih =>
    simp only [FindMinimumScan]
    split
    · rcases ih (i + 1) (f i) i with h | h
      · right; rw [h]; omega
      · right; omega
    · rcases ih (i + 1) best result with h | h
      · left; exact h
      · right; omega

theorem bestProbe_fst_lt (vp : Nat → Nat) : (bestProbe vp).1 < NUM := by
  unfold bestProbe
  have key : ∀ (l : List Nat) (acc : Nat × Nat), acc.1 < NUM → (∀ i ∈ l, i < NUM) →
      (l.foldl (fun acc i => if vp i < acc.2 then (i, vp i) else acc) acc).1 < NUM := by
    intro l
    induction l with
    | nil => intro acc h _; simpa using h
    | cons x xs ih =>
      intro acc h hl
      simp only [List.foldl_cons]
      apply ih
      · split
        · exact hl x (List.mem_cons_self _ _)
        · exact h
      · intro i hi; exact hl i (List.mem_cons_of_mem _ hi)
  apply key
  · simp [NUM]
  · intro i hi
    simp [NUM, List.mem_range'] at hi
    simp [NUM]; omega

theorem probe_bounds (start stop i : Nat) (h : NUM < stop - start) (hi : i < NUM) :
    start < probe start stop i ∧ probe start stop i < stop := by
  unfold probe
  simp only [NUM] at *
  have h1 : (stop - start) / 10 * 10 ≤ stop - start := Nat.div_mul_le_self _ _
  have h2 : 0 < (stop - start) / 10 := Nat.div_pos (by omega) (by decide)
  generalize (stop - start) / 10 = s at h1 h2
  interval_cases i <;> omega

theorem bracket_shrinks (start stop b : Nat) (h : NUM < stop - start) (hb : b < NUM) :
    start ≤ (if b = 0 then start else probe start stop (b - 1)) ∧
    (if b = NUM - 1 then stop else probe start stop (b + 1)) ≤ stop ∧
    (if b = NUM - 1 then stop else probe start stop (b + 1))
      - (if b = 0 then start else probe start stop (b - 1)) < stop - start := by
  unfold probe
  simp only [NUM] at *
  have h1 : (stop - start) / 10 * 10 ≤ stop - start := Nat.div_mul_le_self _ _
  have h2 : 0 < (stop - start) / 10 := Nat.div_pos (by omega) (by decide)
  generalize (stop - start) / 10 = s at h1 h2
  interval_cases b <;> simp <;> omega

theorem FindMinimumBracket_range (f : Nat → Nat) (fuel : Nat) :
    ∀ start stop lastbest pos,
      FindMinimumBracket f fuel start stop lastbest pos = pos ∨
        (start < FindMinimumBracket f fuel start stop lastbest pos ∧
          FindMinimumBracket f fuel start stop lastbest pos < stop) := by
  induction fuel with
  | zero => intro start stop lastbest pos; left; rfl
  | succ fuel ih =>
    intro start stop lastbest pos
    simp only [FindMinimumBracket]
    split
    · left; rfl
    · rename_i hgt
      split
      · left; rfl
      · have hb := bestProbe_fst_lt (fun i => f (probe start stop i))
        generalize (bestProbe fun i => f (probe start stop i)).1 = b at hb
        generalize (bestProbe fun i => f (probe start stop i)).2 = v
        have hgt2 : NUM < stop - start := Nat.lt_of_not_le hgt
        have hp := probe_bounds start stop b hgt2 hb
        have hs := bracket_shrinks start stop b hgt2 hb
        rcases ih (if b = 0 then start else probe start stop (b - 1))
          (if b = NUM - 1 then stop else probe start stop (b + 1)) v (probe start stop b)
          with h | h
        · right; rw [h]; exact hp
        · right; omega

/-- The fuel of the bracketed search is adequate: any supply of at least
`end - start` gives the same result. -/
theorem FindMinimumBracket_fuel (f : Nat → Nat) (fuel : Nat) :
    ∀ start stop lastbest pos, stop - start ≤ fuel →
      FindMinimumBracket f fuel start stop lastbest pos
        = FindMinimumBracket f (stop - start) start stop lastbest pos := by
  induction fuel using Nat.strong_induction_on with
  | _ fuel ih =>
    intro start stop lastbest pos hle
    by_cases hgt : stop - start ≤ NUM
    · cases fuel with
      | zero =>
        have : stop - start = 0 := by omega
        rw [this]
      | succ k =>
        cases hn : stop - start with
        | zero => simp [FindMinimumBracket, hgt]
        | succ m => simp [FindMinimumBracket, hgt]
    · have hgt2 : NUM < stop - start := Nat.lt_of_not_le hgt
      obtain ⟨k, rfl⟩ : ∃ k, fuel = k + 1 := ⟨fuel - 1, by simp only [NUM] at hgt2; omega⟩
      obtain ⟨m, hm⟩ : ∃ m, stop - start = m + 1 := ⟨stop - start - 1, by simp only [NUM] at hgt2; omega⟩
      rw [hm]
      simp only [FindMinimumBracket, hgt, if_false]
      split
      · rfl
      · have hb := bestProbe_fst_lt (fun i => f (probe start stop i))
        generalize (bestProbe fun i => f (probe start stop i)).1 = b at hb
        generalize (bestProbe fun i => f (probe start stop i)).2 = v
        have hs := bracket_shrinks start stop b hgt2 hb
        rw [ih k (Nat.lt_succ_self k) _ _ _ _ (by omega)]
        have hm2 : (if b = NUM - 1 then stop else probe start stop (b + 1))
            - (if b = 0 then start else probe start stop (b - 1)) ≤ m := by omega
        rcases Nat.eq_or_lt_of_le hle with e | e
        · have : k = m := by omega
          subst this
          rw [ih k (Nat.lt_succ_self k) _ _ _ _ hm2]
        · rw [ih m (by omega) _ _ _ _ hm2]

theorem FindMinimum_range (f : Nat → Nat) (start stop : Nat) :
    FindMinimum f start stop = start ∨
      (start < FindMinimum f start stop ∧ FindMinimum f start stop < stop) := by
  unfold FindMinimum
  split
  · rcases FindMinimumScan_range f (stop - start) start SIZE_MAX start with h | h
    · left; exact h
    · rcases Nat.eq_or_lt_of_le h.1 with e | e
      · left; exact e.symm
      · right; omega
  · exact FindMinimumBracket_range f _ start stop SIZE_MAX start

theorem mem_AddSorted (v x : Nat) (l : List Nat) : x ∈ AddSorted v l ↔ x = v ∨ x ∈ l := by
  induction l with
  | nil => simp [AddSorted]
  | cons y ys ih =>
    simp only [AddSorted]
    split
    · simp
    · simp only [List.mem_cons, ih]
      constructor
      · rintro (h | h | h)
        · exact Or.inr (Or.inl h)
        · exact Or.inl h
        · exact Or.inr (Or.inr h)
      · rintro (h | h | h)
        · exact Or.inr (Or.inl h)
        · exact Or.inl h
        · exact Or.inr (Or.inr h)

theorem length_AddSorted (v : Nat) (l : List Nat) : (AddSorted v l).length = l.length + 1 := by
  induction l with
  | nil => simp [AddSorted]
  | cons y ys ih =>
    simp only [AddSorted]
    split
    · simp
    · simp [ih]

theorem AddSorted_pairwise (v : Nat) (l : List Nat) (hs : l.Pairwise (· < ·)) (hv : v ∉ l) :
    (AddSorted v l).Pairwise (· < ·) := by
  induction l with
  | nil => simp [AddSorted]
  | cons y ys ih =>
    rw [List.pairwise_cons] at hs
    simp only [AddSorted]
    split
    · rename_i hgt
      rw [List.pairwise_cons]
      refine ⟨?_, List.pairwise_cons.mpr hs⟩
      intro a ha
      rcases List.mem_cons.mp ha with h | h
      · rw [h]; exact hgt
      · exact Nat.lt_trans hgt (hs.1 a h)
    · rename_i hle
      have hne : v ≠ y := fun e => hv (by rw [e]; exact List.mem_cons_self _ _)
      have hlt : y < v := by omega
      rw [List.pairwise_cons]
      refine ⟨?_, ih hs.2 (fun h => hv (List.mem_cons_of_mem _ h))⟩
      intro a ha
      rcases (mem_AddSorted v a ys).mp ha with h | h
      · rw [h]; exact hlt
      · exact hs.1 a h

theorem length_le_of_sorted_lt (l : List Nat) (n : Nat) (hs : l.Pairwise (· < ·))
    (hb : ∀ x ∈ l, x < n) : l.length ≤ n := by
  have hnd : l.Nodup := hs.imp (fun h => Nat.ne_of_lt h)
  have hsub : l ⊆ List.range n := fun x hx => List.mem_range.mpr (hb x hx)
  have := (List.subperm_of_subset hnd hsub).length_le
  simpa using this

theorem notDone_mark_le (done : Nat → Bool) (k n : Nat) :
    notDone (fun i => if i = k then true else done i) n ≤ notDone done n := by
  induction n with
  | zero => simp [notDone]
  | succ n ih =>
    unfold notDone at *
    rw [List.range_succ, List.countP_append, List.countP_append]
    apply Nat.add_le_add ih
    by_cases h : n = k <;> simp [List.countP_cons, h]

theorem notDone_mark_lt (done : Nat → Bool) (k n : Nat) (hk : k < n) (hd : done k = false) :
    notDone (fun i => if i = k then true else done i) n < notDone done n := by
  induction n with
  | zero => omega
  | succ n ih =>
    have e1 : notDone (fun i => if i = k then true else done i) (n + 1)
        = notDone (fun i => if i = k then true else done i) n
          + (if n = k then 0 else if done n then 0 else 1) := by
      unfold notDone
      rw [List.range_succ, List.countP_append]
      by_cases h : n = k <;> cases hdn : done n <;> simp [List.countP_cons, h, hdn]
    have e2 : notDone done (n + 1) = notDone done n + (if done n then 0 else 1) := by
      unfold notDone
      rw [List.range_succ, List.countP_append]
      cases hdn : done n <;> simp [List.countP_cons, hdn]
    rw [e1, e2]
    by_cases h : n = k
    · subst h
      have := notDone_mark_le done n n
      rw [hd]
      simp only [if_true, Bool.false_eq_true, if_false]
      omega
    · have := ih (by omega)
      simp only [h, if_false]
      omega

theorem blockEnd_le (llsize : Nat) (pts : List Nat) (i : Nat) (hi : i ≤ pts.length)
    (hb : ∀ x ∈ pts, 0 < x ∧ x < llsize) : blockEnd llsize pts i ≤ llsize - 1 := by
  unfold blockEnd
  split
  · exact Nat.le_refl _
  · rename_i hne
    have hlt : i < pts.length := by omega
    rw [List.getD_eq_getElem _ _ hlt]
    have := (hb _ (List.getElem_mem hlt)).2
    omega

theorem block_gap (llsize : Nat) (pts : List Nat) (i : Nat) (hi : i ≤ pts.length)
    (hs : pts.Pairwise (· < ·)) :
    ∀ x ∈ pts, x ≤ blockStart pts i ∨ blockEnd llsize pts i ≤ x := by
  intro x hx
  obtain ⟨j, hj, rfl⟩ := List.mem_iff_getElem.mp hx
  rw [List.pairwise_iff_getElem] at hs
  by_cases hji : j < i
  · left
    unfold blockStart
    rw [if_neg (by omega), List.getD_eq_getElem _ _ (by omega : i - 1 < pts.length)]
    rcases Nat.eq_or_lt_of_le (by omega : j ≤ i - 1) with e | e
    · simp [e]
    · exact Nat.le_of_lt (hs j (i - 1) hj (by omega) e)
  · right
    unfold blockEnd
    rw [if_neg (by omega), List.getD_eq_getElem _ _ (by omega : i < pts.length)]
    rcases Nat.eq_or_lt_of_le (by omega : i ≤ j) with e | e
    · simp [e]
    · exact Nat.le_of_lt (hs i j (by omega) hj e)

theorem FindLargestSplittableBlock_found (llsize : Nat) (done : Nat → Bool) (pts : List Nat)
    (lstart lend : Nat) :
    (FindLargestSplittableBlock llsize done pts lstart lend).found = true →
      ∃ i, i ≤ pts.length ∧
        (FindLargestSplittableBlock llsize done pts lstart lend).lstart = blockStart pts i ∧
        (FindLargestSplittableBlock llsize done pts lstart lend).lend = blockEnd llsize pts i ∧
        done (blockStart pts i) = false ∧ blockStart pts i < blockEnd llsize pts i := by
  unfold FindLargestSplittableBlock
  have key : ∀ (l : List Nat) (st : LargestState), (∀ i ∈ l, i ≤ pts.length) →
      (st.found = true → ∃ i, i ≤ pts.length ∧ st.lstart = blockStart pts i ∧
        st.lend = blockEnd llsize pts i ∧ done (blockStart pts i) = false ∧
        blockStart pts i < blockEnd llsize pts i) →
      ((l.foldl (largestStep llsize done pts) st).found = true → ∃ i, i ≤ pts.length ∧
        (l.foldl (largestStep llsize done pts) st).lstart = blockStart pts i ∧
        (l.foldl (largestStep llsize done pts) st).lend = blockEnd llsize pts i ∧
        done (blockStart pts i) = false ∧ blockStart pts i < blockEnd llsize pts i) := by
    intro l
    induction l with
    | nil => intro st _ h; simpa using h
    | cons a as ih =>
      intro st hl h
      simp only [List.foldl_cons]
      apply ih
      · intro i hi; exact hl i (List.mem_cons_of_mem _ hi)
      · unfold largestStep
        simp only
        split
        · rename_i hc
          intro _
          exact ⟨a, hl a (List.mem_cons_self _ _), rfl, rfl, hc.1, by omega⟩
        · exact h
  apply key
  · intro i hi
    have := List.mem_range.mp hi
    omega
  · intro h; simp at h

/-- Invariant of the main loop of `ZopfliBlockSplitLZ77`: from a state whose split
points are strictly increasing inside `(0, llsize)`, whose current block
`[lstart, lend)` contains no split point in its interior and is not marked
done, the loop returns, and what it returns is again strictly increasing inside
`(0, llsize)` and respects `maxblocks`. -/
theorem splitLoop_spec (blockSize : List Nat → List Nat → Nat → Nat → Nat → Nat)
    (litlens dists : List Nat) (llsize maxblocks : Nat) :
    ∀ (fuel lstart lend numblocks : Nat) (done : Nat → Bool) (pts : List Nat),
      pts.Pairwise (· < ·) → (∀ x ∈ pts, 0 < x ∧ x < llsize) →
      lstart < lend → lend ≤ llsize → (∀ x ∈ pts, x ≤ lstart ∨ lend ≤ x) →
      done lstart = false → numblocks = pts.length + 1 →
      (maxblocks > 0 → numblocks ≤ maxblocks) →
      notDone done llsize + (llsize - pts.length) < fuel →
      ∃ out, splitLoop blockSize litlens dists llsize maxblocks fuel lstart lend numblocks
          done pts = some out ∧
        out.Pairwise (· < ·) ∧ (∀ x ∈ out, 0 < x ∧ x < llsize) ∧
        (maxblocks > 0 → out.length + 1 ≤ maxblocks) := by
  intro fuel
  induction fuel with
  | zero => intro _ _ _ _ _ _ _ _ _ _ _ _ _ hf; omega
  | succ fuel ih =>
    intro lstart lend numblocks done pts hs hb hlt hle hgap hnd hnb hmax hf
    -- what happens after the update of `done` / `splitpoints`
    have tail : ∀ (done1 : Nat → Bool) (pts1 : List Nat) (nb1 : Nat),
        pts1.Pairwise (· < ·) → (∀ x ∈ pts1, 0 < x ∧ x < llsize) →
        nb1 = pts1.length + 1 → (maxblocks > 0 → nb1 ≤ maxblocks) →
        notDone done1 llsize + (llsize - pts1.length) < fuel →
        ∃ out, (if (FindLargestSplittableBlock llsize done1 pts1 lstart lend).found = false
              then some pts1
            else if (FindLargestSplittableBlock llsize done1 pts1 lstart lend).lend
                - (FindLargestSplittableBlock llsize done1 pts1 lstart lend).lstart < 10
              then some pts1
            else splitLoop blockSize litlens dists llsize maxblocks fuel
              (FindLargestSplittableBlock llsize done1 pts1 lstart lend).lstart
              (FindLargestSplittableBlock llsize done1 pts1 lstart lend).lend nb1 done1 pts1)
            = some out ∧
          out.Pairwise (· < ·) ∧ (∀ x ∈ out, 0 < x ∧ x < llsize) ∧
          (maxblocks > 0 → out.length + 1 ≤ maxblocks) := by
      intro done1 pts1 nb1 hs1 hb1 hnb1 hmax1 hf1
      have hfin : ∃ out, some pts1 = some out ∧ out.Pairwise (· < ·) ∧
          (∀ x ∈ out, 0 < x ∧ x < llsize) ∧ (maxblocks > 0 → out.length + 1 ≤ maxblocks) :=
        ⟨pts1, rfl, hs1, hb1, fun h => by have := hmax1 h; omega⟩
      split
      · exact hfin
      · rename_i hfound
        split
        · exact hfin
        · obtain ⟨i, hi, e1, e2, hd1, hlt1⟩ :=
            FindLargestSplittableBlock_found llsize done1 pts1 lstart lend (by simpa using hfound)
          rw [e1, e2]
          have hend := blockEnd_le llsize pts1 i hi hb1
          apply ih _ _ _ _ _ hs1 hb1 hlt1 (by omega) (block_gap llsize pts1 i hi hs1) hd1 hnb1 hmax1
          omega
    simp only [splitLoop]
    split
    · rename_i hbrk
      exact ⟨pts, rfl, hs, hb, fun _ => by omega⟩
    · rename_i hcont
      generalize hll : FindMinimum (SplitCost blockSize litlens dists lstart lend) (lstart + 1) lend
        = llpos
      have hrange := FindMinimum_range (SplitCost blockSize litlens dists lstart lend)
        (lstart + 1) lend
      rw [hll] at hrange
      by_cases hrefuse : (EstimateCost blockSize litlens dists lstart llpos
            + EstimateCost blockSize litlens dists llpos lend) % 2 ^ 64
            > EstimateCost blockSize litlens dists lstart lend ∨ llpos = lstart + 1 ∨ llpos = lend
      · simp only [hrefuse, decide_True, if_true]
        apply tail _ _ _ hs hb hnb hmax
        have := notDone_mark_lt done lstart llsize (by omega) hnd
        omega
      · simp only [hrefuse, decide_False, Bool.false_eq_true, if_false]
        have hin : lstart + 1 < llpos ∧ llpos < lend := by
          rcases hrange with h | h
          · exact absurd (Or.inr (Or.inl h)) hrefuse
          · exact h
        have hnotin : llpos ∉ pts := by
          intro hmem
          rcases hgap llpos hmem with h | h <;> omega
        have hs1 := AddSorted_pairwise llpos pts hs hnotin
        have hb1 : ∀ x ∈ AddSorted llpos pts, 0 < x ∧ x < llsize := by
          intro x hx
          rcases (mem_AddSorted llpos x pts).mp hx with h | h
          · rw [h]; omega
          · exact hb x h
        have hlen := length_AddSorted llpos pts
        have hbound := length_le_of_sorted_lt _ llsize hs1 (fun x hx => (hb1 x hx).2)
        apply tail _ _ _ hs1 hb1 (by omega)
        · intro hpos
          have : ¬ numblocks ≥ maxblocks := fun h => hcont ⟨hpos, h⟩
          omega
        · omega

theorem notDone_le (done : Nat → Bool) (n : Nat) : notDone done n ≤ n := by
  unfold notDone
  have := List.countP_le_length (fun i => !done i) (l := List.range n)
  simpa using this

/-- What `ZopfliBlockSplitLZ77` returns from an empty list: it returns, the points
are strictly increasing, lie strictly between `0` and `llsize`, and number at
most `maxblocks - 1` when `maxblocks` is positive. -/
theorem ZopfliBlockSplitLZ77_spec (blockSize : List Nat → List Nat → Nat → Nat → Nat → Nat)
    (litlens dists : List Nat) (llsize maxblocks : Nat) :
    ∃ out, ZopfliBlockSplitLZ77 blockSize litlens dists llsize maxblocks [] = some out ∧
      out.Pairwise (· < ·) ∧ (∀ x ∈ out, 0 < x ∧ x < llsize) ∧
      (maxblocks > 0 → out.length + 1 ≤ maxblocks) := by
  unfold ZopfliBlockSplitLZ77
  split
  · exact ⟨[], rfl, List.Pairwise.nil, by simp, fun h => by simp; omega⟩
  · apply splitLoop_spec
    · exact List.Pairwise.nil
    · simp
    · omega
    · exact Nat.le_refl _
    · simp
    · rfl
    · rfl
    · intro h; omega
    · have := notDone_le (fun _ => false) llsize
      simp only [List.length_nil]
      omega

theorem length_succ_le_of_sorted (l : List Nat) (n : Nat) (hn : 0 < n)
    (hs : l.Pairwise (· < ·)) (hb : ∀ x ∈ l, 0 < x ∧ x < n) : l.length + 1 ≤ n := by
  have h0 : (0 :: l).Pairwise (· < ·) :=
    List.pairwise_cons.mpr ⟨fun a ha => (hb a ha).1, hs⟩
  have := length_le_of_sorted_lt (0 :: l) n h0 (by
    intro x hx
    rcases List.mem_cons.mp hx with e | hm
    · rw [e]; exact hn
    · exact (hb x hm).2)
  simpa using this

/-- With `maxblocks = 0` the loop of `ZopfliBlockSplitLZ77` runs exactly as with a
bound `m` above `llsize`, which the number of blocks never reaches. -/
theorem splitLoop_unlimited (blockSize : List Nat → List Nat → Nat → Nat → Nat → Nat)
    (litlens dists : List Nat) (llsize m : Nat) (hm : llsize < m) :
    ∀ (fuel lstart lend numblocks : Nat) (done : Nat → Bool) (pts : List Nat),
      pts.Pairwise (· < ·) → (∀ x ∈ pts, 0 < x ∧ x < llsize) →
      lstart < lend → lend ≤ llsize → (∀ x ∈ pts, x ≤ lstart ∨ lend ≤ x) →
      numblocks = pts.length + 1 →
      splitLoop blockSize litlens dists llsize 0 fuel lstart lend numblocks done pts
        = splitLoop blockSize litlens dists llsize m fuel lstart lend numblocks done pts := by
  intro fuel
  induction fuel with
  | zero => intro _ _ _ _ _ _ _ _ _ _ _; rfl
  | succ fuel ih =>
    intro lstart lend numblocks done pts hs hb hlt hle hgap hnb
    have hlen := length_succ_le_of_sorted pts llsize (by omega) hs hb
    have tail : ∀ (done1 : Nat → Bool) (pts1 : List Nat) (nb1 : Nat),
        pts1.Pairwise (· < ·) → (∀ x ∈ pts1, 0 < x ∧ x < llsize) → nb1 = pts1.length + 1 →
        (if (FindLargestSplittableBlock llsize done1 pts1 lstart lend).found = false
            then some pts1
          else if (FindLargestSplittableBlock llsize done1 pts1 lstart lend).lend
              - (FindLargestSplittableBlock llsize done1 pts1 lstart lend).lstart < 10
            then some pts1
          else splitLoop blockSize litlens dists llsize 0 fuel
            (FindLargestSplittableBlock llsize done1 pts1 lstart lend).lstart
            (FindLargestSplittableBlock llsize done1 pts1 lstart lend).lend nb1 done1 pts1)
        = (if (FindLargestSplittableBlock llsize done1 pts1 lstart lend).found = false
            then some pts1
          else if (FindLargestSplittableBlock llsize done1 pts1 lstart lend).lend
              - (FindLargestSplittableBlock llsize done1 pts1 lstart lend).lstart < 10
            then some pts1
          else splitLoop blockSize litlens dists llsize m fuel
            (FindLargestSplittableBlock llsize done1 pts1 lstart lend).lstart
            (FindLargestSplittableBlock llsize done1 pts1 lstart lend).lend nb1 done1 pts1) := by
      intro done1 pts1 nb1 hs1 hb1 hnb1
      split
      · rfl
      · rename_i hfound
        split
        · rfl
        · obtain ⟨i, hi, e1, e2, _, hlt1⟩ :=
            FindLargestSplittableBlock_found llsize done1 pts1 lstart lend (by simpa using hfound)
          rw [e1, e2]
          have hend := blockEnd_le llsize pts1 i hi hb1
          exact ih _ _ _ _ _ hs1 hb1 hlt1 (by omega) (block_gap llsize pts1 i hi hs1) hnb1
    simp only [splitLoop]
    rw [if_neg (show ¬ (0 > 0 ∧ numblocks ≥ 0) by omega),
      if_neg (show ¬ (m > 0 ∧ numblocks ≥ m) by omega)]
    generalize hll : FindMinimum (SplitCost blockSize litlens dists lstart lend) (lstart + 1) lend
      = llpos
    have hrange := FindMinimum_range (SplitCost blockSize litlens dists lstart lend)
      (lstart + 1) lend
    rw [hll] at hrange
    by_cases hrefuse : (EstimateCost blockSize litlens dists lstart llpos
          + EstimateCost blockSize litlens dists llpos lend) % 2 ^ 64
          > EstimateCost blockSize litlens dists lstart lend ∨ llpos = lstart + 1 ∨ llpos = lend
    · rw [decide_eq_true hrefuse]
      exact tail _ _ _ hs hb hnb
    · rw [decide_eq_false hrefuse]
      rw [if_neg Bool.false_ne_true, if_neg Bool.false_ne_true, if_neg Bool.false_ne_true]
      have hin : lstart + 1 < llpos ∧ llpos < lend := by
        rcases hrange with h | h
        · exact absurd (Or.inr (Or.inl h)) hrefuse
        · exact h
      have hnotin : llpos ∉ pts := by
        intro hmem
        rcases hgap llpos hmem with h | h <;> omega
      have hb1 : ∀ x ∈ AddSorted llpos pts, 0 < x ∧ x < llsize := by
        intro x hx
        rcases (mem_AddSorted llpos x pts).mp hx with h | h
        · rw [h]; omega
        · exact hb x h
      have hlen1 := length_AddSorted llpos pts
      exact tail _ _ _ (AddSorted_pairwise llpos pts hs hnotin) hb1 (by omega)

/-- With `maxblocks = 0`, `ZopfliBlockSplitLZ77` returns what it returns with any
bound above `llsize`. -/
theorem ZopfliBlockSplitLZ77_unlimited
    (blockSize : List Nat → List Nat → Nat → Nat → Nat → Nat)
    (litlens dists : List Nat) (llsize m : Nat) (hm : llsize < m) :
    ZopfliBlockSplitLZ77 blockSize litlens dists llsize 0 []
      = ZopfliBlockSplitLZ77 blockSize litlens dists llsize m [] := by
  unfold ZopfliBlockSplitLZ77
  split
  · rfl
  · exact splitLoop_unlimited blockSize litlens dists llsize m hm _ _ _ _ _ _
      List.Pairwise.nil (by simp) (by omega) (Nat.le_refl _) (by simp) rfl

/-! ## Block splitter: the claims -/

/-- C2: for every store, every `maxblocks` and every cost estimator, the split
list that `ZopfliBlockSplitLZ77` produces from an empty list is strictly
increasing and each of its elements `s` satisfies `0 < s < llsize`. -/
theorem C2_split_points_increasing_interior
    (blockSize : List Nat → List Nat → Nat → Nat → Nat → Nat)
    (litlens dists : List Nat) (llsize maxblocks : Nat) :
    ∃ out, ZopfliBlockSplitLZ77 blockSize litlens dists llsize maxblocks [] = some out ∧
      out.Pairwise (· < ·) ∧ ∀ s ∈ out, 0 < s ∧ s < llsize := by
  obtain ⟨out, h1, h2, h3, _⟩ :=
    ZopfliBlockSplitLZ77_spec blockSize litlens dists llsize maxblocks
  exact ⟨out, h1, h2, h3⟩

/-- C3 (the code at the failing input): on a store of 13 literals, with the
estimator `tableCost` and `maxblocks = 0`, `ZopfliBlockSplitLZ77` returns the
split points 2 and 4; the implied blocks `[0, 2)`, `[2, 4)`, `[4, 13)` cost 100
bits together, the single block `[0, 13)` costs 10 bits.  The second split was
accepted on the block `[2, 12)` that `FindLargestSplittableBlock` reports, whose
end is `llsize - 1` instead of `llsize`. -/
theorem C3_split_cost_exceeds_single_block :
    ZopfliBlockSplitLZ77 tableCost (List.replicate 13 0) (List.replicate 13 0) 13 0 []
        = some [2, 4] ∧
      partitionCost tableCost (List.replicate 13 0) (List.replicate 13 0) 13 0 [2, 4] = 100 ∧
      EstimateCost tableCost (List.replicate 13 0) (List.replicate 13 0) 0 13 = 10 := by
  decide

/-- C4: with `maxblocks > 0`, `ZopfliBlockSplitLZ77` (from an empty list) returns
at most `maxblocks - 1` split points, so the partition has at most `maxblocks`
blocks; `maxblocks = 0` imposes no bound: it gives the result of any bound
above `llsize`, which is more blocks than a store of `llsize` symbols has. -/
theorem C4_at_most_maxblocks_blocks
    (blockSize : List Nat → List Nat → Nat → Nat → Nat → Nat)
    (litlens dists : List Nat) (llsize maxblocks : Nat) (hmax : 0 < maxblocks) :
    (∃ out, ZopfliBlockSplitLZ77 blockSize litlens dists llsize maxblocks [] = some out ∧
        out.length ≤ maxblocks - 1) ∧
      (llsize < maxblocks →
        ZopfliBlockSplitLZ77 blockSize litlens dists llsize 0 []
          = ZopfliBlockSplitLZ77 blockSize litlens dists llsize maxblocks []) := by
  obtain ⟨out, h1, _, _, h4⟩ :=
    ZopfliBlockSplitLZ77_spec blockSize litlens dists llsize maxblocks
  exact ⟨⟨out, h1, by have := h4 hmax; omega⟩,
    ZopfliBlockSplitLZ77_unlimited blockSize litlens dists llsize maxblocks⟩

theorem C4_at_most_maxblocks_blocks_witness :
    0 < 2 ∧
      ((∃ out, ZopfliBlockSplitLZ77 tableCost (List.replicate 13 0) (List.replicate 13 0)
          13 2 [] = some out ∧ out.length ≤ 2 - 1) ∧
        (13 < 2 →
          ZopfliBlockSplitLZ77 tableCost (List.replicate 13 0) (List.replicate 13 0) 13 0 []
            = ZopfliBlockSplitLZ77 tableCost (List.replicate 13 0) (List.replicate 13 0)
                13 2 [])) :=
  ⟨by decide, C4_at_most_maxblocks_blocks tableCost _ _ 13 2 (by decide)⟩

/-- C5: for `llsize < 10`, `ZopfliBlockSplitLZ77` is a no-op: it hands back the
caller's split list unchanged (so neither the list nor its count changes), the
result is the same for every cost estimator (no estimate enters it), and from
an empty list it returns the empty list. -/
theorem C5_small_store_is_noop
    (blockSize : List Nat → List Nat → Nat → Nat → Nat → Nat)
    (litlens dists : List Nat) (llsize maxblocks : Nat) (splitpoints : List Nat)
    (hsmall : llsize < 10) :
    ZopfliBlockSplitLZ77 blockSize litlens dists llsize maxblocks splitpoints
        = some splitpoints ∧
      (∀ blockSize2 : List Nat → List Nat → Nat → Nat → Nat → Nat,
        ZopfliBlockSplitLZ77 blockSize2 litlens dists llsize maxblocks splitpoints
          = ZopfliBlockSplitLZ77 blockSize litlens dists llsize maxblocks splitpoints) ∧
      ZopfliBlockSplitLZ77 blockSize litlens dists llsize maxblocks [] = some [] := by
  simp [ZopfliBlockSplitLZ77, hsmall]

theorem C5_small_store_is_noop_witness :
    9 < 10 ∧
      (ZopfliBlockSplitLZ77 tableCost (List.replicate 9 0) (List.replicate 9 0) 9 0 [3, 5]
          = some [3, 5] ∧
        (∀ blockSize2 : List Nat → List Nat → Nat → Nat → Nat → Nat,
          ZopfliBlockSplitLZ77 blockSize2 (List.replicate 9 0) (List.replicate 9 0) 9 0 [3, 5]
            = ZopfliBlockSplitLZ77 tableCost (List.replicate 9 0) (List.replicate 9 0) 9 0
                [3, 5]) ∧
        ZopfliBlockSplitLZ77 tableCost (List.replicate 9 0) (List.replicate 9 0) 9 0 []
          = some []) :=
  ⟨by decide, C5_small_store_is_noop tableCost _ _ 9 0 [3, 5] (by decide)⟩

/-! ## `GetMatch` computes the bounded common prefix -/

theorem matchLength_le (array : Nat → Nat) (n a b : Nat) : matchLength array n a b ≤ n := by
  induction n generalizing a b with
  | zero => simp [matchLength]
  | succ n ih =>
    simp only [matchLength]
    split
    · have := ih (a + 1) (b + 1); omega
    · omega

theorem matchLength_eq (array : Nat → Nat) (n a b k : Nat) (hk : k < matchLength array n a b) :
    array (a + k) = array (b + k) := by
  induction n generalizing a b k with
  | zero => simp [matchLength] at hk
  | succ n ih =>
    simp only [matchLength] at hk
    split at hk
    · rename_i heq
      cases k with
      | zero => simpa using heq
      | succ k =>
        have := ih (a + 1) (b + 1) k (by omega)
        rw [show a + (k + 1) = a + 1 + k by omega, show b + (k + 1) = b + 1 + k by omega]
        exact this
    · omega

theorem matchLength_stop (array : Nat → Nat) (n a b : Nat) (h : matchLength array n a b < n) :
    array (a + matchLength array n a b) ≠ array (b + matchLength array n a b) := by
  induction n generalizing a b with
  | zero => omega
  | succ n ih =>
    simp only [matchLength] at h ⊢
    split
    · rename_i heq
      rw [if_pos heq] at h
      have := ih (a + 1) (b + 1) (by omega)
      rw [show a + (matchLength array n (a + 1) (b + 1) + 1)
            = a + 1 + matchLength array n (a + 1) (b + 1) by omega,
          show b + (matchLength array n (a + 1) (b + 1) + 1)
            = b + 1 + matchLength array n (a + 1) (b + 1) by omega]
      exact this
    · rename_i hne
      simpa using hne

theorem matchLength_split (array : Nat → Nat) (j : Nat) :
    ∀ n a b, j ≤ n → (∀ k, k < j → array (a + k) = array (b + k)) →
      matchLength array n a b = j + matchLength array (n - j) (a + j) (b + j) := by
  induction j with
  | zero => intro n a b _ _; simp
  | succ j ih =>
    intro n a b hj heq
    obtain ⟨m, rfl⟩ : ∃ m, n = m + 1 := ⟨n - 1, by omega⟩
    have h0 : array a = array b := by simpa using heq 0 (by omega)
    simp only [matchLength, if_pos h0]
    rw [ih m (a + 1) (b + 1) (by omega) (fun k hk => by
      have := heq (k + 1) (by omega)
      rw [show a + 1 + k = a + (k + 1) by omega, show b + 1 + k = b + (k + 1) by omega]
      exact this)]
    rw [show m + 1 - (j + 1) = m - j by omega, show a + 1 + j = a + (j + 1) by omega,
      show b + 1 + j = b + (j + 1) by omega]
    omega

theorem le_matchLength_iff (array : Nat → Nat) (n a b L : Nat) :
    L ≤ matchLength array n a b ↔ L ≤ n ∧ ∀ k, k < L → array (a + k) = array (b + k) := by
  constructor
  · intro h
    exact ⟨Nat.le_trans h (matchLength_le array n a b),
      fun k hk => matchLength_eq array n a b k (by omega)⟩
  · rintro ⟨hn, heq⟩
    rw [matchLength_split array L n a b hn heq]
    omega

theorem GetMatchBytes_eq (array : Nat → Nat) (fuel : Nat) :
    ∀ scan mtch stop, scan ≤ stop → stop - scan ≤ fuel →
      GetMatchBytes array fuel scan mtch stop
        = scan + matchLength array (stop - scan) scan mtch := by
  induction fuel with
  | zero =>
    intro scan mtch stop h1 h2
    have : stop - scan = 0 := by omega
    simp [GetMatchBytes, this, matchLength]
  | succ fuel ih =>
    intro scan mtch stop h1 h2
    simp only [GetMatchBytes]
    by_cases hs : scan = stop
    · subst hs; simp [matchLength]
    · obtain ⟨m, hm⟩ : ∃ m, stop - scan = m + 1 := ⟨stop - scan - 1, by omega⟩
      rw [hm]
      simp only [matchLength]
      by_cases he : array scan = array mtch
      · rw [if_pos ⟨hs, he⟩, if_pos he, ih (scan + 1) (mtch + 1) stop (by omega) (by omega)]
        rw [show stop - (scan + 1) = m by omega]
        omega
      · rw [if_neg (fun h => he h.2), if_neg he]; rfl

theorem wordsEqual_iff (array : Nat → Nat) (n scan mtch : Nat) :
    wordsEqual array n scan mtch = true ↔ ∀ k, k < n → array (scan + k) = array (mtch + k) := by
  simp [wordsEqual, List.all_eq_true]

theorem GetMatchWords_spec (array : Nat → Nat) (n : Nat) (fuel : Nat) :
    ∀ scan mtch stop, scan ≤ stop →
      ∃ j, GetMatchWords array n fuel scan mtch stop = (scan + j, mtch + j) ∧
        scan + j ≤ stop ∧ ∀ k, k < j → array (scan + k) = array (mtch + k) := by
  induction fuel with
  | zero => intro scan mtch stop h; exact ⟨0, rfl, h, fun k hk => by omega⟩
  | succ fuel ih =>
    intro scan mtch stop h
    simp only [GetMatchWords]
    split
    · rename_i hc
      obtain ⟨j, e, hj, heq⟩ := ih (scan + n) (mtch + n) stop (by omega)
      refine ⟨n + j, ?_, by omega, ?_⟩
      · rw [e]; simp [Nat.add_assoc]
      · intro k hk
        by_cases hkn : k < n
        · exact (wordsEqual_iff array n scan mtch).mp hc.2 k hkn
        · have := heq (k - n) (by omega)
          rw [show scan + n + (k - n) = scan + k by omega,
            show mtch + n + (k - n) = mtch + k by omega] at this
          exact this
    · exact ⟨0, rfl, h, fun k hk => by omega⟩

theorem unrolledChain_spec (array : Nat → Nat) (c : Nat) :
    ∀ scan mtch, array scan = array mtch →
      ∃ j, j ≤ c ∧ (unrolledChain array c scan mtch).1 = scan + j ∧
        (unrolledChain array c scan mtch).2.1 = mtch + j ∧
        (∀ k, k < j → array (scan + k) = array (mtch + k)) ∧
        ((unrolledChain array c scan mtch).2.2 = true →
          j = c ∧ array (scan + c) = array (mtch + c)) ∧
        ((unrolledChain array c scan mtch).2.2 = false → 0 < j) := by
  induction c with
  | zero =>
    intro scan mtch h0
    exact ⟨0, Nat.le_refl _, rfl, rfl, fun k hk => by omega, fun _ => ⟨rfl, by simpa using h0⟩,
      fun h => by simp [unrolledChain] at h⟩
  | succ c ih =>
    intro scan mtch h0
    simp only [unrolledChain]
    split
    · rename_i h1
      obtain ⟨j, hj, e1, e2, heq, ht, _⟩ := ih (scan + 1) (mtch + 1) h1
      refine ⟨j + 1, by omega, by rw [e1]; omega, by rw [e2]; omega, ?_, ?_, fun _ => by omega⟩
      · intro k hk
        cases k with
        | zero => simpa using h0
        | succ k =>
          have := heq k (by omega)
          rw [show scan + (k + 1) = scan + 1 + k by omega,
            show mtch + (k + 1) = mtch + 1 + k by omega]
          exact this
      · intro hok
        obtain ⟨e, hlast⟩ := ht hok
        refine ⟨by omega, ?_⟩
        rw [show scan + (c + 1) = scan + 1 + c by omega,
          show mtch + (c + 1) = mtch + 1 + c by omega]
        exact hlast
    · refine ⟨1, by omega, rfl, rfl, ?_, fun h => by simp at h, fun _ => by omega⟩
      intro k hk
      have : k = 0 := by omega
      subst this
      simpa using h0

theorem GetMatchUnrolled_spec (array : Nat → Nat) (fuel : Nat) :
    ∀ scan mtch stop, scan ≤ stop →
      ∃ j, GetMatchUnrolled array fuel scan mtch stop = (scan + j, mtch + j) ∧
        scan + j ≤ stop ∧ ∀ k, k < j → array (scan + k) = array (mtch + k) := by
  induction fuel with
  | zero => intro scan mtch stop h; exact ⟨0, rfl, h, fun k hk => by omega⟩
  | succ fuel ih =>
    intro scan mtch stop h
    simp only [GetMatchUnrolled]
    split
    · rename_i hc
      obtain ⟨j, hj, e1, e2, heq, ht, _⟩ := unrolledChain_spec array 7 scan mtch hc.2
      split
      · rename_i hok
        obtain ⟨ej, hlast⟩ := ht hok
        subst ej
        rw [e1, e2]
        obtain ⟨j2, e, hj2, heq2⟩ := ih (scan + 7 + 1) (mtch + 7 + 1) stop (by omega)
        refine ⟨8 + j2, ?_, by omega, ?_⟩
        · rw [e]
          rw [show scan + 7 + 1 + j2 = scan + (8 + j2) by omega,
            show mtch + 7 + 1 + j2 = mtch + (8 + j2) by omega]
        · intro k hk
          by_cases hk7 : k < 7
          · exact heq k hk7
          · by_cases hk8 : k = 7
            · subst hk8; exact hlast
            · have := heq2 (k - 8) (by omega)
              rw [show scan + 7 + 1 + (k - 8) = scan + k by omega,
                show mtch + 7 + 1 + (k - 8) = mtch + k by omega] at this
              exact this
      · refine ⟨j, by rw [e1, e2], by omega, heq⟩
    · exact ⟨0, rfl, h, fun k hk => by omega⟩

/-- The function `GetMatch` returns `scan` plus the length of the common prefix of the bytes at
`scan` and at `match`, bounded by `end - scan`, whatever the word size. -/
theorem GetMatch_eq (ws : WordSize) (array : Nat → Nat) (scan mtch stop : Nat)
    (h : scan ≤ stop) :
    GetMatch ws array scan mtch stop = scan + matchLength array (stop - scan) scan mtch := by
  have key : ∀ r : Nat × Nat, (∃ j, r = (scan + j, mtch + j) ∧ scan + j ≤ stop ∧
      ∀ k, k < j → array (scan + k) = array (mtch + k)) →
      GetMatchBytes array (stop - r.1) r.1 r.2 stop
        = scan + matchLength array (stop - scan) scan mtch := by
    rintro r ⟨j, rfl, hj, heq⟩
    simp only
    rw [GetMatchBytes_eq array _ _ _ _ hj (Nat.le_refl _),
      matchLength_split array j (stop - scan) scan mtch (by omega) heq]
    rw [show stop - (scan + j) = stop - scan - j by omega]
    omega
  unfold GetMatch
  cases ws with
  | eight => exact key _ (GetMatchWords_spec array 8 _ scan mtch stop h)
  | four => exact key _ (GetMatchWords_spec array 4 _ scan mtch stop h)
  | unrolled => exact key _ (GetMatchUnrolled_spec array _ scan mtch stop h)

/-! ## The chain walk of `ZopfliFindLongestMatch` -/

theorem land_window_mask (x : Nat) : x &&& ZOPFLI_WINDOW_MASK = x % ZOPFLI_WINDOW_SIZE := by
  have := Nat.and_pow_two_sub_one_eq_mod x 15
  simpa [ZOPFLI_WINDOW_MASK, ZOPFLI_WINDOW_SIZE] using this

/-- The length that the loop body finds for the candidate at distance `d`: the
bounded common prefix, or `0` when the byte at `bestlength` already differs, in
which case the common prefix is not longer than `bestlength`. -/
theorem currentLength_spec (b : Build) (h : ZopfliHash) (array : Nat → Nat)
    (pos size limit d bl : Nat) (hwf : HashWF h array pos size)
    (hd : d ≤ pos) (hdw : d < ZOPFLI_WINDOW_SIZE) (hlim : pos + limit ≤ size) :
    ((pos + bl ≥ size ∨ array (pos + bl) = array (pos - d + bl)) ∧
        currentLength b h array pos size limit d bl = matchLength array limit pos (pos - d)) ∨
      (currentLength b h array pos size limit d bl = 0 ∧
        matchLength array limit pos (pos - d) ≤ bl) := by
  unfold currentLength
  split
  · rename_i htest
    left
    refine ⟨htest, ?_⟩
    simp only
    -- the skipped bytes are equal
    have hskip : ∀ s : Nat, s = (if h.same (pos &&& ZOPFLI_WINDOW_MASK) > 2 ∧
          array pos = array (pos - d) then
        (if (if h.same (pos &&& ZOPFLI_WINDOW_MASK) < h.same ((pos - d) &&& ZOPFLI_WINDOW_MASK)
            then h.same (pos &&& ZOPFLI_WINDOW_MASK)
            else h.same ((pos - d) &&& ZOPFLI_WINDOW_MASK)) > limit then limit
          else (if h.same (pos &&& ZOPFLI_WINDOW_MASK) < h.same ((pos - d) &&& ZOPFLI_WINDOW_MASK)
            then h.same (pos &&& ZOPFLI_WINDOW_MASK)
            else h.same ((pos - d) &&& ZOPFLI_WINDOW_MASK))) else 0) →
        s ≤ limit ∧ ∀ k, k < s → array (pos + k) = array (pos - d + k) := by
      intro s hs
      split at hs
      · rename_i hc
        have h0 := hwf.same_run 0 (Nat.zero_le _) (by simp [ZOPFLI_WINDOW_SIZE])
        have h1 := hwf.same_run d hd hdw
        simp only [Nat.sub_zero] at h0
        generalize h.same (pos &&& ZOPFLI_WINDOW_MASK) = same0 at *
        generalize h.same ((pos - d) &&& ZOPFLI_WINDOW_MASK) = same1 at *
        have hsle : s ≤ limit ∧ s ≤ same0 ∧ s ≤ same1 := by
          subst hs; split <;> split <;> omega
        refine ⟨hsle.1, fun k hk => ?_⟩
        rw [h0 k (by omega) (by omega), h1 k (by omega) (by omega)]
        exact hc.2
      · subst hs; exact ⟨Nat.zero_le _, fun k hk => by omega⟩
    obtain ⟨hsl, heq⟩ := hskip _ rfl
    generalize (if h.same (pos &&& ZOPFLI_WINDOW_MASK) > 2 ∧ array pos = array (pos - d) then
        (if (if h.same (pos &&& ZOPFLI_WINDOW_MASK) < h.same ((pos - d) &&& ZOPFLI_WINDOW_MASK)
            then h.same (pos &&& ZOPFLI_WINDOW_MASK)
            else h.same ((pos - d) &&& ZOPFLI_WINDOW_MASK)) > limit then limit
          else (if h.same (pos &&& ZOPFLI_WINDOW_MASK) < h.same ((pos - d) &&& ZOPFLI_WINDOW_MASK)
            then h.same (pos &&& ZOPFLI_WINDOW_MASK)
            else h.same ((pos - d) &&& ZOPFLI_WINDOW_MASK))) else 0) = s at hsl heq
    rw [GetMatch_eq _ _ _ _ _ (by omega), matchLength_split array s limit pos (pos - d) hsl heq]
    rw [show pos + limit - (pos + s) = limit - s by omega]
    omega
  · rename_i hc
    right
    refine ⟨rfl, ?_⟩
    by_contra hgt
    have := matchLength_eq array limit pos (pos - d) bl (by omega)
    exact hc (Or.inr this)

theorem examineCandidate_spec (b : Build) (h : ZopfliHash) (array : Nat → Nat)
    (pos size limit : Nat) (st : WalkState) (hwf : HashWF h array pos size)
    (hlim : pos + limit ≤ size) (hinv : WalkInv array pos limit st) (hd0 : 0 < st.dist)
    (hvis : ∀ d ∈ st.visited, d < st.dist) (hdp : st.dist ≤ pos)
    (hdw : st.dist < ZOPFLI_WINDOW_SIZE) :
    WalkInv array pos limit (examineCandidate b h array pos size limit st).1 ∧
      (∀ d ∈ (examineCandidate b h array pos size limit st).1.visited, d ≤ st.dist) ∧
      (examineCandidate b h array pos size limit st).1.dist = st.dist ∧
      (examineCandidate b h array pos size limit st).1.p = st.p ∧
      (examineCandidate b h array pos size limit st).1.sublen.isSome = st.sublen.isSome := by
  have hcl := currentLength_spec b h array pos size limit st.dist st.bestlength hwf hdp hdw hlim
  have hmle := matchLength_le array limit pos (pos - st.dist)
  unfold examineCandidate
  rw [if_pos hd0]
  simp only
  generalize currentLength b h array pos size limit st.dist st.bestlength = cl at hcl
  have hsorted : (st.visited ++ [st.dist]).Pairwise (· < ·) := by
    rw [List.pairwise_append]
    refine ⟨hinv.vis_sorted, List.pairwise_singleton _ _, ?_⟩
    intro a ha c hc
    rw [List.mem_singleton] at hc
    rw [hc]; exact hvis a ha
  have hrange : ∀ d ∈ st.visited ++ [st.dist], 0 < d ∧ d ≤ pos ∧ d < ZOPFLI_WINDOW_SIZE := by
    intro d hd
    rcases List.mem_append.mp hd with hm | hm
    · exact hinv.vis_range d hm
    · rw [List.mem_singleton] at hm; rw [hm]; exact ⟨hd0, hdp, hdw⟩
  have hle : ∀ d ∈ st.visited ++ [st.dist], d ≤ st.dist := by
    intro d hd
    rcases List.mem_append.mp hd with hm | hm
    · exact Nat.le_of_lt (hvis d hm)
    · rw [List.mem_singleton] at hm; rw [hm]
  by_cases hbetter : cl > st.bestlength
  · rw [if_pos hbetter]
    have hbp := hinv.bl_pos
    have hml : cl = matchLength array limit pos (pos - st.dist) := by
      rcases hcl with ⟨_, e⟩ | ⟨e, _⟩
      · exact e
      · omega
    refine ⟨?_, hle, rfl, rfl, by simp⟩
    refine
      { bl_pos := by simp only; omega
        bl_le := by simp only; omega
        vis_sorted := hsorted
        vis_range := hrange
        vis_len := ?_
        no_best := by simp only; intro hlt; omega
        best := ?_
        sub := ?_
        sub_best := ?_ }
    · intro d hd
      simp only
      rcases List.mem_append.mp hd with hm | hm
      · have := hinv.vis_len d hm; omega
      · rw [List.mem_singleton] at hm; rw [hm]; omega
    · intro _
      simp only
      refine ⟨List.mem_append.mpr (Or.inr (List.mem_singleton.mpr rfl)), hml.symm, ?_⟩
      intro d hd hde
      rcases List.mem_append.mp hd with hm | hm
      · have := hinv.vis_len d hm; omega
      · rw [List.mem_singleton] at hm; rw [hm]
    · intro s hs L hL2 hLc
      simp only at hs hLc ⊢
      cases hsub : st.sublen with
      | none => rw [hsub] at hs; simp at hs
      | some s0 =>
        rw [hsub] at hs
        simp only [Option.map_some', Option.some.injEq] at hs
        subst hs
        unfold fillSublen
        by_cases hLb : st.bestlength < L
        · rw [if_pos ⟨hLb, hLc⟩]
          refine ⟨List.mem_append.mpr (Or.inr (List.mem_singleton.mpr rfl)), by omega, ?_⟩
          intro d hd hLd
          rcases List.mem_append.mp hd with hm | hm
          · have := hinv.vis_len d hm; omega
          · rw [List.mem_singleton] at hm; rw [hm]
        · rw [if_neg (fun hc => hLb hc.1)]
          obtain ⟨h1, h2, h3⟩ := hinv.sub s0 hsub L hL2 (by omega)
          refine ⟨List.mem_append.mpr (Or.inl h1), h2, ?_⟩
          intro d hd hLd
          rcases List.mem_append.mp hd with hm | hm
          · exact h3 d hm hLd
          · rw [List.mem_singleton] at hm; rw [hm]; exact Nat.le_of_lt (hvis _ h1)
    · intro s hs _
      simp only at hs ⊢
      cases hsub : st.sublen with
      | none => rw [hsub] at hs; simp at hs
      | some s0 =>
        rw [hsub] at hs
        simp only [Option.map_some', Option.some.injEq] at hs
        subst hs
        unfold fillSublen
        rw [if_pos ⟨hbetter, Nat.le_refl _⟩]
  · rw [if_neg hbetter]
    have hml : matchLength array limit pos (pos - st.dist) ≤ st.bestlength := by
      rcases hcl with ⟨_, e⟩ | ⟨_, e⟩
      · omega
      · exact e
    refine ⟨?_, hle, rfl, rfl, rfl⟩
    refine
      { bl_pos := hinv.bl_pos
        bl_le := hinv.bl_le
        vis_sorted := hsorted
        vis_range := hrange
        vis_len := ?_
        no_best := hinv.no_best
        best := ?_
        sub := ?_
        sub_best := hinv.sub_best }
    · intro d hd
      simp only
      rcases List.mem_append.mp hd with hm | hm
      · exact hinv.vis_len d hm
      · rw [List.mem_singleton] at hm; rw [hm]; exact hml
    · intro h2
      obtain ⟨h1, he, h3⟩ := hinv.best h2
      refine ⟨List.mem_append.mpr (Or.inl h1), he, ?_⟩
      intro d hd hde
      rcases List.mem_append.mp hd with hm | hm
      · exact h3 d hm hde
      · rw [List.mem_singleton] at hm; rw [hm]; exact Nat.le_of_lt (hvis _ h1)
    · intro s hs L hL2 hLb
      obtain ⟨h1, h2, h3⟩ := hinv.sub s hs L hL2 hLb
      refine ⟨List.mem_append.mpr (Or.inl h1), h2, ?_⟩
      intro d hd hLd
      rcases List.mem_append.mp hd with hm | hm
      · exact h3 d hm hLd
      · rw [List.mem_singleton] at hm; rw [hm]; exact Nat.le_of_lt (hvis _ h1)

theorem examineCandidate_len (b : Build) (h : ZopfliHash) (array : Nat → Nat)
    (pos size limit : Nat) (st : WalkState) (hwf : HashWF h array pos size)
    (hlim : pos + limit ≤ size) (hl2 : 2 ≤ limit) (hbl : 1 ≤ st.bestlength)
    (hlen : LenInv array pos limit st.bestlength st.bestdist st.visited st.lengths)
    (hd0 : 0 < st.dist) (hdp : st.dist ≤ pos) (hdw : st.dist < ZOPFLI_WINDOW_SIZE) :
    LenInv array pos limit (examineCandidate b h array pos size limit st).1.bestlength
      (examineCandidate b h array pos size limit st).1.bestdist
      (examineCandidate b h array pos size limit st).1.visited
      (examineCandidate b h array pos size limit st).1.lengths := by
  have hcl := currentLength_spec b h array pos size limit st.dist st.bestlength hwf hdp hdw hlim
  unfold examineCandidate
  rw [if_pos hd0]
  simp only
  generalize currentLength b h array pos size limit st.dist st.bestlength = cl at hcl
  have hzip : (st.visited ++ [st.dist]).zip (st.lengths ++ [cl])
      = st.visited.zip st.lengths ++ [(st.dist, cl)] := by
    rw [List.zip_append hlen.len_eq.symm]; rfl
  have hcomp : cl = 0 ∨ cl = matchLength array limit pos (pos - st.dist) := by
    rcases hcl with ⟨_, e⟩ | ⟨e, _⟩
    · exact Or.inr e
    · exact Or.inl e
  -- a length of 1 is not found while the best length is 1
  have hone : cl = 1 → 2 ≤ st.bestlength := by
    intro h1
    by_contra hlt
    have hb1 : st.bestlength = 1 := by omega
    rcases hcl with ⟨htest, e⟩ | ⟨e, _⟩
    · rw [hb1] at htest
      rcases htest with hsz | heq
      · omega
      · have hstop := matchLength_stop array limit pos (pos - st.dist) (by omega)
        rw [← e, h1] at hstop
        exact hstop heq
    · omega
  by_cases hbetter : cl > st.bestlength
  · rw [if_pos hbetter]
    exact
      { len_eq := by simp [hlen.len_eq]
        computed := by
          intro e he
          rw [hzip] at he
          rcases List.mem_append.mp he with hm | hm
          · exact hlen.computed e hm
          · rw [List.mem_singleton] at hm; rw [hm]; exact hcomp
        one := by
          intro e he h1
          rw [hzip] at he
          simp only
          rcases List.mem_append.mp he with hm | hm
          · have := hlen.one e hm h1; omega
          · omega
        best_rec := fun _ => by
          rw [hzip]
          exact List.mem_append.mpr (Or.inr (List.mem_singleton.mpr rfl)) }
  · rw [if_neg hbetter]
    exact
      { len_eq := by simp [hlen.len_eq]
        computed := by
          intro e he
          rw [hzip] at he
          rcases List.mem_append.mp he with hm | hm
          · exact hlen.computed e hm
          · rw [List.mem_singleton] at hm; rw [hm]; exact hcomp
        one := by
          intro e he h1
          rw [hzip] at he
          rcases List.mem_append.mp he with hm | hm
          · exact hlen.one e hm h1
          · rw [List.mem_singleton] at hm; rw [hm] at h1; exact hone h1
        best_rec := fun h2 => by
          rw [hzip]
          exact List.mem_append.mpr (Or.inl (hlen.best_rec h2)) }

theorem advanceChain_lengths (b : Build) (h : ZopfliHash) (pos : Nat) (st : WalkState) :
    (advanceChain b h pos st).1.lengths = st.lengths := by
  unfold advanceChain
  simp only
  split_ifs <;> rfl

theorem WalkInv_of_eq (array : Nat → Nat) (pos limit : Nat) (st st1 : WalkState)
    (hinv : WalkInv array pos limit st) (h1 : st1.bestlength = st.bestlength)
    (h2 : st1.bestdist = st.bestdist) (h3 : st1.sublen = st.sublen)
    (h4 : st1.visited = st.visited) : WalkInv array pos limit st1 := by
  unfold WalkInv
  rw [h1, h2, h3, h4]
  exact hinv

theorem chainStep_bounds (pp p : Nat) (hpp : pp < ZOPFLI_WINDOW_SIZE)
    (hp : p < ZOPFLI_WINDOW_SIZE) :
    (p < pp → chainStep pp p = pp - p) ∧
      (¬ p < pp → chainStep pp p = pp + ZOPFLI_WINDOW_SIZE - p) := by
  unfold chainStep
  simp only [ZOPFLI_WINDOW_SIZE] at *
  constructor
  · intro h; rw [if_pos h]
  · intro h; rw [if_neg h]; omega

theorem advanceChain_spec (b : Build) (h : ZopfliHash) (array : Nat → Nat)
    (pos size fuel : Nat) (st : WalkState) (hwf : HashWF h array pos size)
    (hp : st.p < ZOPFLI_WINDOW_SIZE) (hdw : st.dist < ZOPFLI_WINDOW_SIZE)
    (hearly : pos + 1 < ZOPFLI_WINDOW_SIZE → st.dist + st.p = pos)
    (hfuel : ZOPFLI_WINDOW_SIZE < st.dist + (fuel + 1)) :
    (advanceChain b h pos st).1.bestlength = st.bestlength ∧
      (advanceChain b h pos st).1.bestdist = st.bestdist ∧
      (advanceChain b h pos st).1.sublen = st.sublen ∧
      (advanceChain b h pos st).1.visited = st.visited ∧
      ((advanceChain b h pos st).2 = false →
        st.dist < (advanceChain b h pos st).1.dist ∧
        (advanceChain b h pos st).1.p < ZOPFLI_WINDOW_SIZE ∧
        (pos + 1 < ZOPFLI_WINDOW_SIZE → (advanceChain b h pos st).1.dist < ZOPFLI_WINDOW_SIZE →
          (advanceChain b h pos st).1.dist + (advanceChain b h pos st).1.p = pos) ∧
        ZOPFLI_WINDOW_SIZE < (advanceChain b h pos st).1.dist + fuel) := by
  unfold advanceChain
  simp only
  generalize (st.second || decide (st.bestlength ≥ h.same (pos &&& ZOPFLI_WINDOW_MASK) ∧
    h.val2 = h.hashval2 st.p)) = second
  have hq : (if second = true then h.prev2 st.p else h.prev st.p) < ZOPFLI_WINDOW_SIZE := by
    split
    · exact hwf.prev2_lt _ hp
    · exact hwf.prev_lt _ hp
  have hql : pos + 1 < ZOPFLI_WINDOW_SIZE →
      (if second = true then h.prev2 st.p else h.prev st.p) ≤ pos := by
    intro he
    have hpp : st.p ≤ pos := by have := hearly he; omega
    have := hwf.links_seen he st.p hpp
    split
    · exact this.2
    · exact this.1
  generalize (if second = true then h.prev2 st.p else h.prev st.p) = q at hq hql
  by_cases hqp : q = st.p
  · rw [if_pos hqp]
    exact ⟨rfl, rfl, rfl, rfl, fun hf => by simp at hf⟩
  · rw [if_neg hqp]
    refine ⟨rfl, rfl, rfl, rfl, fun _ => ?_⟩
    simp only
    have hcs := chainStep_bounds st.p q hp hq
    simp only [ZOPFLI_WINDOW_SIZE] at *
    by_cases hlt : q < st.p
    · rw [hcs.1 hlt]
      refine ⟨by omega, hq, ?_, by omega⟩
      intro he _
      have := hearly he
      omega
    · rw [hcs.2 hlt]
      refine ⟨by omega, hq, ?_, by omega⟩
      intro he hd
      have := hearly he
      have := hql he
      omega

/-- The chain walk, started in a state that satisfies the invariants, returns, and
the state it returns satisfies the invariants. -/
theorem chainWalk_spec (b : Build) (h : ZopfliHash) (array : Nat → Nat)
    (pos size limit : Nat) (hwf : HashWF h array pos size) (hlim : pos + limit ≤ size)
    (hl2 : 2 ≤ limit) :
    ∀ (fuel : Nat) (st : WalkState), WalkInv array pos limit st →
      LenInv array pos limit st.bestlength st.bestdist st.visited st.lengths →
      WalkHead pos fuel st →
      ∃ out, chainWalk b h array pos size limit fuel st = some out ∧
        WalkInv array pos limit out ∧
        LenInv array pos limit out.bestlength out.bestdist out.visited out.lengths ∧
        out.sublen.isSome = st.sublen.isSome := by
  intro fuel
  induction fuel with
  | zero =>
    intro st hinv hlen hhead
    have := hhead.fuel_ok
    simp only [chainWalk]
    rw [if_neg (by omega)]
    exact ⟨st, rfl, hinv, hlen, rfl⟩
  | succ fuel ih =>
    intro st hinv hlen hhead
    simp only [chainWalk]
    by_cases hdw : st.dist < ZOPFLI_WINDOW_SIZE
    · rw [if_pos hdw]
      have hdp : st.dist ≤ pos := by
        by_cases he : pos + 1 < ZOPFLI_WINDOW_SIZE
        · have := hhead.early he hdw; omega
        · omega
      rw [if_neg (by omega)]
      obtain ⟨hinv1, hle1, hd1, hp1, hs1⟩ := examineCandidate_spec b h array pos size limit st
        hwf hlim hinv hhead.dist_pos hhead.vis_lt hdp hdw
      have hlen1 := examineCandidate_len b h array pos size limit st hwf hlim hl2 hinv.bl_pos
        hlen hhead.dist_pos hdp hdw
      split
      · exact ⟨_, rfl, hinv1, hlen1, hs1⟩
      · obtain ⟨e1, e2, e3, e4, hcont⟩ := advanceChain_spec b h array pos size fuel
          (examineCandidate b h array pos size limit st).1 hwf (by rw [hp1]; exact hhead.p_lt)
          (by rw [hd1]; exact hdw)
          (fun he => by rw [hd1, hp1]; exact hhead.early he hdw)
          (by rw [hd1]; exact hhead.fuel_ok)
        have e5 := advanceChain_lengths b h pos (examineCandidate b h array pos size limit st).1
        have hinv2 := WalkInv_of_eq array pos limit _ _ hinv1 e1 e2 e3 e4
        have hlen2 : LenInv array pos limit
            (advanceChain b h pos (examineCandidate b h array pos size limit st).1).1.bestlength
            (advanceChain b h pos (examineCandidate b h array pos size limit st).1).1.bestdist
            (advanceChain b h pos (examineCandidate b h array pos size limit st).1).1.visited
            (advanceChain b h pos (examineCandidate b h array pos size limit st).1).1.lengths := by
          rw [e1, e2, e4, e5]; exact hlen1
        split
        · exact ⟨_, rfl, hinv2, hlen2, by rw [e3, hs1]⟩
        · rename_i hnb
          obtain ⟨hlt, hpw, hearly, hfuel⟩ := hcont (by simpa using hnb)
          have hhead2 : WalkHead pos fuel (advanceChain b h pos
              (examineCandidate b h array pos size limit st).1).1 :=
            { dist_pos := by omega
              vis_lt := by
                intro d hd
                rw [e4] at hd
                have := hle1 d hd
                omega
              p_lt := hpw
              early := hearly
              fuel_ok := hfuel }
          obtain ⟨out, ho, hio, hlo, hso⟩ := ih _ hinv2 hlen2 hhead2
          exact ⟨out, ho, hio, hlo, by rw [hso, e3, hs1]⟩
    · rw [if_neg hdw]
      exact ⟨st, rfl, hinv, hlen, rfl⟩

theorem chainWalk_bestdist_lt (b : Build) (h : ZopfliHash) (array : Nat → Nat)
    (pos size limit : Nat) :
    ∀ (fuel : Nat) (st out : WalkState), st.bestdist < ZOPFLI_WINDOW_SIZE →
      chainWalk b h array pos size limit fuel st = some out →
      out.bestdist < ZOPFLI_WINDOW_SIZE := by
  intro fuel
  induction fuel with
  | zero =>
    intro st out hb hw
    simp only [chainWalk] at hw
    split at hw
    · simp at hw
    · simp only [Option.some.injEq] at hw
      rw [← hw]; exact hb
  | succ fuel ih =>
    intro st out hb hw
    simp only [chainWalk] at hw
    split at hw
    · rename_i hdw
      split at hw
      · simp at hw
      · have he : (examineCandidate b h array pos size limit st).1.bestdist
            < ZOPFLI_WINDOW_SIZE := by
          unfold examineCandidate
          split
          · simp only
            split
            · exact hdw
            · exact hb
          · exact hb
        have ha : (advanceChain b h pos (examineCandidate b h array pos size limit st).1).1.bestdist
            = (examineCandidate b h array pos size limit st).1.bestdist := by
          unfold advanceChain
          simp only
          split_ifs <;> rfl
        split at hw
        · simp only [Option.some.injEq] at hw
          rw [← hw]; exact he
        · split at hw
          · simp only [Option.some.injEq] at hw
            rw [← hw, ha]; exact he
          · exact ih _ out (by rw [ha]; exact he) hw
    · simp only [Option.some.injEq] at hw
      rw [← hw]; exact hb

/-- The function `ZopfliFindLongestMatch` on a well-formed hash state returns; with fewer than
three bytes left it answers `(0, 0)`, otherwise its answer satisfies `BestInv`
for the clamped limit. -/
theorem ZopfliFindLongestMatch_spec (b : Build) (h : ZopfliHash) (array : Nat → Nat)
    (pos size limit : Nat) (sublen : Option (Nat → Nat)) (hwf : HashWF h array pos size)
    (hpos : pos < size) (hl3 : ZOPFLI_MIN_MATCH ≤ limit) :
    ∃ r, ZopfliFindLongestMatch b h array pos size limit sublen = some r ∧
      r.sublen.isSome = sublen.isSome ∧
      ((size - pos < ZOPFLI_MIN_MATCH ∧ r.length = 0 ∧ r.distance = 0 ∧ r.visited = [] ∧
          r.lengths = []) ∨
        (ZOPFLI_MIN_MATCH ≤ size - pos ∧
          BestInv array pos (clampedLimit pos size limit) r.length r.distance r.sublen
            r.visited ∧
          LenInv array pos (clampedLimit pos size limit) r.length r.distance r.visited
            r.lengths)) := by
  unfold ZopfliFindLongestMatch
  by_cases hsmall : size - pos < ZOPFLI_MIN_MATCH
  · rw [if_pos hsmall]
    exact ⟨_, rfl, rfl, Or.inl ⟨hsmall, rfl, rfl, rfl, rfl⟩⟩
  · rw [if_neg hsmall]
    simp only
    have hclamp : pos + clampedLimit pos size limit ≤ size ∧ 2 ≤ clampedLimit pos size limit := by
      unfold clampedLimit
      simp only [ZOPFLI_MIN_MATCH] at *
      split <;> omega
    have hpp : (h.head h.val.toNat % 4294967296).toNat = pos % ZOPFLI_WINDOW_SIZE := by
      rw [hwf.head_pos, land_window_mask]
      simp only [ZOPFLI_WINDOW_SIZE]
      omega
    rw [hpp]
    have hppw : pos % ZOPFLI_WINDOW_SIZE < ZOPFLI_WINDOW_SIZE :=
      Nat.mod_lt _ (by simp [ZOPFLI_WINDOW_SIZE])
    have hpw := hwf.prev_lt _ hppw
    have hcs := chainStep_bounds _ _ hppw hpw
    have hinv0 : WalkInv array pos (clampedLimit pos size limit)
        { pp := pos % ZOPFLI_WINDOW_SIZE, p := h.prev (pos % ZOPFLI_WINDOW_SIZE),
          dist := chainStep (pos % ZOPFLI_WINDOW_SIZE) (h.prev (pos % ZOPFLI_WINDOW_SIZE)),
          bestdist := 0, bestlength := 1, sublen := sublen, second := false,
          chain_counter := b.maxChainHits, visited := [], lengths := [] } :=
      { bl_pos := Nat.le_refl _
        bl_le := by have := hclamp.2; simp only; omega
        vis_sorted := List.Pairwise.nil
        vis_range := by intro d hd; simp at hd
        vis_len := by intro d hd; simp at hd
        no_best := fun _ => rfl
        best := by intro h2; simp at h2
        sub := by intro s _ L h2 h1; simp only at h1; omega
        sub_best := by intro s _ h2; simp at h2 }
    have hhead0 : WalkHead pos ZOPFLI_WINDOW_SIZE
        { pp := pos % ZOPFLI_WINDOW_SIZE, p := h.prev (pos % ZOPFLI_WINDOW_SIZE),
          dist := chainStep (pos % ZOPFLI_WINDOW_SIZE) (h.prev (pos % ZOPFLI_WINDOW_SIZE)),
          bestdist := 0, bestlength := 1, sublen := sublen, second := false,
          chain_counter := b.maxChainHits, visited := [], lengths := [] } := by
      refine
        { dist_pos := ?_
          vis_lt := by intro d hd; simp at hd
          p_lt := hpw
          early := ?_
          fuel_ok := ?_ }
      · simp only
        by_cases hlt : h.prev (pos % ZOPFLI_WINDOW_SIZE) < pos % ZOPFLI_WINDOW_SIZE
        · rw [hcs.1 hlt]; omega
        · rw [hcs.2 hlt]; omega
      · intro he hd
        simp only at hd ⊢
        have hmod : pos % ZOPFLI_WINDOW_SIZE = pos := Nat.mod_eq_of_lt (by omega)
        have hl := (hwf.links_seen he pos (Nat.le_refl _)).1
        rw [hmod] at hd hcs ⊢
        by_cases hlt : h.prev pos < pos
        · rw [hcs.1 hlt]; omega
        · rw [hcs.2 hlt] at hd; omega
      · simp only
        by_cases hlt : h.prev (pos % ZOPFLI_WINDOW_SIZE) < pos % ZOPFLI_WINDOW_SIZE
        · rw [hcs.1 hlt]; omega
        · rw [hcs.2 hlt]; omega
    have hlen0 : LenInv array pos (clampedLimit pos size limit) 1 0 [] [] :=
      { len_eq := rfl
        computed := by intro e he; simp at he
        one := by intro e he; simp at he
        best_rec := by intro h2; omega }
    obtain ⟨out, ho, hio, hlo, hso⟩ := chainWalk_spec b h array pos size
      (clampedLimit pos size limit) hwf hclamp.1 hclamp.2 _ _ hinv0 hlen0 hhead0
    rw [ho]
    exact ⟨_, rfl, hso, Or.inr ⟨by omega, hio, hlo⟩⟩

theorem unlinkedHash_wf (array : Nat → Nat) (size : Nat) : HashWF unlinkedHash array 0 size :=
  { head_pos := by simp [unlinkedHash]
    prev_lt := fun s hs => hs
    prev2_lt := fun s hs => hs
    links_seen := fun _ s hs => ⟨hs, hs⟩
    same_run := by
      intro d hd _ k hk _
      have hd0 : d = 0 := by omega
      subst hd0
      have hk0 : k = 0 := by simpa [unlinkedHash] using hk
      subst hk0
      rfl }

theorem chainedHash_wf (array : Nat → Nat) (pos size : Nat) :
    HashWF (chainedHash pos) array pos size :=
  { head_pos := rfl
    prev_lt := fun s hs => by simp only [chainedHash]; omega
    prev2_lt := fun s hs => by simp only [chainedHash]; omega
    links_seen := fun _ s hs => by simp only [chainedHash]; omega
    same_run := by
      intro d _ _ k hk _
      have hk0 : k = 0 := by simpa [chainedHash] using hk
      subst hk0
      rfl }

/-! ## The match finder: the claims -/

/-- C7 (counterexample): on the three bytes `0 0 0`, at `pos = 0` with `limit = 258`
and a well-formed hash state without chain links, `ZopfliFindLongestMatch`
answers length 1 and distance 0; the length is neither 0 nor in `[3, 258]`, and
the distance is 0 although the length is not. -/
theorem C7_no_match_answer_is_length_one :
    HashWF unlinkedHash (fun _ => 0) 0 3 ∧
      ∃ r, ZopfliFindLongestMatch build64 unlinkedHash (fun _ => 0) 0 3 258 none = some r ∧
        r.length = 1 ∧ r.distance = 0 ∧
        ¬ ((r.length = 0 ∨ (3 ≤ r.length ∧ r.length ≤ 258)) ∧
            (r.length = 0 ↔ r.distance = 0)) :=
  ⟨unlinkedHash_wf _ _,
    { sublen := none, distance := 0, length := 1, visited := [], lengths := [] },
    by rfl, rfl, rfl, by decide⟩

/-- C7 (amended): for a call without cache, with `pos < size`, `3 <= limit <= 258`
and a well-formed hash state, `ZopfliFindLongestMatch` returns a length of at
most 258 (and at most `limit`), which is 0 exactly when fewer than 3 bytes
remain; the distance is 0 exactly when the length is at most 1, and a length of
at least 2 comes with a distance in `[1, 32767]`. -/
theorem C7_length_and_distance_ranges (b : Build) (h : ZopfliHash) (array : Nat → Nat)
    (pos size limit : Nat) (sublen : Option (Nat → Nat)) (hwf : HashWF h array pos size)
    (hpos : pos < size) (hl3 : 3 ≤ limit) (hl : limit ≤ 258) :
    ∃ r, ZopfliFindLongestMatch b h array pos size limit sublen = some r ∧
      r.length ≤ 258 ∧ r.length ≤ limit ∧ (r.length = 0 ↔ size - pos < 3) ∧
      (r.distance = 0 ↔ r.length ≤ 1) ∧
      (2 ≤ r.length → 1 ≤ r.distance ∧ r.distance < 32768) := by
  obtain ⟨r, hr, _, hcase⟩ :=
    ZopfliFindLongestMatch_spec b h array pos size limit sublen hwf hpos hl3
  refine ⟨r, hr, ?_⟩
  simp only [ZOPFLI_MIN_MATCH] at hcase
  rcases hcase with ⟨hs, h1, h2, _⟩ | ⟨hs, hinv, _⟩
  · rw [h1, h2]
    exact ⟨by omega, by omega, by simp; omega, by simp, by omega⟩
  · have hcl : clampedLimit pos size limit ≤ limit := by
      unfold clampedLimit; split <;> omega
    have hb := hinv.bl_le
    have hp := hinv.bl_pos
    have hrange : 2 ≤ r.length → 1 ≤ r.distance ∧ r.distance < 32768 := by
      intro h2
      have := hinv.vis_range _ (hinv.best h2).1
      simp only [ZOPFLI_WINDOW_SIZE] at this
      omega
    refine ⟨by omega, by omega, by omega, ?_, hrange⟩
    constructor
    · intro hd
      by_contra hgt
      have := hrange (by omega)
      omega
    · intro hle
      exact hinv.no_best (by omega)

theorem C7_length_and_distance_ranges_witness :
    HashWF (chainedHash 3) period3 3 6 ∧ 3 < 6 ∧ 3 ≤ 258 ∧ 258 ≤ 258 ∧
      ∃ r, ZopfliFindLongestMatch build64 (chainedHash 3) period3 3 6 258 none = some r ∧
        r.length ≤ 258 ∧ r.length ≤ 258 ∧ (r.length = 0 ↔ 6 - 3 < 3) ∧
        (r.distance = 0 ↔ r.length ≤ 1) ∧
        (2 ≤ r.length → 1 ≤ r.distance ∧ r.distance < 32768) :=
  ⟨chainedHash_wf _ _ _, by decide, by decide, by decide,
    C7_length_and_distance_ranges build64 (chainedHash 3) period3 3 6 258 none
      (chainedHash_wf _ _ _) (by decide) (by decide) (by decide)⟩

/-- C8: for every hash state, input and position, a distance that the chain walk
of `ZopfliFindLongestMatch` returns is at most the window size 32768; and on a
well-formed hash state (with `pos < size` and `limit >= 3`) the walk does
return. -/
theorem C8_distance_within_window (b : Build) (h : ZopfliHash) (array : Nat → Nat)
    (pos size limit : Nat) (sublen : Option (Nat → Nat)) :
    (∀ r, ZopfliFindLongestMatch b h array pos size limit sublen = some r →
        r.distance ≤ ZOPFLI_WINDOW_SIZE) ∧
      (HashWF h array pos size → pos < size → 3 ≤ limit →
        ∃ r, ZopfliFindLongestMatch b h array pos size limit sublen = some r ∧
          r.distance ≤ ZOPFLI_WINDOW_SIZE) := by
  have hall : ∀ r, ZopfliFindLongestMatch b h array pos size limit sublen = some r →
      r.distance ≤ ZOPFLI_WINDOW_SIZE := by
    intro r hr
    unfold ZopfliFindLongestMatch at hr
    split at hr
    · simp only [Option.some.injEq] at hr
      rw [← hr]; simp
    · simp only [Option.map_eq_some'] at hr
      obtain ⟨out, ho, rfl⟩ := hr
      exact Nat.le_of_lt (chainWalk_bestdist_lt b h array pos size _ _ _ out
        (by simp [ZOPFLI_WINDOW_SIZE]) ho)
  refine ⟨hall, fun hwf hpos hl3 => ?_⟩
  obtain ⟨r, hr, _⟩ := ZopfliFindLongestMatch_spec b h array pos size limit sublen hwf hpos hl3
  exact ⟨r, hr, hall r hr⟩

theorem C8_distance_within_window_witness :
    HashWF (chainedHash 3) period3 3 6 ∧ 3 < 6 ∧ 3 ≤ 258 ∧
      ∃ r, ZopfliFindLongestMatch build64 (chainedHash 3) period3 3 6 258 none = some r ∧
        r.distance ≤ ZOPFLI_WINDOW_SIZE :=
  ⟨chainedHash_wf _ _ _, by decide, by decide,
    (C8_distance_within_window build64 (chainedHash 3) period3 3 6 258 none).2
      (chainedHash_wf _ _ _) (by decide) (by decide)⟩

/-- C9: when `ZopfliFindLongestMatch` is called with a `sublen` array (no cache, a
well-formed hash state, `pos < size`, `3 <= limit <= 258`) and returns a length
`L* >= 3`, then for every `L` in `[3, L*]` the entry `sublen[L]` has been written
and is the smallest distance among the examined chain candidates whose common
prefix with `input[pos..]`, bounded by the clamped limit, has length at least
`L`. -/
theorem C9_sublen_smallest_distance (b : Build) (h : ZopfliHash) (array : Nat → Nat)
    (pos size limit : Nat) (sublen0 : Nat → Nat) (hwf : HashWF h array pos size)
    (hpos : pos < size) (hl3 : 3 ≤ limit) (_hl : limit ≤ 258) :
    ∃ r s, ZopfliFindLongestMatch b h array pos size limit (some sublen0) = some r ∧
      r.sublen = some s ∧
      (3 ≤ r.length → ∀ L, 3 ≤ L → L ≤ r.length →
        s L ∈ r.visited ∧
        L ≤ matchLength array (clampedLimit pos size limit) pos (pos - s L) ∧
        ∀ d ∈ r.visited,
          L ≤ matchLength array (clampedLimit pos size limit) pos (pos - d) → s L ≤ d) := by
  obtain ⟨r, hr, hsome, hcase⟩ :=
    ZopfliFindLongestMatch_spec b h array pos size limit (some sublen0) hwf hpos hl3
  obtain ⟨s, hs⟩ : ∃ s, r.sublen = some s := by
    cases hrs : r.sublen with
    | none => rw [hrs] at hsome; simp at hsome
    | some s => exact ⟨s, rfl⟩
  refine ⟨r, s, hr, hs, ?_⟩
  intro h3 L hL3 hLr
  rcases hcase with ⟨_, h1, _⟩ | ⟨_, hinv, _⟩
  · omega
  · exact hinv.sub s hs L (by omega) hLr

theorem C9_sublen_smallest_distance_witness :
    HashWF (chainedHash 3) period3 3 6 ∧ 3 < 6 ∧ 3 ≤ 258 ∧ 258 ≤ 258 ∧
      ∃ r s, ZopfliFindLongestMatch build64 (chainedHash 3) period3 3 6 258
          (some (fun _ => 0)) = some r ∧
        r.sublen = some s ∧
        (3 ≤ r.length → ∀ L, 3 ≤ L → L ≤ r.length →
          s L ∈ r.visited ∧
          L ≤ matchLength period3 (clampedLimit 3 6 258) 3 (3 - s L) ∧
          ∀ d ∈ r.visited,
            L ≤ matchLength period3 (clampedLimit 3 6 258) 3 (3 - d) → s L ≤ d) :=
  ⟨chainedHash_wf _ _ _, by decide, by decide, by decide,
    C9_sublen_smallest_distance build64 (chainedHash 3) period3 3 6 258 (fun _ => 0)
      (chainedHash_wf _ _ _) (by decide) (by decide) (by decide)⟩

theorem find_first_of_sorted (p : Nat → Bool) (l : List Nat) (x : Nat)
    (hs : l.Pairwise (· < ·)) (hx : x ∈ l) (hp : p x = true)
    (hmin : ∀ d ∈ l, p d = true → x ≤ d) : l.find? p = some x := by
  induction l with
  | nil => simp at hx
  | cons a t ih =>
    rw [List.pairwise_cons] at hs
    by_cases hpa : p a = true
    · rw [List.find?_cons_of_pos _ hpa]
      have hxa := hmin a (List.mem_cons_self _ _) hpa
      rcases List.mem_cons.mp hx with e | hm
      · rw [e]
      · have := hs.1 x hm
        omega
    · rw [List.find?_cons_of_neg _ hpa]
      have hm : x ∈ t := by
        rcases List.mem_cons.mp hx with e | hm
        · rw [e] at hp; exact absurd hp hpa
        · exact hm
      exact ih hs.2 hm (fun d hd => hmin d (List.mem_cons_of_mem _ hd))

theorem find_first_of_sorted_fst (p : Nat × Nat → Bool) (l : List (Nat × Nat)) (x : Nat × Nat)
    (hs : l.Pairwise (fun a c => a.1 < c.1)) (hx : x ∈ l) (hp : p x = true)
    (hmin : ∀ e ∈ l, p e = true → x.1 ≤ e.1) : l.find? p = some x := by
  induction l with
  | nil => simp at hx
  | cons a t ih =>
    rw [List.pairwise_cons] at hs
    by_cases hpa : p a = true
    · rw [List.find?_cons_of_pos _ hpa]
      have hxa := hmin a (List.mem_cons_self _ _) hpa
      rcases List.mem_cons.mp hx with e | hm
      · rw [e]
      · have := hs.1 x hm
        omega
    · rw [List.find?_cons_of_neg _ hpa]
      have hm : x ∈ t := by
        rcases List.mem_cons.mp hx with e | hm
        · rw [e] at hp; exact absurd hp hpa
        · exact hm
      exact ih hs.2 hm (fun d hd => hmin d (List.mem_cons_of_mem _ hd))

theorem zip_sorted_fst (l1 : List Nat) :
    ∀ l2 : List Nat, l1.Pairwise (· < ·) → (l1.zip l2).Pairwise (fun a c => a.1 < c.1) := by
  induction l1 with
  | nil => intro l2 _; simp
  | cons a t ih =>
    intro l2 hs
    rw [List.pairwise_cons] at hs
    cases l2 with
    | nil => simp
    | cons c t2 =>
      rw [List.zip_cons_cons, List.pairwise_cons]
      refine ⟨?_, ih t2 hs.2⟩
      intro e he
      exact hs.1 e.1 (List.of_mem_zip (a := e.1) (b := e.2) he).1

/-- C10: tie-breaking in `ZopfliFindLongestMatch` (no cache, well-formed hash
state, `pos < size`, `3 <= limit <= 258`).  The candidates are examined in
increasing distance, and for each the loop finds a length `currentlength`.
Among all examined candidates for which the length found equals the returned
length, the returned distance is that of the first one examined, and it is the
smallest such distance.  When a match is returned (length at least 2, hence in
particular at least 3), the same holds with the bounded common prefix of the
candidate in place of the length found.  When `sublen` is supplied and the
length is at least 3, `sublen[length] == distance`. -/
theorem C10_first_discovered_wins (b : Build) (h : ZopfliHash) (array : Nat → Nat)
    (pos size limit : Nat) (sublen : Option (Nat → Nat)) (hwf : HashWF h array pos size)
    (hpos : pos < size) (hl3 : 3 ≤ limit) (_hl : limit ≤ 258) :
    ∃ r, ZopfliFindLongestMatch b h array pos size limit sublen = some r ∧
      r.visited.Pairwise (· < ·) ∧ r.lengths.length = r.visited.length ∧
      (∀ d c, (d, c) ∈ r.visited.zip r.lengths → c = r.length →
        (r.visited.zip r.lengths).find? (fun e => decide (e.2 = r.length))
            = some (r.distance, r.length) ∧
          r.distance ≤ d) ∧
      (2 ≤ r.length →
        r.visited.find? (fun d =>
            decide (matchLength array (clampedLimit pos size limit) pos (pos - d) = r.length))
          = some r.distance ∧
        ∀ d ∈ r.visited,
          matchLength array (clampedLimit pos size limit) pos (pos - d) = r.length →
            r.distance ≤ d) ∧
      (∀ s, r.sublen = some s → 3 ≤ r.length → s r.length = r.distance) := by
  obtain ⟨r, hr, _, hcase⟩ :=
    ZopfliFindLongestMatch_spec b h array pos size limit sublen hwf hpos hl3
  refine ⟨r, hr, ?_⟩
  rcases hcase with ⟨_, h1, _, hv, hvl⟩ | ⟨_, hinv, hlen⟩
  · rw [hv, hvl, h1]
    exact ⟨List.Pairwise.nil, rfl, fun d c hm => by simp at hm, fun h2 => by omega,
      fun _ _ h3 => by omega⟩
  · have hfound : ∀ e ∈ r.visited.zip r.lengths, e.2 = r.length →
        2 ≤ r.length ∧ r.distance ≤ e.1 := by
      intro e he hc
      have hbp := hinv.bl_pos
      have h2 : 2 ≤ r.length := by
        by_contra hlt
        have := hlen.one e he (by omega)
        omega
      refine ⟨h2, ?_⟩
      have hmem := (List.of_mem_zip (a := e.1) (b := e.2) he).1
      rcases hlen.computed e he with h0 | hml
      · omega
      · exact (hinv.best h2).2.2 e.1 hmem (by omega)
    refine ⟨hinv.vis_sorted, hlen.len_eq, ?_, fun h2 => ?_,
      fun s hs h3 => hinv.sub_best s hs (by omega)⟩
    · intro d c hm hc
      obtain ⟨h2, hle⟩ := hfound (d, c) hm hc
      refine ⟨?_, hle⟩
      apply find_first_of_sorted_fst _ _ _ (zip_sorted_fst _ _ hinv.vis_sorted)
        (hlen.best_rec h2) (by simp)
      intro e he hp
      exact (hfound e he (by simpa using hp)).2
    · obtain ⟨hm, he, hmin⟩ := hinv.best h2
      refine ⟨find_first_of_sorted _ _ _ hinv.vis_sorted hm (by simpa using he) ?_, hmin⟩
      intro d hd hp
      exact hmin d hd (by simpa using hp)

theorem C10_first_discovered_wins_witness :
    HashWF (chainedHash 3) period3 3 6 ∧ 3 < 6 ∧ 3 ≤ 258 ∧ 258 ≤ 258 ∧
      ∃ r, ZopfliFindLongestMatch build64 (chainedHash 3) period3 3 6 258
          (some (fun _ => 0)) = some r ∧
        r.visited.Pairwise (· < ·) ∧ r.lengths.length = r.visited.length ∧
        (∀ d c, (d, c) ∈ r.visited.zip r.lengths → c = r.length →
          (r.visited.zip r.lengths).find? (fun e => decide (e.2 = r.length))
              = some (r.distance, r.length) ∧
            r.distance ≤ d) ∧
        (2 ≤ r.length →
          r.visited.find? (fun d =>
              decide (matchLength period3 (clampedLimit 3 6 258) 3 (3 - d) = r.length))
            = some r.distance ∧
          ∀ d ∈ r.visited,
            matchLength period3 (clampedLimit 3 6 258) 3 (3 - d) = r.length →
              r.distance ≤ d) ∧
        (∀ s, r.sublen = some s → 3 ≤ r.length → s r.length = r.distance) :=
  ⟨chainedHash_wf _ _ _, by decide, by decide, by decide,
    C10_first_discovered_wins build64 (chainedHash 3) period3 3 6 258 (some (fun _ => 0))
      (chainedHash_wf _ _ _) (by decide) (by decide) (by decide)⟩

/-! ## The greedy LZ77 producer -/

theorem windowStart_le (instart : Nat) : windowStart instart ≤ instart := by
  unfold windowStart; split <;> omega

theorem hashBefore_succ (ops : HashOps) (array : Nat → Nat) (instart inend i : Nat)
    (hi : instart ≤ i) :
    hashBefore ops array instart inend (i + 1) = hashAt ops array instart inend i := by
  have hw := windowStart_le instart
  unfold hashAt hashBefore
  rw [show i + 1 - windowStart instart = (i - windowStart instart) + 1 by omega,
    List.range'_1_concat, List.foldl_append]
  simp only [List.foldl_cons, List.foldl_nil]
  rw [show windowStart instart + (i - windowStart instart) = i by omega]

theorem skipPositions_spec (ops : HashOps) (array : Nat → Nat) (instart inend : Nat) (n : Nat) :
    ∀ (i : Nat) (h : ZopfliHash) (ok : Bool), instart ≤ i →
      h = hashBefore ops array instart inend (i + 1) →
      (skipPositions ops array inend n i h ok).1 = i + n ∧
        (skipPositions ops array inend n i h ok).2.1
          = hashBefore ops array instart inend (i + n + 1) := by
  induction n with
  | zero => intro i h ok _ hh; exact ⟨rfl, hh⟩
  | succ n ih =>
    intro i h ok hi hh
    simp only [skipPositions]
    have := ih (i + 1) (ops.update array (i + 1) inend h) (ok && decide (i < inend)) (by omega)
      (by rw [hashBefore_succ ops array instart inend (i + 1) (by omega), hh]; rfl)
    rw [this.1, this.2]
    exact ⟨by omega, by rw [show i + 1 + n + 1 = i + (n + 1) + 1 by omega]⟩

theorem lengthScore_ge (leng dist : Nat) (h : GetLengthScore leng dist ≥ 3) : 3 ≤ leng := by
  unfold GetLengthScore at h
  split at h <;> omega

/-- The answer of the match finder at position `i`, on a well-formed hash state:
it exists, and if its score is at least 3 it is a good back-reference. -/
theorem finder_good (b : Build) (h : ZopfliHash) (array : Nat → Nat) (i inend : Nat)
    (sublen : Nat → Nat) (hwf : HashWF h array i inend) (hi : i < inend) :
    ∃ r, ZopfliFindLongestMatch b h array i inend ZOPFLI_MAX_MATCH (some sublen) = some r ∧
      (GetLengthScore r.length r.distance ≥ 3 → GoodRef array inend (i, r.distance, r.length)) := by
  obtain ⟨r, hr, _, hcase⟩ := ZopfliFindLongestMatch_spec b h array i inend ZOPFLI_MAX_MATCH
    (some sublen) hwf hi (by simp [ZOPFLI_MIN_MATCH, ZOPFLI_MAX_MATCH])
  refine ⟨r, hr, fun hscore => ?_⟩
  have h3 := lengthScore_ge _ _ hscore
  rcases hcase with ⟨_, h0, _⟩ | ⟨_, hinv, _⟩
  · omega
  · obtain ⟨hm, he, _⟩ := hinv.best (by omega)
    have hrange := hinv.vis_range _ hm
    have hle := hinv.bl_le
    have hcl : clampedLimit i inend ZOPFLI_MAX_MATCH ≤ 258 ∧
        i + clampedLimit i inend ZOPFLI_MAX_MATCH ≤ inend := by
      unfold clampedLimit
      simp only [ZOPFLI_MAX_MATCH]
      split <;> omega
    refine ⟨by simp only; omega, h3, by simp only; omega, hrange.2.1, by simp only; omega, ?_⟩
    intro k hk
    simp only at hk ⊢
    exact (matchLength_eq array _ i (i - r.distance) k (by rw [he]; exact hk)).symm

theorem appended_store (store0 store : ZopfliLZ77Store) (es : List (Nat × Nat))
    (length dist : Nat) (h : Appended store0 store es) :
    Appended store0 (ZopfliStoreLitLenDist length dist store) (es ++ [(length, dist)]) := by
  unfold Appended ZopfliStoreLitLenDist at *
  simp only [List.map_append, List.map_cons, List.map_nil]
  rw [h.1, h.2]
  simp [List.append_assoc]

/-- The part "Add to output" keeps the loop invariant. -/
theorem addToOutput_spec (ops : HashOps) (array : Nat → Nat) (instart inend : Nat)
    (store0 : ZopfliLZ77Store) (st : GreedyState) (leng dist : Nat) (lengthscore : Int)
    (hhash : st.h = hashBefore ops array instart inend (st.i + 1)) (hi : instart ≤ st.i)
    (hver : ∀ v ∈ st.verified, GoodRef array inend v) (hav : st.match_available = false)
    (happ : ∃ es, Appended store0 st.store es ∧
      es.filter (fun e => decide (e.2 ≠ 0)) = st.verified.map (fun v => (v.2.2, v.2.1)))
    (hgood : lengthscore ≥ 3 → GoodRef array inend (st.i, dist, leng)) :
    GreedyInv ops array instart inend store0
        { addToOutput ops array inend st leng dist lengthscore with
          i := (addToOutput ops array inend st leng dist lengthscore).i + 1 } ∧
      st.i ≤ (addToOutput ops array inend st leng dist lengthscore).i := by
  obtain ⟨es, hes, hfil⟩ := happ
  unfold addToOutput
  simp only [ZOPFLI_MIN_MATCH, Nat.cast_ofNat]
  by_cases hs : lengthscore ≥ 3
  · have hg := hgood hs
    simp only [hs, decide_True, if_true]
    obtain ⟨e1, e2⟩ := skipPositions_spec ops array instart inend (leng - 1) st.i st.h
      st.inRange hi hhash
    refine ⟨?_, by rw [e1]; omega⟩
    refine
      { hash := by simp only; rw [e2, e1]
        i_ge := by simp only; rw [e1]; omega
        ver := ?_
        avail := by simp only; intro h; rw [hav] at h; simp at h
        app := ?_ }
    · intro v hv
      simp only at hv
      rcases List.mem_append.mp hv with hm | hm
      · exact hver v hm
      · rw [List.mem_singleton] at hm; rw [hm]; exact hg
    · refine ⟨es ++ [(leng, dist)], appended_store _ _ _ _ _ hes, ?_⟩
      have hd : dist ≠ 0 := by have := hg.1; simp only at this; omega
      rw [List.filter_append, hfil, List.map_append]
      simp [hd]
  · simp only [hs, decide_False, Bool.false_eq_true, if_false]
    obtain ⟨e1, e2⟩ := skipPositions_spec ops array instart inend (1 - 1) st.i st.h
      st.inRange hi hhash
    refine ⟨?_, by rw [e1]; omega⟩
    refine
      { hash := by simp only; rw [e2, e1]
        i_ge := by simp only; rw [e1]; omega
        ver := hver
        avail := by simp only; intro h; rw [hav] at h; simp at h
        app := ?_ }
    refine ⟨es ++ [(array st.i, 0)], appended_store _ _ _ _ _ hes, ?_⟩
    rw [List.filter_append, hfil]
    simp

/-- One pass through the loop body of `ZopfliLZ77Greedy`, on a well-formed hash
state, gives a state, and the loop invariant holds again after `i++`. -/
theorem greedyBody_spec (b : Build) (ops : HashOps) (array : Nat → Nat) (instart inend : Nat)
    (store0 : ZopfliLZ77Store) (st : GreedyState)
    (hinv : GreedyInv ops array instart inend store0 st) (hi : st.i < inend)
    (hwf : HashWF (hashAt ops array instart inend st.i) array st.i inend) :
    ∃ st1, greedyBody (fun h i sublen =>
          ZopfliFindLongestMatch b h array i inend ZOPFLI_MAX_MATCH (some sublen))
        ops array inend st = some st1 ∧
      GreedyInv ops array instart inend store0 { st1 with i := st1.i + 1 } ∧
      st.i ≤ st1.i := by
  have hwf1 : HashWF (ops.update array st.i inend st.h) array st.i inend := by
    rw [hinv.hash]; exact hwf
  have hh1 : ops.update array st.i inend st.h
      = hashBefore ops array instart inend (st.i + 1) := by
    rw [hashBefore_succ ops array instart inend st.i hinv.i_ge, hinv.hash]; rfl
  obtain ⟨r, hr, hgood⟩ := finder_good b _ array st.i inend st.dummysublen hwf1 hi
  obtain ⟨es, hes, hfil⟩ := hinv.app
  have hige := hinv.i_ge
  unfold greedyBody
  simp only [hr, ZOPFLI_MIN_MATCH, Nat.cast_ofNat]
  generalize hsc : GetLengthScore r.length r.distance = lengthscore at hgood
  by_cases hav : st.match_available = true
  · rw [if_pos hav]
    obtain ⟨hlt, hprev⟩ := hinv.avail hav
    by_cases hlazy : lengthscore > GetLengthScore st.prev_length st.prev_match + 1
    · rw [if_pos hlazy]
      have happ2 : ∃ es2, Appended store0
          (ZopfliStoreLitLenDist (array (st.i - 1)) 0 st.store) es2 ∧
          es2.filter (fun e => decide (e.2 ≠ 0)) = st.verified.map (fun v => (v.2.2, v.2.1)) := by
        refine ⟨es ++ [(array (st.i - 1), 0)], appended_store _ _ _ _ _ hes, ?_⟩
        rw [List.filter_append, hfil]
        simp
      by_cases hdefer : lengthscore ≥ 3 ∧ r.length < ZOPFLI_MAX_MATCH
      · rw [if_pos hdefer]
        refine ⟨_, rfl, ?_, Nat.le_refl _⟩
        exact
          { hash := hh1
            i_ge := by simp only; omega
            ver := hinv.ver
            avail := fun _ => ⟨by simp only; omega, by
              simp only [Nat.add_sub_cancel]; exact hgood hdefer.1⟩
            app := happ2 }
      · rw [if_neg hdefer]
        refine ⟨_, rfl, ?_⟩
        exact addToOutput_spec ops array instart inend store0 _ r.length r.distance lengthscore
          hh1 hinv.i_ge hinv.ver rfl happ2 hgood
    · rw [if_neg hlazy]
      obtain ⟨e1, e2⟩ := skipPositions_spec ops array instart inend (st.prev_length - 2) st.i
        (ops.update array st.i inend st.h) st.inRange hinv.i_ge hh1
      refine ⟨_, rfl, ?_, by simp only; rw [e1]; omega⟩
      refine
        { hash := by simp only; rw [e2, e1]
          i_ge := by simp only; rw [e1]; omega
          ver := ?_
          avail := by simp
          app := ?_ }
      · intro v hv
        simp only at hv
        rcases List.mem_append.mp hv with hm | hm
        · exact hinv.ver v hm
        · rw [List.mem_singleton] at hm; rw [hm]; exact hprev
      · refine ⟨es ++ [(st.prev_length, st.prev_match)], appended_store _ _ _ _ _ hes, ?_⟩
        have hd : st.prev_match ≠ 0 := by have := hprev.1; simp only at this; omega
        simp only
        rw [List.filter_append, hfil, List.map_append]
        simp [hd]
  · rw [if_neg hav]
    by_cases hdefer : lengthscore ≥ 3 ∧ r.length < ZOPFLI_MAX_MATCH
    · rw [if_pos hdefer]
      refine ⟨_, rfl, ?_, Nat.le_refl _⟩
      exact
        { hash := hh1
          i_ge := by simp only; omega
          ver := hinv.ver
          avail := fun _ => ⟨by simp only; omega, by
            simp only [Nat.add_sub_cancel]; exact hgood hdefer.1⟩
          app := ⟨es, hes, hfil⟩ }
    · rw [if_neg hdefer]
      refine ⟨_, rfl, ?_⟩
      exact addToOutput_spec ops array instart inend store0 _ r.length r.distance lengthscore
        hh1 hinv.i_ge hinv.ver (by simpa using hav) ⟨es, hes, hfil⟩ hgood

/-- The main loop of `ZopfliLZ77Greedy` returns when the hash state is well-formed
at every position it queries, and the invariant holds of what it returns. -/
theorem greedyLoop_spec (b : Build) (ops : HashOps) (array : Nat → Nat) (instart inend : Nat)
    (store0 : ZopfliLZ77Store)
    (hwf : ∀ i, instart ≤ i → i < inend →
      HashWF (hashAt ops array instart inend i) array i inend) :
    ∀ (fuel : Nat) (st : GreedyState), GreedyInv ops array instart inend store0 st →
      inend ≤ st.i + fuel →
      ∃ out, greedyLoop (fun h i sublen =>
            ZopfliFindLongestMatch b h array i inend ZOPFLI_MAX_MATCH (some sublen))
          ops array inend fuel st = some out ∧
        GreedyInv ops array instart inend store0 out := by
  intro fuel
  induction fuel with
  | zero =>
    intro st hinv hf
    simp only [greedyLoop]
    rw [if_neg (by omega)]
    exact ⟨st, rfl, hinv⟩
  | succ fuel ih =>
    intro st hinv hf
    simp only [greedyLoop]
    by_cases hi : st.i < inend
    · rw [if_pos hi]
      obtain ⟨st1, h1, hinv1, hle⟩ := greedyBody_spec b ops array instart inend store0 st hinv hi
        (hwf st.i hinv.i_ge hi)
      rw [h1]
      exact ih _ hinv1 (by simp only; omega)
    · rw [if_neg hi]
      exact ⟨st, rfl, hinv⟩

theorem ZopfliVerifyLenDist_of_good (array : Nat → Nat) (inend : Nat) (v : Nat × Nat × Nat)
    (h : GoodRef array inend v) : ZopfliVerifyLenDist array inend v.1 v.2.1 v.2.2 = true := by
  unfold ZopfliVerifyLenDist
  simp only [Bool.and_eq_true, decide_eq_true_eq, List.all_eq_true, List.mem_range, beq_iff_eq]
  exact ⟨h.2.2.2.2.1, h.2.2.2.2.2⟩

/-! ## The greedy LZ77 producer: the claims -/

/-- C1: for every input and range, if the hash state that the producer maintains
is well-formed at every position it queries (no longest-match cache), then
`ZopfliLZ77Greedy` returns, the back-references among the entries it appends to
the store are exactly the ones it passes to `ZopfliVerifyLenDist`, and each of
them, `(L, d)` for input position `p`, satisfies `d >= 1`, `3 <= L <= 258`,
`d <= p`, `p + L <= inend` and `input[p - d + k] == input[p + k]` for every
`k < L`; the assertions of `ZopfliVerifyLenDist` hold. -/
theorem C1_greedy_backreferences_verified (b : Build) (ops : HashOps) (array : Nat → Nat)
    (instart inend : Nat) (store0 : ZopfliLZ77Store)
    (hwf : ∀ i, instart ≤ i → i < inend →
      HashWF (hashAt ops array instart inend i) array i inend) :
    ∃ out es, ZopfliLZ77Greedy b ops array instart inend store0 = some out ∧
      Appended store0 out.store es ∧
      es.filter (fun e => decide (e.2 ≠ 0)) = out.verified.map (fun v => (v.2.2, v.2.1)) ∧
      ∀ p d L, (p, d, L) ∈ out.verified →
        1 ≤ d ∧ 3 ≤ L ∧ L ≤ 258 ∧ d ≤ p ∧ p + L ≤ inend ∧
        (∀ k, k < L → array (p - d + k) = array (p + k)) ∧
        ZopfliVerifyLenDist array inend p d L = true := by
  have hinv0 : GreedyInv ops array instart inend store0
      { i := instart, h := hashBefore ops array instart inend instart, store := store0,
        dummysublen := fun _ => 0, prev_length := 0, prev_match := 0,
        match_available := false, verified := [], inRange := true } :=
    { hash := rfl
      i_ge := Nat.le_refl _
      ver := by intro v hv; simp at hv
      avail := by intro h; simp at h
      app := ⟨[], ⟨by simp, by simp⟩, by simp⟩ }
  have hfin : ∀ out, GreedyInv ops array instart inend store0 out →
      ∃ es, Appended store0 out.store es ∧
        es.filter (fun e => decide (e.2 ≠ 0)) = out.verified.map (fun v => (v.2.2, v.2.1)) ∧
        ∀ p d L, (p, d, L) ∈ out.verified →
          1 ≤ d ∧ 3 ≤ L ∧ L ≤ 258 ∧ d ≤ p ∧ p + L ≤ inend ∧
          (∀ k, k < L → array (p - d + k) = array (p + k)) ∧
          ZopfliVerifyLenDist array inend p d L = true := by
    intro out hinv
    obtain ⟨es, hes, hfil⟩ := hinv.app
    refine ⟨es, hes, hfil, fun p d L hm => ?_⟩
    have hg := hinv.ver _ hm
    have hv := ZopfliVerifyLenDist_of_good array inend _ hg
    exact ⟨hg.1, hg.2.1, hg.2.2.1, hg.2.2.2.1, hg.2.2.2.2.1, hg.2.2.2.2.2, hv⟩
  unfold ZopfliLZ77Greedy LZ77GreedyWith
  simp only
  split
  · obtain ⟨es, h⟩ := hfin _ hinv0
    exact ⟨_, es, rfl, h⟩
  · obtain ⟨out, ho, hinv⟩ := greedyLoop_spec b ops array instart inend store0 hwf
      (inend - instart) _ hinv0 (by simp only; omega)
    obtain ⟨es, h⟩ := hfin out hinv
    exact ⟨out, es, ho, h⟩

theorem chainedOps_wf (array : Nat → Nat) (instart inend i : Nat) :
    HashWF (hashAt chainedOps array instart inend i) array i inend :=
  chainedHash_wf array i inend

theorem C1_greedy_backreferences_verified_witness :
    (∀ i, 0 ≤ i → i < 9 → HashWF (hashAt chainedOps period3 0 9 i) period3 i 9) ∧
      ∃ out es, ZopfliLZ77Greedy build64 chainedOps period3 0 9 ZopfliInitLZ77Store = some out ∧
        Appended ZopfliInitLZ77Store out.store es ∧
        es.filter (fun e => decide (e.2 ≠ 0)) = out.verified.map (fun v => (v.2.2, v.2.1)) ∧
        ∀ p d L, (p, d, L) ∈ out.verified →
          1 ≤ d ∧ 3 ≤ L ∧ L ≤ 258 ∧ d ≤ p ∧ p + L ≤ 9 ∧
          (∀ k, k < L → period3 (p - d + k) = period3 (p + k)) ∧
          ZopfliVerifyLenDist period3 9 p d L = true :=
  ⟨fun i _ _ => chainedOps_wf period3 0 9 i,
    C1_greedy_backreferences_verified build64 chainedOps period3 0 9 ZopfliInitLZ77Store
      (fun i _ _ => chainedOps_wf period3 0 9 i)⟩

theorem skipPositions_fst (ops : HashOps) (array : Nat → Nat) (inend : Nat) (n : Nat) :
    ∀ (i : Nat) (h : ZopfliHash) (ok : Bool),
      (skipPositions ops array inend n i h ok).1 = i + n := by
  induction n with
  | zero => intro i h ok; rfl
  | succ n ih =>
    intro i h ok
    simp only [skipPositions]
    rw [ih]; omega

theorem addToOutput_committed (ops : HashOps) (array : Nat → Nat) (inend : Nat)
    (st : GreedyState) (leng dist : Nat) (lengthscore : Int) :
    st.i ≤ (addToOutput ops array inend st leng dist lengthscore).i ∧
      (addToOutput ops array inend st leng dist lengthscore).store.litlens.length
        = st.store.litlens.length + 1 ∧
      (addToOutput ops array inend st leng dist lengthscore).match_available
        = st.match_available := by
  unfold addToOutput
  refine ⟨?_, ?_, rfl⟩
  · simp only
    rw [skipPositions_fst]; omega
  · simp only
    split <;> simp [ZopfliStoreLitLenDist]

theorem addToOutput_hash (ops : HashOps) (array : Nat → Nat) (instart inend : Nat)
    (st : GreedyState) (leng dist : Nat) (lengthscore : Int) (hi : instart ≤ st.i)
    (hh : st.h = hashBefore ops array instart inend (st.i + 1)) :
    (addToOutput ops array inend st leng dist lengthscore).h
      = hashBefore ops array instart inend
          ((addToOutput ops array inend st leng dist lengthscore).i + 1) := by
  unfold addToOutput
  simp only
  obtain ⟨e1, e2⟩ := skipPositions_spec ops array instart inend
    ((if decide (lengthscore ≥ (ZOPFLI_MIN_MATCH : Int)) = true then leng else 1) - 1)
    st.i st.h st.inRange hi hh
  rw [e2, e1]

/-- Whatever the match finder answers at the position of the pass, one pass
through the loop body commits to at most one more symbol, does not move the
loop index back, and leaves the hash as the updates up to the index make it. -/
theorem greedyBody_committed (find : ZopfliHash → Nat → (Nat → Nat) → Option MatchResult)
    (ops : HashOps) (array : Nat → Nat) (instart inend : Nat) (st : GreedyState)
    (hh : st.h = hashBefore ops array instart inend st.i) (hi : instart ≤ st.i)
    (hfind : ∀ s, (find (hashAt ops array instart inend st.i) st.i s).isSome = true) :
    ∃ st1, greedyBody find ops array inend st = some st1 ∧ st.i ≤ st1.i ∧
      committed st1 ≤ committed st + 1 ∧
      st1.h = hashBefore ops array instart inend (st1.i + 1) := by
  have hh1 : ops.update array st.i inend st.h
      = hashBefore ops array instart inend (st.i + 1) := by
    rw [hashBefore_succ ops array instart inend st.i hi, hh]; rfl
  obtain ⟨r, hr⟩ := Option.isSome_iff_exists.mp (hfind st.dummysublen)
  have hr1 : find (ops.update array st.i inend st.h) st.i st.dummysublen = some r := by
    rw [hh]; exact hr
  unfold greedyBody
  simp only [hr1]
  by_cases hav : st.match_available = true
  · rw [if_pos hav]
    split
    · split
      · refine ⟨_, rfl, Nat.le_refl _, ?_, hh1⟩
        simp [committed, ZopfliStoreLitLenDist, hav]
      · refine ⟨_, rfl, ?_⟩
        have h := addToOutput_committed ops array inend
          { st with h := ops.update array st.i inend st.h,
                    dummysublen := r.sublen.getD st.dummysublen,
                    match_available := false,
                    store := ZopfliStoreLitLenDist (array (st.i - 1)) 0 st.store }
          r.length r.distance (GetLengthScore r.length r.distance)
        refine ⟨h.1, ?_, addToOutput_hash ops array instart inend _ _ _ _ hi hh1⟩
        unfold committed
        rw [h.2.1, h.2.2]
        simp [ZopfliStoreLitLenDist, hav]
    · obtain ⟨e1, e2⟩ := skipPositions_spec ops array instart inend (st.prev_length - 2) st.i
        (ops.update array st.i inend st.h) st.inRange hi hh1
      refine ⟨_, rfl, by simp only; rw [e1]; omega, ?_, by simp only; rw [e2, e1]⟩
      simp [committed, ZopfliStoreLitLenDist, hav]
  · rw [if_neg hav]
    split
    · refine ⟨_, rfl, Nat.le_refl _, ?_, hh1⟩
      simp [committed]
    · refine ⟨_, rfl, ?_⟩
      have h := addToOutput_committed ops array inend
        { st with h := ops.update array st.i inend st.h,
                  dummysublen := r.sublen.getD st.dummysublen }
        r.length r.distance (GetLengthScore r.length r.distance)
      refine ⟨h.1, ?_, addToOutput_hash ops array instart inend _ _ _ _ hi hh1⟩
      unfold committed
      rw [h.2.1, h.2.2]
      simp [hav]

/-- Whatever the match finder answers at the positions of the range, the main
loop of the greedy producer returns, with at most one store entry per pass. -/
theorem greedyLoop_committed (find : ZopfliHash → Nat → (Nat → Nat) → Option MatchResult)
    (ops : HashOps) (array : Nat → Nat) (instart inend bound : Nat)
    (hfind : ∀ i s, instart ≤ i → i < inend →
      (find (hashAt ops array instart inend i) i s).isSome = true) :
    ∀ (fuel : Nat) (st : GreedyState), st.h = hashBefore ops array instart inend st.i →
      instart ≤ st.i → inend ≤ st.i + fuel → committed st + fuel ≤ bound →
      ∃ out, greedyLoop find ops array inend fuel st = some out ∧
        out.store.litlens.length ≤ bound := by
  intro fuel
  induction fuel with
  | zero =>
    intro st _ _ hf hb
    simp only [greedyLoop]
    rw [if_neg (by omega)]
    refine ⟨st, rfl, ?_⟩
    unfold committed at hb
    omega
  | succ fuel ih =>
    intro st hh hge hf hb
    simp only [greedyLoop]
    by_cases hi : st.i < inend
    · rw [if_pos hi]
      obtain ⟨st1, h1, hle, hc, hh1⟩ := greedyBody_committed find ops array instart inend st
        hh hge (fun s => hfind st.i s hge hi)
      rw [h1]
      apply ih
      · exact hh1
      · simp only; omega
      · simp only; omega
      · have : committed { st1 with i := st1.i + 1 } = committed st1 := rfl
        rw [this]; omega
    · rw [if_neg hi]
      refine ⟨st, rfl, ?_⟩
      unfold committed at hb
      omega

/-- C6: whatever the match finder answers at the positions of the range, for a
range of fewer than 10 bytes `ZopfliBlockSplit` returns an empty list of
byte-level split points; for the empty range `ZopfliLZ77Greedy` appends nothing
to the store. -/
theorem C6_short_range_no_split_points
    (find : ZopfliHash → Nat → (Nat → Nat) → Option MatchResult) (ops : HashOps)
    (blockSize : List Nat → List Nat → Nat → Nat → Nat → Nat) (array : Nat → Nat)
    (instart inend maxblocks : Nat)
    (hfind : ∀ i s, instart ≤ i → i < inend →
      (find (hashAt ops array instart inend i) i s).isSome = true)
    (hle : instart ≤ inend) (hshort : inend - instart < 10) :
    BlockSplitWith find ops blockSize array instart inend maxblocks = some [] ∧
      (instart = inend → ∀ store, ∃ g,
        LZ77GreedyWith find ops array instart inend store = some g ∧ g.store = store) := by
  constructor
  · unfold BlockSplitWith
    have hg : ∃ g, LZ77GreedyWith find ops array instart inend ZopfliInitLZ77Store = some g ∧
        g.store.litlens.length ≤ inend - instart := by
      unfold LZ77GreedyWith
      simp only
      split
      · exact ⟨_, rfl, by simp [ZopfliInitLZ77Store]⟩
      · apply greedyLoop_committed find ops array instart inend (inend - instart) hfind
        · rfl
        · exact Nat.le_refl _
        · simp only; omega
        · simp [committed, ZopfliInitLZ77Store]
    obtain ⟨g, hg1, hg2⟩ := hg
    rw [hg1]
    have hsmall : g.store.size < 10 := by unfold ZopfliLZ77Store.size; omega
    simp [ZopfliBlockSplitLZ77, hsmall]
  · intro he store
    unfold LZ77GreedyWith
    simp only
    rw [if_pos he]
    exact ⟨_, rfl, rfl⟩

theorem finder_answers (b : Build) (ops : HashOps) (array : Nat → Nat) (instart inend : Nat)
    (hwf : ∀ i, instart ≤ i → i < inend →
      HashWF (hashAt ops array instart inend i) array i inend) :
    ∀ i s, instart ≤ i → i < inend →
      (ZopfliFindLongestMatch b (hashAt ops array instart inend i) array i inend
        ZOPFLI_MAX_MATCH (some s)).isSome = true := by
  intro i s h1 h2
  obtain ⟨r, hr, _⟩ := finder_good b _ array i inend s (hwf i h1 h2) h2
  rw [hr]; rfl

theorem C6_short_range_no_split_points_witness :
    ((∀ i s, 0 ≤ i → i < 0 →
        (ZopfliFindLongestMatch build64 (hashAt chainedOps (fun _ => 0) 0 0 i) (fun _ => 0) i 0
          ZOPFLI_MAX_MATCH (some s)).isSome = true) ∧ 0 ≤ 0 ∧ 0 - 0 < 10 ∧
      ZopfliBlockSplit build64 chainedOps tableCost (fun _ => 0) 0 0 15 = some [] ∧
      (0 = 0 → ∀ store, ∃ g,
        ZopfliLZ77Greedy build64 chainedOps (fun _ => 0) 0 0 store = some g ∧ g.store = store)) ∧
    ((∀ i s, 0 ≤ i → i < 9 →
        (ZopfliFindLongestMatch build64 (hashAt chainedOps (fun _ => 0) 0 9 i) (fun _ => 0) i 9
          ZOPFLI_MAX_MATCH (some s)).isSome = true) ∧ 0 ≤ 9 ∧ 9 - 0 < 10 ∧
      ZopfliBlockSplit build64 chainedOps tableCost (fun _ => 0) 0 9 15 = some [] ∧
      (0 = 9 → ∀ store, ∃ g,
        ZopfliLZ77Greedy build64 chainedOps (fun _ => 0) 0 9 store = some g ∧ g.store = store)) :=
  ⟨⟨finder_answers build64 chainedOps _ 0 0 (fun i _ _ => chainedOps_wf _ 0 0 i),
      by decide, by decide,
      C6_short_range_no_split_points _ chainedOps tableCost (fun _ => 0) 0 0 15
        (finder_answers build64 chainedOps _ 0 0 (fun i _ _ => chainedOps_wf _ 0 0 i))
        (by decide) (by decide)⟩,
    ⟨finder_answers build64 chainedOps _ 0 9 (fun i _ _ => chainedOps_wf _ 0 9 i),
      by decide, by decide,
      C6_short_range_no_split_points _ chainedOps tableCost (fun _ => 0) 0 9 15
        (finder_answers build64 chainedOps _ 0 9 (fun i _ _ => chainedOps_wf _ 0 9 i))
        (by decide) (by decide)⟩⟩

/-! ## The symbol tables of `util.c` -/

theorem maskBits_eq (x : Int) (k : Nat) (hx : 0 ≤ x) :
    maskBits x (2 ^ k - 1) = x % (2 ^ k : Nat) := by
  unfold maskBits
  rw [Nat.and_pow_two_sub_one_eq_mod]
  obtain ⟨n, rfl⟩ := Int.eq_ofNat_of_zero_le hx
  simp

/-- Masking with `m = 2^k - 1` is the remainder modulo `m + 1`. -/
theorem maskBits_mod (x : Int) (m k : Nat) (hm : m + 1 = 2 ^ k) (hx : 0 ≤ x) :
    maskBits x m = x % ((m + 1 : Nat) : Int) := by
  have := maskBits_eq x k hx
  rw [hm]
  rw [show m = 2 ^ k - 1 by omega]
  exact this

theorem ZopfliGetDistSymbol_small (d : Int) (h2 : d < 5) :
    ZopfliGetDistSymbol d = d - 1 := by
  unfold ZopfliGetDistSymbol
  repeat' split
  all_goals omega

theorem DistSymbols_mono : ∀ t, t < 30 → ∀ s, s < t →
    DistSymbols.getD s 0 < DistSymbols.getD t 0 := by
  decide

/-- A distance below the first distance of symbol `k + 1` has no symbol above `k`. -/
theorem DistSymbols_gap (d k : Int) (s : Nat) (hk0 : 0 ≤ k) (hk : k < 29) (hs : s ≤ 29)
    (hle : (DistSymbols.getD s 0 : Int) ≤ d)
    (hd : d < (DistSymbols.getD (k + 1).toNat 0 : Int)) : (s : Int) ≤ k := by
  by_contra hlt
  by_cases he : (k + 1).toNat = s
  · rw [he] at hd; omega
  · have := DistSymbols_mono s (by omega) (k + 1).toNat (by omega)
    omega

set_option maxHeartbeats 1000000 in
/-- C18: for every distance `d` in `[1, 32768]`, `ZopfliGetDistSymbol(d)` is an
index in `[0, 29]` with `DistSymbols[s] <= d`, and it is the largest such
index: every `s` in `[0, 29]` with `DistSymbols[s] <= d` is at most
`ZopfliGetDistSymbol(d)`. -/
theorem C18_dist_symbol_is_largest_index (d : Int) (h1 : 1 ≤ d) (h2 : d ≤ 32768) :
    0 ≤ ZopfliGetDistSymbol d ∧ ZopfliGetDistSymbol d ≤ 29 ∧
      (DistSymbols.getD (ZopfliGetDistSymbol d).toNat 0 : Int) ≤ d ∧
      ∀ s : Nat, s ≤ 29 → (DistSymbols.getD s 0 : Int) ≤ d →
        (s : Int) ≤ ZopfliGetDistSymbol d := by
  by_cases h5 : d < 5
  · rw [ZopfliGetDistSymbol_small d h5]
    refine ⟨by omega, by omega, ?_, ?_⟩
    · obtain ⟨n, rfl⟩ := Int.eq_ofNat_of_zero_le (show 0 ≤ d by omega)
      have hn : n < 5 := by omega
      have hn1 : 1 ≤ n := by omega
      interval_cases n <;> simp [DistSymbols]
    · intro s hs hle
      refine DistSymbols_gap d (d - 1) s (by omega) (by omega) hs hle ?_
      obtain ⟨n, rfl⟩ := Int.eq_ofNat_of_zero_le (show 0 ≤ d by omega)
      have hn : n < 5 := by omega
      have hn1 : 1 ≤ n := by omega
      interval_cases n <;> simp [DistSymbols]
  · unfold ZopfliGetDistSymbol
    repeat' split
    all_goals first
      | omega
      | (refine ⟨by omega, by omega, by simp [DistSymbols]; omega, ?_⟩
         intro s hs hle
         first
           | omega
           | (refine DistSymbols_gap d _ s (by omega) (by omega) hs hle ?_
              simp [DistSymbols]; omega))

theorem C18_dist_symbol_is_largest_index_witness :
    (1 : Int) ≤ 32768 ∧ (32768 : Int) ≤ 32768 ∧
      0 ≤ ZopfliGetDistSymbol 32768 ∧ ZopfliGetDistSymbol 32768 ≤ 29 ∧
      (DistSymbols.getD (ZopfliGetDistSymbol 32768).toNat 0 : Int) ≤ 32768 ∧
      ∀ s : Nat, s ≤ 29 → (DistSymbols.getD s 0 : Int) ≤ 32768 →
        (s : Int) ≤ ZopfliGetDistSymbol 32768 :=
  ⟨by decide, by decide, C18_dist_symbol_is_largest_index 32768 (by decide) (by decide)⟩

set_option maxHeartbeats 4000000 in
/-- C19: for every distance `d` in `[1, 32768]`, the number of extra bits is not
negative, `0 <= ZopfliGetDistExtraBitsValue(d) < 2^ZopfliGetDistExtraBits(d)`,
and `DistSymbols[ZopfliGetDistSymbol(d)] + ZopfliGetDistExtraBitsValue(d) == d`;
so two distances of `[1, 32768]` with the same symbol and the same extra value
are equal. -/
theorem C19_dist_symbol_round_trip (d : Int) (h1 : 1 ≤ d) (h2 : d ≤ 32768) :
    (0 ≤ ZopfliGetDistExtraBits d ∧ 0 ≤ ZopfliGetDistExtraBitsValue d ∧
      ZopfliGetDistExtraBitsValue d < 2 ^ (ZopfliGetDistExtraBits d).toNat ∧
      (DistSymbols.getD (ZopfliGetDistSymbol d).toNat 0 : Int)
        + ZopfliGetDistExtraBitsValue d = d) ∧
    ∀ d1 : Int, 1 ≤ d1 → d1 ≤ 32768 → ZopfliGetDistSymbol d1 = ZopfliGetDistSymbol d →
      ZopfliGetDistExtraBitsValue d1 = ZopfliGetDistExtraBitsValue d → d1 = d := by
  have key : ∀ d : Int, 1 ≤ d → d ≤ 32768 →
      0 ≤ ZopfliGetDistExtraBits d ∧ 0 ≤ ZopfliGetDistExtraBitsValue d ∧
      ZopfliGetDistExtraBitsValue d < 2 ^ (ZopfliGetDistExtraBits d).toNat ∧
      (DistSymbols.getD (ZopfliGetDistSymbol d).toNat 0 : Int)
        + ZopfliGetDistExtraBitsValue d = d := by
    intro d h1 h2
    by_cases h5 : d < 5
    · rw [ZopfliGetDistSymbol_small d h5]
      obtain ⟨n, rfl⟩ := Int.eq_ofNat_of_zero_le (show 0 ≤ d by omega)
      have hn : n < 5 := by omega
      have hn1 : 1 ≤ n := by omega
      have hb : ZopfliGetDistExtraBits (n : Int) = 0 := by
        unfold ZopfliGetDistExtraBits; rw [if_pos h5]
      have hv : ZopfliGetDistExtraBitsValue (n : Int) = 0 := by
        unfold ZopfliGetDistExtraBitsValue; rw [if_pos h5]
      rw [hb, hv]
      refine ⟨by omega, by omega, by simp, ?_⟩
      interval_cases n <;> simp [DistSymbols]
    · have q1 := fun x => maskBits_mod x 1 1 rfl
      have q2 := fun x => maskBits_mod x 3 2 rfl
      have q3 := fun x => maskBits_mod x 7 3 rfl
      have q4 := fun x => maskBits_mod x 15 4 rfl
      have q5 := fun x => maskBits_mod x 31 5 rfl
      have q6 := fun x => maskBits_mod x 63 6 rfl
      have q7 := fun x => maskBits_mod x 127 7 rfl
      have q8 := fun x => maskBits_mod x 255 8 rfl
      have q9 := fun x => maskBits_mod x 511 9 rfl
      have q10 := fun x => maskBits_mod x 1023 10 rfl
      have q11 := fun x => maskBits_mod x 2047 11 rfl
      have q12 := fun x => maskBits_mod x 4095 12 rfl
      have q13 := fun x => maskBits_mod x 8191 13 rfl
      unfold ZopfliGetDistSymbol
      repeat' split
      all_goals first
        | omega
        | (simp (disch := omega) only [ZopfliGetDistExtraBits, ZopfliGetDistExtraBitsValue,
             if_pos, if_neg, q1, q2, q3, q4, q5, q6, q7, q8, q9, q10, q11, q12, q13]
           simp [DistSymbols]
           omega)
  refine ⟨key d h1 h2, fun d1 h11 h12 hs hv => ?_⟩
  have e := (key d h1 h2).2.2.2
  have e1 := (key d1 h11 h12).2.2.2
  rw [hs, hv] at e1
  omega

theorem C19_dist_symbol_round_trip_witness :
    (1 : Int) ≤ 32768 ∧ (32768 : Int) ≤ 32768 ∧
      (0 ≤ ZopfliGetDistExtraBits 32768 ∧ 0 ≤ ZopfliGetDistExtraBitsValue 32768 ∧
        ZopfliGetDistExtraBitsValue 32768 < 2 ^ (ZopfliGetDistExtraBits 32768).toNat ∧
        (DistSymbols.getD (ZopfliGetDistSymbol 32768).toNat 0 : Int)
          + ZopfliGetDistExtraBitsValue 32768 = 32768) ∧
      ∀ d1 : Int, 1 ≤ d1 → d1 ≤ 32768 → ZopfliGetDistSymbol d1 = ZopfliGetDistSymbol 32768 →
        ZopfliGetDistExtraBitsValue d1 = ZopfliGetDistExtraBitsValue 32768 → d1 = 32768 :=
  ⟨by decide, by decide, C19_dist_symbol_round_trip 32768 (by decide) (by decide)⟩

set_option maxRecDepth 1000000 in
/-- The facts about the length tables that hold row by row. -/
theorem length_tables_rows : ∀ l, l < 259 → 3 ≤ l →
    257 ≤ ZopfliGetLengthSymbol l ∧ ZopfliGetLengthSymbol l ≤ 285 ∧
      ZopfliGetLengthSymbol (l - 1) ≤ ZopfliGetLengthSymbol l ∧
      ZopfliGetLengthExtraBitsValue l < 2 ^ ZopfliGetLengthExtraBits l ∧
      ZopfliGetLengthExtraBitsValue l + 3 ≤ l ∧
      ZopfliGetLengthSymbol (l - ZopfliGetLengthExtraBitsValue l) = ZopfliGetLengthSymbol l ∧
      ZopfliGetLengthSymbol (l - ZopfliGetLengthExtraBitsValue l - 1)
        < ZopfliGetLengthSymbol l := by
  decide

theorem ZopfliGetLengthSymbol_mono (n a : Nat) (ha : 3 ≤ a) (hn : a + n ≤ 258) :
    ZopfliGetLengthSymbol a ≤ ZopfliGetLengthSymbol (a + n) := by
  induction n with
  | zero => exact Nat.le_refl _
  | succ n ih =>
    have hstep := (length_tables_rows (a + (n + 1)) (by omega) (by omega)).2.2.1
    rw [show a + (n + 1) - 1 = a + n by omega] at hstep
    exact Nat.le_trans (ih (by omega)) hstep

/-- Of two lengths with the same symbol, each lies at or above the smallest length
that the other one's extra value points to. -/
theorem length_base_unique (l l' : Nat) (h3 : 3 ≤ l) (h258 : l ≤ 258) (h3' : 3 ≤ l')
    (h258' : l' ≤ 258) (hs : ZopfliGetLengthSymbol l' = ZopfliGetLengthSymbol l) :
    l' - ZopfliGetLengthExtraBitsValue l' ≤ l - ZopfliGetLengthExtraBitsValue l := by
  obtain ⟨_, _, _, _, hev3, hbase, hprev⟩ := length_tables_rows l (by omega) h3
  obtain ⟨_, _, _, _, hev3', hbase', hprev'⟩ := length_tables_rows l' (by omega) h3'
  by_contra hlt
  have hm := ZopfliGetLengthSymbol_mono
    (l' - ZopfliGetLengthExtraBitsValue l' - 1 - (l - ZopfliGetLengthExtraBitsValue l))
    (l - ZopfliGetLengthExtraBitsValue l) (by omega) (by omega)
  rw [show l - ZopfliGetLengthExtraBitsValue l
      + (l' - ZopfliGetLengthExtraBitsValue l' - 1 - (l - ZopfliGetLengthExtraBitsValue l))
      = l' - ZopfliGetLengthExtraBitsValue l' - 1 by omega] at hm
  omega

/-- C20: for every length `l` in `[3, 258]`, `ZopfliGetLengthSymbol(l)` lies in
`[257, 285]` and is non-decreasing in `l`; the extra value is below
`2^ZopfliGetLengthExtraBits(l)`; `l` is the smallest length with the same symbol
plus the extra value; so `l` is determined by symbol and extra value; and
`l = 258` has symbol 285 with 0 extra bits. -/
theorem C20_length_symbol_round_trip (l : Nat) (h3 : 3 ≤ l) (h258 : l ≤ 258) :
    (257 ≤ ZopfliGetLengthSymbol l ∧ ZopfliGetLengthSymbol l ≤ 285) ∧
      (∀ l', 3 ≤ l' → l' ≤ l → ZopfliGetLengthSymbol l' ≤ ZopfliGetLengthSymbol l) ∧
      ZopfliGetLengthExtraBitsValue l < 2 ^ ZopfliGetLengthExtraBits l ∧
      (∃ base, 3 ≤ base ∧ ZopfliGetLengthSymbol base = ZopfliGetLengthSymbol l ∧
        (∀ k, 3 ≤ k → k < base → ZopfliGetLengthSymbol k ≠ ZopfliGetLengthSymbol l) ∧
        l = base + ZopfliGetLengthExtraBitsValue l) ∧
      (∀ l', 3 ≤ l' → l' ≤ 258 → ZopfliGetLengthSymbol l' = ZopfliGetLengthSymbol l →
        ZopfliGetLengthExtraBitsValue l' = ZopfliGetLengthExtraBitsValue l → l' = l) ∧
      ZopfliGetLengthSymbol 258 = 285 ∧ ZopfliGetLengthExtraBits 258 = 0 := by
  obtain ⟨h257, h285, _, hev, hev3, hbase, hprev⟩ := length_tables_rows l (by omega) h3
  refine ⟨⟨h257, h285⟩, ?_, hev, ?_, ?_, rfl, rfl⟩
  · intro l' h3' hle
    have := ZopfliGetLengthSymbol_mono (l - l') l' h3' (by omega)
    rwa [show l' + (l - l') = l by omega] at this
  · refine ⟨l - ZopfliGetLengthExtraBitsValue l, by omega, hbase, ?_, by omega⟩
    intro k hk3 hkb heq
    have := ZopfliGetLengthSymbol_mono (l - ZopfliGetLengthExtraBitsValue l - 1 - k) k hk3
      (by omega)
    rw [show k + (l - ZopfliGetLengthExtraBitsValue l - 1 - k)
      = l - ZopfliGetLengthExtraBitsValue l - 1 by omega] at this
    omega
  · intro l' h3' h258' hs he
    have h1 := length_base_unique l l' h3 h258 h3' h258' hs
    have h2 := length_base_unique l' l h3' h258' h3 h258 hs.symm
    have hev3' := (length_tables_rows l' (by omega) h3').2.2.2.2.1
    omega

theorem C20_length_symbol_round_trip_witness :
    3 ≤ 257 ∧ 257 ≤ 258 ∧
      (257 ≤ ZopfliGetLengthSymbol 257 ∧ ZopfliGetLengthSymbol 257 ≤ 285) ∧
      (∀ l', 3 ≤ l' → l' ≤ 257 → ZopfliGetLengthSymbol l' ≤ ZopfliGetLengthSymbol 257) ∧
      ZopfliGetLengthExtraBitsValue 257 < 2 ^ ZopfliGetLengthExtraBits 257 ∧
      (∃ base, 3 ≤ base ∧ ZopfliGetLengthSymbol base = ZopfliGetLengthSymbol 257 ∧
        (∀ k, 3 ≤ k → k < base → ZopfliGetLengthSymbol k ≠ ZopfliGetLengthSymbol 257) ∧
        257 = base + ZopfliGetLengthExtraBitsValue 257) ∧
      (∀ l', 3 ≤ l' → l' ≤ 258 → ZopfliGetLengthSymbol l' = ZopfliGetLengthSymbol 257 →
        ZopfliGetLengthExtraBitsValue l' = ZopfliGetLengthExtraBitsValue 257 → l' = 257) ∧
      ZopfliGetLengthSymbol 258 = 285 ∧ ZopfliGetLengthExtraBits 258 = 0 :=
  ⟨by decide, by decide, C20_length_symbol_round_trip 257 (by decide) (by decide)⟩

/-! ## Limit clamping in `ZopfliFindLongestMatch` -/

/-- Whatever the hash state holds, the length found for a candidate is at most
the clamped limit: the skip over the recorded run is cut at `limit` and
`GetMatch` stops at `arrayend`. -/
theorem currentLength_le (b : Build) (h : ZopfliHash) (array : Nat → Nat)
    (pos size limit d bl : Nat) : currentLength b h array pos size limit d bl ≤ limit := by
  unfold currentLength
  split
  · simp only
    have hskip : ∀ s : Nat, s ≤ limit →
        GetMatch b.wordSize array (pos + s) (pos - d + s) (pos + limit) - pos ≤ limit := by
      intro s hs
      rw [GetMatch_eq _ _ _ _ _ (by omega)]
      have := matchLength_le array (pos + limit - (pos + s)) (pos + s) (pos - d + s)
      omega
    apply hskip
    split_ifs <;> omega
  · exact Nat.zero_le _

theorem chainWalk_bestlength_le (b : Build) (h : ZopfliHash) (array : Nat → Nat)
    (pos size limit : Nat) :
    ∀ (fuel : Nat) (st out : WalkState), st.bestlength ≤ limit →
      chainWalk b h array pos size limit fuel st = some out →
      out.bestlength ≤ limit := by
  intro fuel
  induction fuel with
  | zero =>
    intro st out hb hw
    simp only [chainWalk] at hw
    split at hw
    · simp at hw
    · simp only [Option.some.injEq] at hw
      rw [← hw]; exact hb
  | succ fuel ih =>
    intro st out hb hw
    simp only [chainWalk] at hw
    split at hw
    · split at hw
      · simp at hw
      · have he : (examineCandidate b h array pos size limit st).1.bestlength ≤ limit := by
          unfold examineCandidate
          split
          · simp only
            split
            · exact currentLength_le b h array pos size limit st.dist st.bestlength
            · exact hb
          · exact hb
        have ha : (advanceChain b h pos
            (examineCandidate b h array pos size limit st).1).1.bestlength
            = (examineCandidate b h array pos size limit st).1.bestlength := by
          unfold advanceChain
          simp only
          split_ifs <;> rfl
        split at hw
        · simp only [Option.some.injEq] at hw
          rw [← hw]; exact he
        · split at hw
          · simp only [Option.some.injEq] at hw
            rw [← hw, ha]; exact he
          · exact ih _ out (by rw [ha]; exact he) hw
    · simp only [Option.some.injEq] at hw
      rw [← hw]; exact hb

/-- Whatever the hash state holds, an answer of `ZopfliFindLongestMatch` has a length
of at most the clamped limit. -/
theorem ZopfliFindLongestMatch_length_le (b : Build) (h : ZopfliHash) (array : Nat → Nat)
    (pos size limit : Nat) (sublen : Option (Nat → Nat)) (hl3 : 3 ≤ limit) (r : MatchResult)
    (hr : ZopfliFindLongestMatch b h array pos size limit sublen = some r) :
    r.length ≤ clampedLimit pos size limit := by
  unfold ZopfliFindLongestMatch at hr
  split at hr
  · simp only [Option.some.injEq] at hr
    rw [← hr]; exact Nat.zero_le _
  · rename_i hbig
    simp only [Option.map_eq_some'] at hr
    obtain ⟨out, ho, rfl⟩ := hr
    refine chainWalk_bestlength_le b h array pos size _ _ _ out ?_ ho
    simp only [clampedLimit, ZOPFLI_MIN_MATCH] at hbig ⊢
    split <;> omega

/-- C11: for a call of `ZopfliFindLongestMatch` without cache, with `pos < size` and
`3 <= limit <= 258`: with fewer than 3 bytes left the answer is `(0, 0)`; for
every hash state (every content of `head`, `prev`, `hashval`, `same`), an answer
has a length of at most `min(limit, size - pos)`, which is the clamped limit, so
that `bestlength <= limit` and `pos + length <= size` hold; and on a well-formed
hash state there is an answer. -/
theorem C11_length_within_clamped_limit (b : Build) (h : ZopfliHash) (array : Nat → Nat)
    (pos size limit : Nat) (sublen : Option (Nat → Nat)) (hpos : pos < size)
    (hl3 : 3 ≤ limit) (hl258 : limit ≤ 258) :
    (size - pos < 3 → ∃ r, ZopfliFindLongestMatch b h array pos size limit sublen = some r ∧
        r.length = 0 ∧ r.distance = 0) ∧
      (∀ r, ZopfliFindLongestMatch b h array pos size limit sublen = some r →
        r.length ≤ min limit (size - pos) ∧ r.length ≤ clampedLimit pos size limit ∧
          pos + r.length ≤ size ∧ r.length ≤ 258) ∧
      (HashWF h array pos size →
        ∃ r, ZopfliFindLongestMatch b h array pos size limit sublen = some r ∧
          r.length ≤ min limit (size - pos)) := by
  have hall : ∀ r, ZopfliFindLongestMatch b h array pos size limit sublen = some r →
      r.length ≤ min limit (size - pos) ∧ r.length ≤ clampedLimit pos size limit ∧
        pos + r.length ≤ size ∧ r.length ≤ 258 := by
    intro r hr
    have hle := ZopfliFindLongestMatch_length_le b h array pos size limit sublen hl3 r hr
    have hc : clampedLimit pos size limit = min limit (size - pos) := by
      unfold clampedLimit
      split <;> omega
    rw [hc] at hle ⊢
    omega
  refine ⟨fun hsmall => ?_, hall, fun hwf => ?_⟩
  · unfold ZopfliFindLongestMatch
    rw [if_pos (by simpa [ZOPFLI_MIN_MATCH] using hsmall)]
    exact ⟨_, rfl, rfl, rfl⟩
  · obtain ⟨r, hr, _⟩ := ZopfliFindLongestMatch_spec b h array pos size limit sublen hwf hpos
      (by simpa [ZOPFLI_MIN_MATCH] using hl3)
    exact ⟨r, hr, (hall r hr).1⟩

theorem C11_length_within_clamped_limit_witness :
    3 < 6 ∧ 3 ≤ 258 ∧ 258 ≤ 258 ∧
      (∀ r, ZopfliFindLongestMatch build64 (chainedHash 3) period3 3 6 258 none = some r →
        r.length ≤ min 258 (6 - 3) ∧ r.length ≤ clampedLimit 3 6 258 ∧
          3 + r.length ≤ 6 ∧ r.length ≤ 258) ∧
      (HashWF (chainedHash 3) period3 3 6 →
        ∃ r, ZopfliFindLongestMatch build64 (chainedHash 3) period3 3 6 258 none = some r ∧
          r.length ≤ min 258 (6 - 3)) :=
  ⟨by decide, by decide, by decide,
    (C11_length_within_clamped_limit build64 (chainedHash 3) period3 3 6 258 none
      (by decide) (by decide) (by decide)).2⟩

/-! ## Conversion of the split points in `ZopfliBlockSplit` -/

theorem bytePosition_succ (store : ZopfliLZ77Store) (instart i : Nat) :
    bytePosition store instart (i + 1) = bytePosition store instart i + symbolBytes store i := by
  unfold bytePosition
  rw [List.range_succ, List.map_append, List.sum_append]
  simp only [List.map_cons, List.map_nil, List.sum_cons, List.sum_nil]
  omega

/-- The conversion loop, started at symbol `i` with the points `done` already
converted and the points `rest` (all at or after `i`) still to come, converts
every point. -/
theorem convertLoop_spec (store : ZopfliLZ77Store) (instart : Nat) :
    ∀ (n i : Nat) (done rest : List Nat), rest ≠ [] → i + n = store.size →
      rest.Pairwise (· < ·) → (∀ x ∈ rest, i ≤ x ∧ x < store.size) →
      convertLoop store (done ++ rest) n i (bytePosition store instart i)
          (done.map (bytePosition store instart))
        = (done ++ rest).map (bytePosition store instart) := by
  intro n
  induction n with
  | zero =>
    intro i done rest hne hn hs hr
    cases rest with
    | nil => exact absurd rfl hne
    | cons c rest =>
      have := hr c (List.mem_cons_self _ _)
      omega
  | succ n ih =>
    intro i done rest hne hn hs hr
    cases rest with
    | nil => exact absurd rfl hne
    | cons c rest =>
      have hget : (done ++ c :: rest).getD (done.map (bytePosition store instart)).length 0
          = c := by
        rw [List.length_map, List.getD_eq_getElem?_getD,
          List.getElem?_append_right (Nat.le_refl _)]
        simp
      have hc := hr c (List.mem_cons_self _ _)
      simp only [convertLoop, hget]
      by_cases hci : c = i
      · subst hci
        simp only [if_true, true_and]
        by_cases hlast : rest = []
        · subst hlast
          simp
        · have hlen : ¬ ((done.map (bytePosition store instart) ++ [bytePosition store instart c]).length
              = (done ++ c :: rest).length) := by
            have : 0 < rest.length := List.length_pos.mpr hlast
            simp only [List.length_append, List.length_map, List.length_cons, List.length_nil]
            omega
          rw [if_neg hlen]
          have h1 := ih (c + 1) (done ++ [c]) rest hlast (by omega) (List.Pairwise.of_cons hs)
            (fun x hx => ⟨by have := List.rel_of_pairwise_cons hs hx; omega,
              (hr x (List.mem_cons_of_mem _ hx)).2⟩)
          rw [bytePosition_succ] at h1
          simp only [List.map_append, List.map_cons, List.map_nil, List.append_assoc,
            List.singleton_append] at h1
          unfold symbolBytes at h1
          rw [List.map_append, List.map_cons]
          exact h1
      · simp only [hci, false_and, if_false]
        have h1 := ih (i + 1) done (c :: rest) hne (by omega) hs
          (fun x hx => by
            have hx1 := hr x hx
            rcases List.mem_cons.mp hx with rfl | hx2
            · omega
            · have := List.rel_of_pairwise_cons hs hx2; omega)
        rw [bytePosition_succ] at h1
        unfold symbolBytes at h1
        exact h1

/-- C12: for every LZ77 store and every strictly increasing list of LZ77 split
indices below `store.size`, the conversion of `ZopfliBlockSplit` (the loop,
entered when there is a point at all) yields exactly one byte position per
index, the `k`-th being `instart` plus the sum over the symbols `i < s_k` of `1`
(literal) or `litlens[i]` (back-reference); and `ZopfliBlockSplit` as a whole,
for any match finder with which the greedy producer returns, returns the byte
positions of the points of `ZopfliBlockSplitLZ77`, as many as there are
points. -/
theorem C12_split_points_to_byte_positions (store : ZopfliLZ77Store)
    (lz77splitpoints : List Nat) (instart : Nat)
    (hs : lz77splitpoints.Pairwise (· < ·)) (hr : ∀ s ∈ lz77splitpoints, s < store.size) :
    ((if lz77splitpoints.length > 0 then
          convertLoop store lz77splitpoints store.size 0 instart [] else [])
        = lz77splitpoints.map
            (fun s => instart + ((List.range s).map (fun i =>
              if store.dists.getD i 0 = 0 then 1 else store.litlens.getD i 0)).sum) ∧
      (if lz77splitpoints.length > 0 then
          convertLoop store lz77splitpoints store.size 0 instart [] else []).length
        = lz77splitpoints.length) ∧
    ∀ (find : ZopfliHash → Nat → (Nat → Nat) → Option MatchResult) (ops : HashOps)
      (blockSize : List Nat → List Nat → Nat → Nat → Nat → Nat) (array : Nat → Nat)
      (inend maxblocks : Nat) (g : GreedyState),
      LZ77GreedyWith find ops array instart inend ZopfliInitLZ77Store = some g →
      ∃ pts, ZopfliBlockSplitLZ77 blockSize g.store.litlens g.store.dists g.store.size
          maxblocks [] = some pts ∧
        BlockSplitWith find ops blockSize array instart inend maxblocks
          = some (pts.map (bytePosition g.store instart)) := by
  have hconv : ∀ (st : ZopfliLZ77Store) (pts : List Nat), pts.Pairwise (· < ·) →
      (∀ s ∈ pts, s < st.size) → 0 < pts.length →
      convertLoop st pts st.size 0 instart [] = pts.map (bytePosition st instart) := by
    intro st pts hs hr hne
    have h := convertLoop_spec st instart st.size 0 [] pts (List.length_pos.mp hne)
      (by omega) hs (fun x hx => ⟨Nat.zero_le _, hr x hx⟩)
    have h0 : bytePosition st instart 0 = instart := by simp [bytePosition]
    rw [h0] at h
    simpa using h
  refine ⟨?_, ?_⟩
  · have h : (if lz77splitpoints.length > 0 then
          convertLoop store lz77splitpoints store.size 0 instart [] else [])
        = lz77splitpoints.map (bytePosition store instart) := by
      by_cases hne : lz77splitpoints.length > 0
      · rw [if_pos hne]; exact hconv store lz77splitpoints hs hr hne
      · rw [if_neg hne]
        have : lz77splitpoints = [] := List.length_eq_zero.mp (by omega)
        subst this
        rfl
    refine ⟨h, ?_⟩
    rw [h, List.length_map]
  · intro find ops blockSize array inend maxblocks g hg
    obtain ⟨pts, hp, hps, hpr, _⟩ := ZopfliBlockSplitLZ77_spec blockSize g.store.litlens
      g.store.dists g.store.size maxblocks
    refine ⟨pts, hp, ?_⟩
    unfold BlockSplitWith
    simp only [hg, hp]
    by_cases hlen : pts.length > 0
    · rw [if_pos hlen, hconv g.store pts hps (fun s hs => (hpr s hs).2) hlen]
    · rw [if_neg hlen]
      have : pts = [] := List.length_eq_zero.mp (by omega)
      subst this
      rfl

theorem C12_split_points_to_byte_positions_witness :
    [1, 3].Pairwise (· < ·) ∧
      (∀ s ∈ [1, 3],
        s < ZopfliLZ77Store.size { litlens := [65, 66, 5, 67], dists := [0, 0, 2, 0] }) ∧
      (if [1, 3].length > 0 then
          convertLoop { litlens := [65, 66, 5, 67], dists := [0, 0, 2, 0] } [1, 3]
            (ZopfliLZ77Store.size { litlens := [65, 66, 5, 67], dists := [0, 0, 2, 0] }) 0 10 []
          else [])
        = [1, 3].map (fun s => 10 + ((List.range s).map (fun i =>
            if [0, 0, 2, 0].getD i 0 = 0 then 1 else [65, 66, 5, 67].getD i 0)).sum) :=
  ⟨by decide, by decide,
    (C12_split_points_to_byte_positions { litlens := [65, 66, 5, 67], dists := [0, 0, 2, 0] }
      [1, 3] 10 (by decide) (by decide)).1.1⟩

/-! ## Length scores in the greedy LZ77 producer -/

theorem ScoreInv_literal (store0 : ZopfliLZ77Store) (st st1 : GreedyState) (lit : Nat)
    (hinv : ScoreInv store0 st) (hs : st1.store = ZopfliStoreLitLenDist lit 0 st.store)
    (hv : st1.verified = st.verified)
    (ha : st1.match_available = true → 3 ≤ GetLengthScore st1.prev_length st1.prev_match) :
    ScoreInv store0 st1 := by
  obtain ⟨es, hes, hsc⟩ := hinv.app
  refine { ver := by rw [hv]; exact hinv.ver, avail := ha, app := ⟨es ++ [(lit, 0)], ?_, ?_⟩ }
  · rw [hs]
    unfold Appended ZopfliStoreLitLenDist at *
    simp only [List.map_append, List.map_cons, List.map_nil]
    rw [hes.1, hes.2]
    simp
  · intro e he hne
    rcases List.mem_append.mp he with h | h
    · exact hsc e h hne
    · simp only [List.mem_singleton] at h
      rw [h] at hne
      exact absurd rfl hne

theorem ScoreInv_match (store0 : ZopfliLZ77Store) (st st1 : GreedyState) (p leng dist : Nat)
    (hinv : ScoreInv store0 st) (hscore : 3 ≤ GetLengthScore leng dist)
    (hs : st1.store = ZopfliStoreLitLenDist leng dist st.store)
    (hv : st1.verified = st.verified ++ [(p, dist, leng)])
    (ha : st1.match_available = false) :
    ScoreInv store0 st1 := by
  obtain ⟨es, hes, hsc⟩ := hinv.app
  refine { ver := ?_, avail := by rw [ha]; intro h; simp at h,
           app := ⟨es ++ [(leng, dist)], ?_, ?_⟩ }
  · intro v hvm
    rw [hv] at hvm
    rcases List.mem_append.mp hvm with h | h
    · exact hinv.ver v h
    · simp only [List.mem_singleton] at h
      rw [h]; exact hscore
  · rw [hs]
    unfold Appended ZopfliStoreLitLenDist at *
    simp only [List.map_append, List.map_cons, List.map_nil]
    rw [hes.1, hes.2]
    simp
  · intro e he _
    rcases List.mem_append.mp he with h | h
    · exact hsc e h ‹_›
    · simp only [List.mem_singleton] at h
      rw [h]; exact hscore

theorem addToOutput_score (ops : HashOps) (array : Nat → Nat) (inend : Nat)
    (store0 : ZopfliLZ77Store) (st : GreedyState) (leng dist : Nat)
    (hinv : ScoreInv store0 st) (ha : st.match_available = false) :
    ScoreInv store0 (addToOutput ops array inend st leng dist (GetLengthScore leng dist)) := by
  by_cases hsc : GetLengthScore leng dist ≥ (ZOPFLI_MIN_MATCH : Int)
  · apply ScoreInv_match store0 st _ st.i leng dist hinv
      (by simpa [ZOPFLI_MIN_MATCH] using hsc)
    · simp [addToOutput, hsc]
    · simp [addToOutput, hsc]
    · simp [addToOutput, ha]
  · apply ScoreInv_literal store0 st _ (array st.i) hinv
    · simp [addToOutput, hsc]
    · simp [addToOutput, hsc]
    · intro h
      simp [addToOutput, ha] at h

/-- One pass through the loop body keeps the invariant of the length scores,
whatever the match finder answers. -/
theorem greedyBody_score (find : ZopfliHash → Nat → (Nat → Nat) → Option MatchResult)
    (ops : HashOps) (array : Nat → Nat) (inend : Nat) (store0 : ZopfliLZ77Store)
    (st st1 : GreedyState) (hinv : ScoreInv store0 st)
    (hb : greedyBody find ops array inend st = some st1) : ScoreInv store0 st1 := by
  unfold greedyBody at hb
  simp only at hb
  split at hb
  · simp at hb
  · rename_i r hr
    by_cases hav : st.match_available = true
    · rw [if_pos hav] at hb
      split at hb
      · split at hb
        · rename_i hdefer
          simp only [Option.some.injEq] at hb
          subst hb
          exact ScoreInv_literal store0 st _ (array (st.i - 1)) hinv rfl rfl
            (fun _ => by simpa [ZOPFLI_MIN_MATCH] using hdefer.1)
        · simp only [Option.some.injEq] at hb
          subst hb
          apply addToOutput_score
          · exact ScoreInv_literal store0 st _ (array (st.i - 1)) hinv rfl rfl
              (fun h => by simp at h)
          · rfl
      · simp only [Option.some.injEq] at hb
        subst hb
        exact ScoreInv_match store0 st _ (st.i - 1) st.prev_length st.prev_match hinv
          (hinv.avail hav) rfl rfl rfl
    · rw [if_neg hav] at hb
      have hav2 : st.match_available = false := by simpa using hav
      split at hb
      · rename_i hdefer
        simp only [Option.some.injEq] at hb
        subst hb
        obtain ⟨es, hes, hsc⟩ := hinv.app
        exact { ver := hinv.ver
                avail := fun _ => by simpa [ZOPFLI_MIN_MATCH] using hdefer.1
                app := ⟨es, hes, hsc⟩ }
      · simp only [Option.some.injEq] at hb
        subst hb
        apply addToOutput_score
        · obtain ⟨es, hes, hsc⟩ := hinv.app
          exact { ver := hinv.ver, avail := fun h => absurd h hav, app := ⟨es, hes, hsc⟩ }
        · exact hav2

theorem greedyLoop_score (find : ZopfliHash → Nat → (Nat → Nat) → Option MatchResult)
    (ops : HashOps) (array : Nat → Nat) (inend : Nat) (store0 : ZopfliLZ77Store) :
    ∀ (fuel : Nat) (st out : GreedyState), ScoreInv store0 st →
      greedyLoop find ops array inend fuel st = some out → ScoreInv store0 out := by
  intro fuel
  induction fuel with
  | zero =>
    intro st out hinv hl
    simp only [greedyLoop] at hl
    split at hl
    · simp at hl
    · simp only [Option.some.injEq] at hl
      rw [← hl]; exact hinv
  | succ fuel ih =>
    intro st out hinv hl
    simp only [greedyLoop] at hl
    split at hl
    · split at hl
      · simp at hl
      · rename_i st1 hb
        have h1 := greedyBody_score find ops array inend store0 st st1 hinv hb
        obtain ⟨es, hes, hsc⟩ := h1.app
        exact ih { st1 with i := st1.i + 1 } out
          { ver := h1.ver, avail := h1.avail, app := ⟨es, hes, hsc⟩ } hl
    · simp only [Option.some.injEq] at hl
      rw [← hl]; exact hinv

theorem score_not_three_far (L d : Nat) (h : 3 ≤ GetLengthScore L d) : ¬ (L = 3 ∧ 1024 < d) := by
  rintro ⟨rfl, hd⟩
  unfold GetLengthScore at h
  rw [if_pos (by omega)] at h
  omega

/-- C13: whatever the match finder answers, every back-reference `(L, d)` that
`ZopfliLZ77Greedy` appends (every verified one, and every appended entry with a
distance) has `GetLengthScore(L, d) >= 3`, so none has length 3 at a distance
above 1024; the producer returns when the finder answers at the positions of
the range; and a pass of the loop without a deferred match whose candidate
scores below 3 appends the literal `in[i]` and nothing else. -/
theorem C13_backreferences_score_at_least_three
    (find : ZopfliHash → Nat → (Nat → Nat) → Option MatchResult) (ops : HashOps)
    (array : Nat → Nat) (instart inend : Nat) (store0 : ZopfliLZ77Store) :
    (∀ out, LZ77GreedyWith find ops array instart inend store0 = some out →
        (∃ es, Appended store0 out.store es ∧
          ∀ e ∈ es, e.2 ≠ 0 → 3 ≤ GetLengthScore e.1 e.2 ∧ ¬ (e.1 = 3 ∧ 1024 < e.2)) ∧
        ∀ p d L, (p, d, L) ∈ out.verified →
          3 ≤ GetLengthScore L d ∧ ¬ (L = 3 ∧ 1024 < d)) ∧
      ((∀ i s, instart ≤ i → i < inend →
          (find (hashAt ops array instart inend i) i s).isSome = true) →
        ∃ out, LZ77GreedyWith find ops array instart inend store0 = some out) ∧
      (∀ (st : GreedyState) (r : MatchResult), st.match_available = false →
        find (ops.update array st.i inend st.h) st.i st.dummysublen = some r →
        GetLengthScore r.length r.distance < 3 →
        ∃ st1, greedyBody find ops array inend st = some st1 ∧
          st1.store = ZopfliStoreLitLenDist (array st.i) 0 st.store ∧
          st1.verified = st.verified ∧ st1.i = st.i ∧ st1.match_available = false) := by
  refine ⟨fun out hout => ?_, fun hfind => ?_, fun st r hav hr hsc => ?_⟩
  · have hinv0 : ScoreInv store0
        { i := instart, h := hashBefore ops array instart inend instart, store := store0,
          dummysublen := fun _ => 0, prev_length := 0, prev_match := 0,
          match_available := false, verified := [], inRange := true } :=
      { ver := by intro v hv; simp at hv
        avail := by intro h; simp at h
        app := ⟨[], by simp [Appended], by intro e he; simp at he⟩ }
    have hinv : ScoreInv store0 out := by
      unfold LZ77GreedyWith at hout
      simp only at hout
      split at hout
      · simp only [Option.some.injEq] at hout
        rw [← hout]; exact hinv0
      · exact greedyLoop_score find ops array inend store0 _ _ out hinv0 hout
    obtain ⟨es, hes, hsc⟩ := hinv.app
    refine ⟨⟨es, hes, fun e he hne => ⟨hsc e he hne, score_not_three_far _ _ (hsc e he hne)⟩⟩,
      fun p d L hm => ?_⟩
    have := hinv.ver (p, d, L) hm
    exact ⟨this, score_not_three_far _ _ this⟩
  · unfold LZ77GreedyWith
    simp only
    split
    · exact ⟨_, rfl⟩
    · obtain ⟨out, ho, _⟩ := greedyLoop_committed find ops array instart inend
        (store0.litlens.length + (inend - instart)) hfind (inend - instart)
        { i := instart, h := hashBefore ops array instart inend instart, store := store0,
          dummysublen := fun _ => 0, prev_length := 0, prev_match := 0,
          match_available := false, verified := [], inRange := true }
        rfl (Nat.le_refl _) (by simp only; omega) (by simp [committed])
      exact ⟨out, ho⟩
  · unfold greedyBody
    simp only [hr, hav]
    have hnd : ¬ (GetLengthScore r.length r.distance ≥ (ZOPFLI_MIN_MATCH : Int)
        ∧ r.length < ZOPFLI_MAX_MATCH) := by
      simp only [ZOPFLI_MIN_MATCH]
      omega
    simp only [Bool.false_eq_true, if_false]
    rw [if_neg hnd]
    have hne : ¬ (GetLengthScore r.length r.distance ≥ (ZOPFLI_MIN_MATCH : Int)) := by
      simp only [ZOPFLI_MIN_MATCH]
      omega
    refine ⟨_, rfl, ?_, ?_, ?_, ?_⟩
    · simp [addToOutput, hne]
    · simp [addToOutput, hne]
    · simp [addToOutput, hne, skipPositions]
    · simp [addToOutput, hav]

theorem C13_backreferences_score_at_least_three_witness :
    (∀ i s, 0 ≤ i → i < 9 →
        (ZopfliFindLongestMatch build64 (hashAt chainedOps period3 0 9 i) period3 i 9
          ZOPFLI_MAX_MATCH (some s)).isSome = true) ∧
      ∃ out, ZopfliLZ77Greedy build64 chainedOps period3 0 9 ZopfliInitLZ77Store = some out :=
  ⟨finder_answers build64 chainedOps period3 0 9 (fun i _ _ => chainedOps_wf period3 0 9 i),
    (C13_backreferences_score_at_least_three
      (fun h i sublen => ZopfliFindLongestMatch build64 h period3 i 9 ZOPFLI_MAX_MATCH
        (some sublen))
      chainedOps period3 0 9 ZopfliInitLZ77Store).2.1
      (finder_answers build64 chainedOps period3 0 9
        (fun i _ _ => chainedOps_wf period3 0 9 i))⟩

/-! ## The answer of the chain walk does not depend on `sublen` -/

theorem examineCandidate_erase (b : Build) (h : ZopfliHash) (array : Nat → Nat)
    (pos size limit : Nat) (st : WalkState) :
    examineCandidate b h array pos size limit { st with sublen := none }
      = ({ (examineCandidate b h array pos size limit st).1 with sublen := none },
          (examineCandidate b h array pos size limit st).2) := by
  unfold examineCandidate
  simp only
  split_ifs <;> rfl

theorem advanceChain_erase (b : Build) (h : ZopfliHash) (pos : Nat) (st : WalkState) :
    advanceChain b h pos { st with sublen := none }
      = ({ (advanceChain b h pos st).1 with sublen := none }, (advanceChain b h pos st).2) := by
  unfold advanceChain
  simp only
  split_ifs <;> rfl

theorem chainWalk_erase (b : Build) (h : ZopfliHash) (array : Nat → Nat)
    (pos size limit : Nat) :
    ∀ (fuel : Nat) (st : WalkState),
      chainWalk b h array pos size limit fuel { st with sublen := none }
        = (chainWalk b h array pos size limit fuel st).map
            (fun o => { o with sublen := none }) := by
  intro fuel
  induction fuel with
  | zero =>
    intro st
    simp only [chainWalk]
    split_ifs <;> rfl
  | succ fuel ih =>
    intro st
    simp only [chainWalk, examineCandidate_erase, advanceChain_erase]
    split_ifs
    · rfl
    · rfl
    · rfl
    · exact ih _
    · rfl

/-- The distance, the length and the record of the walk are the same with and
without a `sublen` array. -/
theorem ZopfliFindLongestMatch_erase (b : Build) (h : ZopfliHash) (array : Nat → Nat)
    (pos size limit : Nat) (sublen : Option (Nat → Nat)) :
    (ZopfliFindLongestMatch b h array pos size limit sublen).map
        (fun r => (r.distance, r.length, r.visited, r.lengths))
      = (ZopfliFindLongestMatch b h array pos size limit none).map
        (fun r => (r.distance, r.length, r.visited, r.lengths)) := by
  unfold ZopfliFindLongestMatch
  split
  · rfl
  · simp only
    have := chainWalk_erase b h array pos size (clampedLimit pos size limit) ZOPFLI_WINDOW_SIZE
      { pp := (h.head h.val.toNat % 4294967296).toNat,
        p := h.prev (h.head h.val.toNat % 4294967296).toNat,
        dist := chainStep (h.head h.val.toNat % 4294967296).toNat
          (h.prev (h.head h.val.toNat % 4294967296).toNat),
        bestdist := 0, bestlength := 1, sublen := sublen, second := false,
        chain_counter := b.maxChainHits, visited := [], lengths := [] }
    simp only at this
    rw [this]
    simp only [Option.map_map]
    rfl

/-! ## The greedy producer on "ABCABCABCABC" -/

theorem lengthScore_le (leng dist : Nat) : GetLengthScore leng dist ≤ leng := by
  unfold GetLengthScore
  split <;> omega

/-- On a well-formed hash state, a position none of whose earlier positions
agrees with it in two bytes gets an answer of length at most 1. -/
theorem finder_no_match (b : Build) (h : ZopfliHash) (array : Nat → Nat) (pos size : Nat)
    (s : Nat → Nat) (hwf : HashWF h array pos size) (hpos : pos < size)
    (hno : ∀ d, 0 < d → d ≤ pos →
      matchLength array (clampedLimit pos size ZOPFLI_MAX_MATCH) pos (pos - d) < 2) :
    ∃ r, ZopfliFindLongestMatch b h array pos size ZOPFLI_MAX_MATCH (some s) = some r ∧
      r.length ≤ 1 := by
  obtain ⟨r, hr, _, hcase⟩ := ZopfliFindLongestMatch_spec b h array pos size ZOPFLI_MAX_MATCH
    (some s) hwf hpos (by simp [ZOPFLI_MIN_MATCH, ZOPFLI_MAX_MATCH])
  refine ⟨r, hr, ?_⟩
  rcases hcase with ⟨_, h0, _⟩ | ⟨_, hinv, _⟩
  · omega
  · by_contra hlt
    obtain ⟨hm, he, _⟩ := hinv.best (by omega)
    have hrange := hinv.vis_range _ hm
    have := hno r.distance hrange.1 hrange.2.1
    omega

/-- The flag of `skipPositions` stays `true` when every skipped position lies
below `inend`. -/
theorem skipPositions_inRange (ops : HashOps) (array : Nat → Nat) (inend : Nat) (n : Nat) :
    ∀ (i : Nat) (h : ZopfliHash), i + n ≤ inend →
      (skipPositions ops array inend n i h true).2.2 = true := by
  induction n with
  | zero => intro i h _; rfl
  | succ n ih =>
    intro i h hle
    simp only [skipPositions]
    rw [show (true && decide (i < inend)) = true by simp; omega]
    exact ih (i + 1) _ (by omega)

/-- C14: on the 12 bytes "ABCABCABCABC" with `instart = 0` and `inend = 12`, for
every build and every hash maintenance whose states are well-formed at the
positions of the range and whose chain at position 3 leads the walk to distance
3 (the earlier "ABC"), `ZopfliLZ77Greedy` returns the store with the literals
`0x41`, `0x42`, `0x43` followed by one back-reference of length 9 at distance 3,
no assertion `i < inend` fails, and the back-reference, the only one verified,
passes `ZopfliVerifyLenDist`. -/
theorem C14_abcabc_store (b : Build) (ops : HashOps)
    (hwf : ∀ i, i < 12 → HashWF (hashAt ops abcInput 0 12 i) abcInput i 12)
    (hchain : ∀ s r, ZopfliFindLongestMatch b (hashAt ops abcInput 0 12 3) abcInput 3 12
      ZOPFLI_MAX_MATCH (some s) = some r → 3 ∈ r.visited) :
    ∃ out, ZopfliLZ77Greedy b ops abcInput 0 12 ZopfliInitLZ77Store = some out ∧
      out.store.litlens = [0x41, 0x42, 0x43, 9] ∧ out.store.dists = [0, 0, 0, 3] ∧
      out.verified = [(3, 3, 9)] ∧ out.inRange = true ∧
      ZopfliVerifyLenDist abcInput 12 3 3 9 = true := by
  have hcl : ∀ i, i < 12 → clampedLimit i 12 ZOPFLI_MAX_MATCH = 12 - i := by
    intro i hi
    unfold clampedLimit
    simp only [ZOPFLI_MAX_MATCH]
    split <;> omega
  -- the answers of the match finder
  have F0 : ∀ s, ∃ r, ZopfliFindLongestMatch b (hashAt ops abcInput 0 12 0) abcInput 0 12
      ZOPFLI_MAX_MATCH (some s) = some r ∧ r.length ≤ 1 := fun s =>
    finder_no_match b _ abcInput 0 12 s (hwf 0 (by omega)) (by omega)
      (fun d h1 h2 => by omega)
  have F1 : ∀ s, ∃ r, ZopfliFindLongestMatch b (hashAt ops abcInput 0 12 1) abcInput 1 12
      ZOPFLI_MAX_MATCH (some s) = some r ∧ r.length ≤ 1 := fun s =>
    finder_no_match b _ abcInput 1 12 s (hwf 1 (by omega)) (by omega)
      (fun d h1 h2 => by
        rw [hcl 1 (by omega)]
        have : d = 1 := by omega
        subst this
        decide)
  have F2 : ∀ s, ∃ r, ZopfliFindLongestMatch b (hashAt ops abcInput 0 12 2) abcInput 2 12
      ZOPFLI_MAX_MATCH (some s) = some r ∧ r.length ≤ 1 := fun s =>
    finder_no_match b _ abcInput 2 12 s (hwf 2 (by omega)) (by omega)
      (fun d h1 h2 => by
        rw [hcl 2 (by omega)]
        have : d = 1 ∨ d = 2 := by omega
        rcases this with rfl | rfl <;> decide)
  have F3 : ∀ s, ∃ r, ZopfliFindLongestMatch b (hashAt ops abcInput 0 12 3) abcInput 3 12
      ZOPFLI_MAX_MATCH (some s) = some r ∧ r.length = 9 ∧ r.distance = 3 := by
    intro s
    obtain ⟨r, hr, _, hcase⟩ := ZopfliFindLongestMatch_spec b _ abcInput 3 12 ZOPFLI_MAX_MATCH
      (some s) (hwf 3 (by omega)) (by omega) (by simp [ZOPFLI_MIN_MATCH, ZOPFLI_MAX_MATCH])
    refine ⟨r, hr, ?_⟩
    rcases hcase with ⟨hsm, _⟩ | ⟨_, hinv, _⟩
    · simp [ZOPFLI_MIN_MATCH] at hsm
    · rw [hcl 3 (by omega)] at hinv
      have h3 := hinv.vis_len 3 (hchain s r hr)
      have hle := hinv.bl_le
      have hm : matchLength abcInput (12 - 3) 3 (3 - 3) = 9 := by decide
      rw [hm] at h3
      have hlen : r.length = 9 := by omega
      obtain ⟨hmem, he, _⟩ := hinv.best (by omega)
      have hrange := hinv.vis_range _ hmem
      refine ⟨hlen, ?_⟩
      rw [hlen] at he
      have : r.distance = 1 ∨ r.distance = 2 ∨ r.distance = 3 := by omega
      rcases this with h | h | h
      · rw [h] at he; exact absurd he (by decide)
      · rw [h] at he; exact absurd he (by decide)
      · exact h
  have F4 : ∀ s, ∃ r, ZopfliFindLongestMatch b (hashAt ops abcInput 0 12 4) abcInput 4 12
      ZOPFLI_MAX_MATCH (some s) = some r ∧ r.length ≤ 8 := by
    intro s
    obtain ⟨r, hr, _⟩ := ZopfliFindLongestMatch_spec b _ abcInput 4 12 ZOPFLI_MAX_MATCH
      (some s) (hwf 4 (by omega)) (by omega) (by simp [ZOPFLI_MIN_MATCH, ZOPFLI_MAX_MATCH])
    refine ⟨r, hr, ?_⟩
    have := ZopfliFindLongestMatch_length_le b _ abcInput 4 12 ZOPFLI_MAX_MATCH (some s)
      (by simp [ZOPFLI_MAX_MATCH]) r hr
    rw [hcl 4 (by omega)] at this
    omega
  obtain ⟨r0, e0, p0⟩ := F0 (fun _ => 0)
  obtain ⟨r1, e1, p1⟩ := F1 (r0.sublen.getD (fun _ => 0))
  obtain ⟨r2, e2, p2⟩ := F2 (r1.sublen.getD (r0.sublen.getD (fun _ => 0)))
  obtain ⟨r3, e3, p3, q3⟩ := F3 (r2.sublen.getD (r1.sublen.getD (r0.sublen.getD (fun _ => 0))))
  obtain ⟨r4, e4, p4⟩ := F4 (r3.sublen.getD (r2.sublen.getD (r1.sublen.getD
    (r0.sublen.getD (fun _ => 0)))))
  have s0 := lengthScore_le r0.length r0.distance
  have s1 := lengthScore_le r1.length r1.distance
  have s2 := lengthScore_le r2.length r2.distance
  have s4 := lengthScore_le r4.length r4.distance
  have n0 : ¬ (3 ≤ GetLengthScore r0.length r0.distance) := by omega
  have n1 : ¬ (3 ≤ GetLengthScore r1.length r1.distance) := by omega
  have n2 : ¬ (3 ≤ GetLengthScore r2.length r2.distance) := by omega
  have n3 : GetLengthScore 9 3 = 9 := by decide
  have n4 : ¬ (10 < GetLengthScore r4.length r4.distance) := by omega
  simp only [hashAt, hashBefore, windowStart, ZOPFLI_WINDOW_SIZE, Nat.sub_zero,
    List.range', List.foldl, Nat.lt_irrefl, if_false, Nat.not_lt_zero, Nat.zero_add,
    Nat.reduceAdd, ZOPFLI_MAX_MATCH] at e0 e1 e2 e3 e4
  clear F0 F1 F2 F3 F4 hchain hwf hcl s0 s1 s2 s4 p0 p1 p2 p4
  unfold ZopfliLZ77Greedy LZ77GreedyWith
  simp only [hashBefore, windowStart, ZOPFLI_WINDOW_SIZE, Nat.sub_zero,
    List.range', List.foldl, Nat.lt_irrefl, if_false, Nat.not_lt_zero]
  simp [greedyLoop, greedyBody, addToOutput, skipPositions, e0, e1, e2, e3, e4, n0, n1, n2,
    n3, n4, p3, q3, ZOPFLI_MIN_MATCH, ZOPFLI_MAX_MATCH, ZopfliStoreLitLenDist,
    ZopfliInitLZ77Store]
  exact ⟨⟨rfl, rfl, rfl⟩, by decide⟩

/-- With the single chain through all positions, the walk at position 3 of
"ABCABCABCABC" examines the distances 1, 2 and 3. -/
theorem chainedOps_visits_three (s : Nat → Nat) (r : MatchResult)
    (hr : ZopfliFindLongestMatch build64 (hashAt chainedOps abcInput 0 12 3) abcInput 3 12
      ZOPFLI_MAX_MATCH (some s) = some r) : 3 ∈ r.visited := by
  have hv := ZopfliFindLongestMatch_erase build64 (hashAt chainedOps abcInput 0 12 3) abcInput
    3 12 ZOPFLI_MAX_MATCH (some s)
  rw [hr, show (ZopfliFindLongestMatch build64 (hashAt chainedOps abcInput 0 12 3) abcInput
      3 12 ZOPFLI_MAX_MATCH none).map (fun r => (r.distance, r.length, r.visited, r.lengths))
      = some (3, 9, [1, 2, 3], [0, 0, 9]) from rfl] at hv
  simp only [Option.map_some', Option.some.injEq, Prod.mk.injEq] at hv
  rw [hv.2.2.1]
  decide

theorem C14_abcabc_store_witness :
    (∀ i, i < 12 → HashWF (hashAt chainedOps abcInput 0 12 i) abcInput i 12) ∧
      (∀ s r, ZopfliFindLongestMatch build64 (hashAt chainedOps abcInput 0 12 3) abcInput 3 12
        ZOPFLI_MAX_MATCH (some s) = some r → 3 ∈ r.visited) ∧
      ∃ out, ZopfliLZ77Greedy build64 chainedOps abcInput 0 12 ZopfliInitLZ77Store = some out ∧
        out.store.litlens = [0x41, 0x42, 0x43, 9] ∧ out.store.dists = [0, 0, 0, 3] ∧
        out.verified = [(3, 3, 9)] ∧ out.inRange = true ∧
        ZopfliVerifyLenDist abcInput 12 3 3 9 = true :=
  ⟨fun i _ => chainedOps_wf abcInput 0 12 i, chainedOps_visits_three,
    C14_abcabc_store build64 chainedOps (fun i _ => chainedOps_wf abcInput 0 12 i)
      chainedOps_visits_three⟩

/-! ## The longest-match cache -/

/-- A call of `StoreInLongestMatchCache` on a populated slot, or without `sublen`,
or with a limit other than `ZOPFLI_MAX_MATCH`, leaves the cache as it is. -/
theorem StoreInLongestMatchCache_skip (c : CacheOps) (lmc : ZopfliLongestMatchCache)
    (lmcpos limit : Nat) (sublen : Option (Nat → Nat)) (distance length : Nat)
    (h : ¬ (limit = ZOPFLI_MAX_MATCH ∧ sublen.isSome = true ∧
      lmc.length lmcpos ≠ 0 ∧ lmc.dist lmcpos = 0)) :
    StoreInLongestMatchCache c lmc lmcpos limit sublen distance length = some lmc := by
  unfold StoreInLongestMatchCache
  cases sublen with
  | none => rfl
  | some s =>
    simp only
    rw [if_neg]
    intro hc
    apply h
    refine ⟨hc.1, rfl, ?_⟩
    have := hc.2
    simp only [decide_eq_false_iff_not, not_or, not_not] at this
    exact this

/-- A call of `StoreInLongestMatchCache` that writes: the slot holds the sentinel
`(1, 0)`, and afterwards `(0, 0)` for a length below 3 and `(length, distance)`
otherwise, before `ZopfliSublenToCache` is called. -/
theorem StoreInLongestMatchCache_write (c : CacheOps) (lmc : ZopfliLongestMatchCache)
    (lmcpos limit : Nat) (s : Nat → Nat) (distance length : Nat)
    (hlim : limit = ZOPFLI_MAX_MATCH) (hl : lmc.length lmcpos = 1) (hd : lmc.dist lmcpos = 0) :
    StoreInLongestMatchCache c lmc lmcpos limit (some s) distance length
      = some (c.ZopfliSublenToCache s lmcpos length
          { lmc with
            dist := Function.update lmc.dist lmcpos
              (if length < ZOPFLI_MIN_MATCH then 0 else distance)
            length := Function.update lmc.length lmcpos
              (if length < ZOPFLI_MIN_MATCH then 0 else length) }) := by
  have hneg : ¬ ((if length < ZOPFLI_MIN_MATCH then 0 else length) = 1 ∧
      (if length < ZOPFLI_MIN_MATCH then 0 else distance) = 0) := by
    simp only [ZOPFLI_MIN_MATCH]
    split_ifs <;> first | omega | simp
  have hca : decide (lmc.length lmcpos = 0 ∨ lmc.dist lmcpos ≠ 0) = false := by
    simp [hl, hd]
  unfold StoreInLongestMatchCache
  simp only
  rw [if_pos ⟨hlim, hca⟩, if_pos ⟨hl, hd⟩, if_neg hneg]

/-- What a call of `StoreInLongestMatchCache` does to the arrays `length` and `dist`,
when `ZopfliSublenToCache` leaves them alone. -/
theorem StoreInLongestMatchCache_slots (c : CacheOps) (hk : c.KeepsSlots)
    (lmc out : ZopfliLongestMatchCache) (lmcpos limit : Nat) (sublen : Option (Nat → Nat))
    (distance length : Nat)
    (ho : StoreInLongestMatchCache c lmc lmcpos limit sublen distance length = some out) :
    (out = lmc ∧ ¬ (limit = ZOPFLI_MAX_MATCH ∧ sublen.isSome = true ∧
        lmc.length lmcpos ≠ 0 ∧ lmc.dist lmcpos = 0)) ∨
      (limit = ZOPFLI_MAX_MATCH ∧ sublen.isSome = true ∧
        lmc.length lmcpos = 1 ∧ lmc.dist lmcpos = 0 ∧
        out.length = Function.update lmc.length lmcpos
          (if length < ZOPFLI_MIN_MATCH then 0 else length) ∧
        out.dist = Function.update lmc.dist lmcpos
          (if length < ZOPFLI_MIN_MATCH then 0 else distance)) := by
  by_cases h : limit = ZOPFLI_MAX_MATCH ∧ sublen.isSome = true ∧
      lmc.length lmcpos ≠ 0 ∧ lmc.dist lmcpos = 0
  · right
    obtain ⟨hlim, hs, hl0, hd⟩ := h
    obtain ⟨s, rfl⟩ := Option.isSome_iff_exists.mp hs
    have hl : lmc.length lmcpos = 1 := by
      by_contra hne
      unfold StoreInLongestMatchCache at ho
      simp only at ho
      rw [if_pos ⟨hlim, by simp [hl0, hd]⟩, if_neg (fun hc => hne hc.1)] at ho
      simp at ho
    rw [StoreInLongestMatchCache_write c lmc lmcpos limit s distance length hlim hl hd] at ho
    simp only [Option.some.injEq] at ho
    subst ho
    obtain ⟨e1, e2⟩ := hk s lmcpos length
      { lmc with
        dist := Function.update lmc.dist lmcpos
          (if length < ZOPFLI_MIN_MATCH then 0 else distance)
        length := Function.update lmc.length lmcpos
          (if length < ZOPFLI_MIN_MATCH then 0 else length) }
    exact ⟨hlim, hs, hl, hd, e1, e2⟩
  · left
    rw [StoreInLongestMatchCache_skip c lmc lmcpos limit sublen distance length h] at ho
    simp only [Option.some.injEq] at ho
    exact ⟨ho.symm, h⟩

/-- A populated slot stays as it is under any sequence of calls of
`StoreInLongestMatchCache`. -/
theorem storeSequence_populated (c : CacheOps) (hk : c.KeepsSlots) (k : Nat) :
    ∀ (calls : List (Nat × Nat × Option (Nat → Nat) × Nat × Nat))
      (lmc out : ZopfliLongestMatchCache),
      (lmc.length k = 0 ∨ lmc.dist k ≠ 0) → storeSequence c calls lmc = some out →
      out.length k = lmc.length k ∧ out.dist k = lmc.dist k := by
  intro calls
  induction calls with
  | nil =>
    intro lmc out _ ho
    simp only [storeSequence, Option.some.injEq] at ho
    rw [ho]; exact ⟨rfl, rfl⟩
  | cons call rest ih =>
    intro lmc out hp ho
    simp only [storeSequence] at ho
    split at ho
    · simp at ho
    · rename_i lmc1 h1
      have hsame : lmc1.length k = lmc.length k ∧ lmc1.dist k = lmc.dist k := by
        rcases StoreInLongestMatchCache_slots c hk lmc lmc1 _ _ _ _ _ h1 with h | h
        · rw [h.1]; exact ⟨rfl, rfl⟩
        · obtain ⟨_, _, hl, hd, e1, e2⟩ := h
          have hne : k ≠ call.1 := by
            rintro rfl
            rcases hp with hp | hp
            · omega
            · exact hp hd
          rw [e1, e2, Function.update_noteq hne, Function.update_noteq hne]
          exact ⟨rfl, rfl⟩
      have := ih lmc1 out (by rw [hsame.1, hsame.2]; exact hp) ho
      rw [this.1, this.2]
      exact hsame

/-- C15: slots of the longest-match cache are written once (`ZopfliSublenToCache`
leaving `length` and `dist` alone).  A call of `StoreInLongestMatchCache` changes
no slot but `lmcpos`, and changes `length[lmcpos]` or `dist[lmcpos]` only when
the slot holds the sentinel (`length != 0`, `dist == 0`), `limit == 258` and
`sublen` is supplied; on the sentinel `(1, 0)` with `limit == 258` and `sublen`
the call returns, and for a finder result (`distance >= 1` when `length >= 3`)
the slot is populated afterwards, with `(0, 0)` for a length below 3 and
`(length, distance)` otherwise; and a populated slot keeps its `length` and
`dist` under every later call, and every later sequence of calls, of
`StoreInLongestMatchCache`. -/
theorem C15_cache_slots_written_once (c : CacheOps) (hk : c.KeepsSlots)
    (lmc : ZopfliLongestMatchCache) (lmcpos limit : Nat) (sublen : Option (Nat → Nat))
    (distance length : Nat) :
    (∀ out, StoreInLongestMatchCache c lmc lmcpos limit sublen distance length = some out →
        (∀ k, k ≠ lmcpos → out.length k = lmc.length k ∧ out.dist k = lmc.dist k) ∧
        ((out.length lmcpos ≠ lmc.length lmcpos ∨ out.dist lmcpos ≠ lmc.dist lmcpos) →
          (lmc.length lmcpos ≠ 0 ∧ lmc.dist lmcpos = 0) ∧ limit = ZOPFLI_MAX_MATCH ∧
            sublen.isSome = true)) ∧
      (lmc.length lmcpos = 1 → lmc.dist lmcpos = 0 → limit = ZOPFLI_MAX_MATCH →
        sublen.isSome = true → (3 ≤ length → 1 ≤ distance) →
        ∃ out, StoreInLongestMatchCache c lmc lmcpos limit sublen distance length = some out ∧
          (out.length lmcpos = 0 ∨ out.dist lmcpos ≠ 0) ∧
          out.length lmcpos = (if length < 3 then 0 else length) ∧
          out.dist lmcpos = (if length < 3 then 0 else distance)) ∧
      ((lmc.length lmcpos = 0 ∨ lmc.dist lmcpos ≠ 0) →
        StoreInLongestMatchCache c lmc lmcpos limit sublen distance length = some lmc ∧
        ∀ calls out, storeSequence c calls lmc = some out →
          out.length lmcpos = lmc.length lmcpos ∧ out.dist lmcpos = lmc.dist lmcpos) := by
  refine ⟨fun out ho => ?_, fun hl hd hlim hs hres => ?_, fun hp => ⟨?_, ?_⟩⟩
  · rcases StoreInLongestMatchCache_slots c hk lmc out lmcpos limit sublen distance length ho
      with h | h
    · rw [h.1]
      exact ⟨fun k _ => ⟨rfl, rfl⟩, fun hch => by rcases hch with hch | hch <;> exact absurd rfl hch⟩
    · obtain ⟨hlim, hs, hl, hd, e1, e2⟩ := h
      refine ⟨fun k hk1 => ?_, fun _ => ⟨⟨by omega, hd⟩, hlim, hs⟩⟩
      rw [e1, e2, Function.update_noteq hk1, Function.update_noteq hk1]
      exact ⟨rfl, rfl⟩
  · obtain ⟨s, rfl⟩ := Option.isSome_iff_exists.mp hs
    have hw := StoreInLongestMatchCache_write c lmc lmcpos limit s distance length hlim hl hd
    refine ⟨_, hw, ?_⟩
    obtain ⟨e1, e2⟩ := hk s lmcpos length
      { lmc with
        dist := Function.update lmc.dist lmcpos
          (if length < ZOPFLI_MIN_MATCH then 0 else distance)
        length := Function.update lmc.length lmcpos
          (if length < ZOPFLI_MIN_MATCH then 0 else length) }
    rw [e1, e2]
    simp only [Function.update_same, ZOPFLI_MIN_MATCH]
    refine ⟨?_, trivial, trivial⟩
    split_ifs <;> omega
  · apply StoreInLongestMatchCache_skip
    rintro ⟨_, _, h1, h2⟩
    rcases hp with hp | hp
    · exact h1 hp
    · exact hp h2
  · intro calls out ho
    exact storeSequence_populated c hk lmcpos calls lmc out hp ho

theorem plainCache_keeps : plainCache.KeepsSlots := fun _ _ _ _ => ⟨rfl, rfl⟩

theorem C15_cache_slots_written_once_witness :
    plainCache.KeepsSlots ∧
      (freshCache.length 5 = 1 → freshCache.dist 5 = 0 → 258 = ZOPFLI_MAX_MATCH →
        (some period3).isSome = true → (3 ≤ 9 → 1 ≤ 3) →
        ∃ out, StoreInLongestMatchCache plainCache freshCache 5 258 (some period3) 3 9
            = some out ∧
          (out.length 5 = 0 ∨ out.dist 5 ≠ 0) ∧
          out.length 5 = (if 9 < 3 then 0 else 9) ∧
          out.dist 5 = (if 9 < 3 then 0 else 3)) :=
  ⟨plainCache_keeps,
    (C15_cache_slots_written_once plainCache plainCache_keeps freshCache 5 258 (some period3)
      3 9).2.1⟩

/-- Whatever the hash state holds, an answer of `ZopfliFindLongestMatch` has a
distance below the window size. -/
theorem ZopfliFindLongestMatch_distance_lt (b : Build) (h : ZopfliHash) (array : Nat → Nat)
    (pos size limit : Nat) (sublen : Option (Nat → Nat)) (r : MatchResult)
    (hr : ZopfliFindLongestMatch b h array pos size limit sublen = some r) :
    r.distance < ZOPFLI_WINDOW_SIZE := by
  unfold ZopfliFindLongestMatch at hr
  split at hr
  · simp only [Option.some.injEq] at hr
    rw [← hr]; simp [ZOPFLI_WINDOW_SIZE]
  · simp only [Option.map_eq_some'] at hr
    obtain ⟨out, ho, rfl⟩ := hr
    exact chainWalk_bestdist_lt b h array pos size _ _ _ out (by simp [ZOPFLI_WINDOW_SIZE]) ho

/-- A query with limit 258 and without `sublen` on a populated slot is answered
from the cache. -/
theorem TryGetFromLongestMatchCache_hit (c : CacheOps) (lmc : ZopfliLongestMatchCache)
    (lmcpos : Nat) (hp : lmc.length lmcpos = 0 ∨ lmc.dist lmcpos ≠ 0)
    (hl : lmc.length lmcpos ≤ 258) (hd : lmc.dist lmcpos < 65536) :
    TryGetFromLongestMatchCache c lmc lmcpos 258 none
      = some (CacheLookup.hit none (lmc.dist lmcpos) (lmc.length lmcpos)) := by
  unfold TryGetFromLongestMatchCache
  simp only [ZOPFLI_MAX_MATCH, decide_True, Bool.true_or, Bool.and_true, Option.isNone_none,
    true_or, if_true, decide_eq_true_eq]
  rw [if_pos hp, if_neg (by omega), Nat.mod_eq_of_lt hd, Nat.mod_eq_of_lt (by omega)]

/-- A query with limit 258 and with `sublen` on a populated slot: answered from
the cache when the cached `sublen` data reach the cached length (unless
`assert(sublen[len] == lmcdist)` fails), otherwise not answered, the limit being
narrowed to the cached length. -/
theorem TryGetFromLongestMatchCache_sublen (c : CacheOps) (lmc : ZopfliLongestMatchCache)
    (lmcpos : Nat) (s : Nat → Nat) (hp : lmc.length lmcpos = 0 ∨ lmc.dist lmcpos ≠ 0)
    (hl : lmc.length lmcpos ≤ 258) (hd : lmc.dist lmcpos < 65536) :
    (3 ≤ lmc.length lmcpos →
      lmc.length lmcpos ≤ c.ZopfliMaxCachedSublen lmc lmcpos (lmc.length lmcpos) →
      TryGetFromLongestMatchCache c lmc lmcpos 258 (some s) = none ∨
        ∃ s1, TryGetFromLongestMatchCache c lmc lmcpos 258 (some s)
          = some (CacheLookup.hit (some s1) (lmc.dist lmcpos) (lmc.length lmcpos))) ∧
    (c.ZopfliMaxCachedSublen lmc lmcpos (lmc.length lmcpos) < lmc.length lmcpos →
      TryGetFromLongestMatchCache c lmc lmcpos 258 (some s)
        = some (CacheLookup.miss (lmc.length lmcpos))) := by
  constructor
  · intro h3 hc
    unfold TryGetFromLongestMatchCache
    simp only [ZOPFLI_MAX_MATCH, ZOPFLI_MIN_MATCH, decide_True, Bool.true_or, Bool.and_true,
      Option.isNone_some, false_or, decide_eq_true_eq, true_and, Bool.false_eq_true]
    have hlen : (if lmc.length lmcpos > 258 then 258 else lmc.length lmcpos)
        = lmc.length lmcpos := if_neg (by omega)
    rw [if_pos hp, if_pos hc]
    simp only [hlen]
    by_cases hne : c.ZopfliCacheToSublen lmc lmcpos (lmc.length lmcpos) s (lmc.length lmcpos)
        = lmc.dist lmcpos
    · right
      refine ⟨c.ZopfliCacheToSublen lmc lmcpos (lmc.length lmcpos) s, ?_⟩
      rw [if_neg (by rw [hne]; simp), hne, Nat.mod_eq_of_lt hd, Nat.mod_eq_of_lt (by omega)]
    · left
      rw [if_pos ⟨h3, hne⟩]
  · intro hc
    unfold TryGetFromLongestMatchCache
    simp only [ZOPFLI_MAX_MATCH, decide_True, Bool.true_or, Bool.and_true,
      Option.isNone_some, false_or, decide_eq_true_eq, Bool.false_eq_true]
    rw [if_pos hp, if_neg (by omega)]

/-- C16 (counterexample): on 258 zero bytes, at position 0 of the block, with no
chain in the hash, a fresh cache, limit 258 and a `sublen` array,
`ZopfliFindLongestMatch` answers `(length, distance) = (1, 0)` and populates the
slot with `(0, 0)`; the repeated query with limit 258 is answered from the cache
with length 0, not with the length 1 of the first call. -/
theorem C16_cached_answer_differs :
    HashWF unlinkedHash (fun _ => 0) 0 258 ∧
      ∃ r lmc1, ZopfliFindLongestMatchLMC build64 plainCache freshCache 0 unlinkedHash
          (fun _ => 0) 0 258 258 (some (fun _ => 0)) = some (r, lmc1) ∧
        r.length = 1 ∧ r.distance = 0 ∧
        (lmc1.length 0 = 0 ∨ lmc1.dist 0 ≠ 0) ∧
        TryGetFromLongestMatchCache plainCache lmc1 0 258 none
          = some (CacheLookup.hit none 0 0) ∧
        ∃ r2, ZopfliFindLongestMatchLMC build64 plainCache lmc1 0 unlinkedHash
            (fun _ => 0) 0 258 258 none = some (r2, lmc1) ∧
          r2.length = 0 ∧ r2.length ≠ r.length :=
  ⟨unlinkedHash_wf _ _, _, _, rfl, rfl, rfl, Or.inl rfl, rfl, _, rfl, rfl, by decide⟩

/-- A query on the sentinel `(1, 0)` is not answered from the cache and keeps its
limit. -/
theorem TryGetFromLongestMatchCache_sentinel (c : CacheOps) (lmc : ZopfliLongestMatchCache)
    (lmcpos limit : Nat) (sublen : Option (Nat → Nat)) (hl : lmc.length lmcpos = 1)
    (hd : lmc.dist lmcpos = 0) :
    TryGetFromLongestMatchCache c lmc lmcpos limit sublen = some (CacheLookup.miss limit) := by
  unfold TryGetFromLongestMatchCache
  simp [hl, hd]

/-- C16 (amended): a call of `ZopfliFindLongestMatch` with limit 258 and a `sublen`
array, at a position with at least 258 bytes left whose slot holds the sentinel,
on a well-formed hash state (`ZopfliSublenToCache` leaving `length` and `dist`
alone), returns an answer `r` with `1 <= length <= 258` and populates the slot:
with `(r.length, r.distance)` when `r.length >= 3`, with `(0, 0)` otherwise.  A
repeated query at the position with limit 258 and without `sublen` is answered
from the cache, with what the slot holds: the same `(length, distance)` when
`r.length >= 3`, and `(0, 0)` when `r.length` is 1 or 2.  With a `sublen` array
it is answered from the cache, with the same `(length, distance)`, when
`r.length >= 3` and `ZopfliMaxCachedSublen` reaches the cached length (unless
`assert(sublen[len] == lmcdist)` fails); when `ZopfliMaxCachedSublen` is below
the cached length it is not answered from the cache, the limit being narrowed. -/
theorem C16_cache_round_trip (b : Build) (c : CacheOps) (hk : c.KeepsSlots)
    (lmc : ZopfliLongestMatchCache) (blockstart : Nat) (h : ZopfliHash) (array : Nat → Nat)
    (pos size : Nat) (s : Nat → Nat) (hwf : HashWF h array pos size)
    (hfull : pos + 258 ≤ size) (hl : lmc.length (pos - blockstart) = 1)
    (hd : lmc.dist (pos - blockstart) = 0) :
    ∃ r lmc1, ZopfliFindLongestMatchLMC b c lmc blockstart h array pos size 258 (some s)
        = some (r, lmc1) ∧
      1 ≤ r.length ∧ r.length ≤ 258 ∧
      lmc1.length (pos - blockstart) = (if r.length < 3 then 0 else r.length) ∧
      lmc1.dist (pos - blockstart) = (if r.length < 3 then 0 else r.distance) ∧
      (lmc1.length (pos - blockstart) = 0 ∨ lmc1.dist (pos - blockstart) ≠ 0) ∧
      TryGetFromLongestMatchCache c lmc1 (pos - blockstart) 258 none
        = some (CacheLookup.hit none (if r.length < 3 then 0 else r.distance)
            (if r.length < 3 then 0 else r.length)) ∧
      (∀ h2 : ZopfliHash, ∃ r2,
        ZopfliFindLongestMatchLMC b c lmc1 blockstart h2 array pos size 258 none
          = some (r2, lmc1) ∧
        r2.length = (if r.length < 3 then 0 else r.length) ∧
        r2.distance = (if r.length < 3 then 0 else r.distance)) ∧
      (∀ s2 : Nat → Nat, 3 ≤ r.length →
        r.length ≤ c.ZopfliMaxCachedSublen lmc1 (pos - blockstart) r.length →
        TryGetFromLongestMatchCache c lmc1 (pos - blockstart) 258 (some s2) = none ∨
          ∃ s3, TryGetFromLongestMatchCache c lmc1 (pos - blockstart) 258 (some s2)
            = some (CacheLookup.hit (some s3) r.distance r.length)) ∧
      (∀ s2 : Nat → Nat,
        c.ZopfliMaxCachedSublen lmc1 (pos - blockstart) (lmc1.length (pos - blockstart))
          < lmc1.length (pos - blockstart) →
        TryGetFromLongestMatchCache c lmc1 (pos - blockstart) 258 (some s2)
          = some (CacheLookup.miss (lmc1.length (pos - blockstart)))) := by
  obtain ⟨r, hr, hsome, hcase⟩ := ZopfliFindLongestMatch_spec b h array pos size 258 (some s)
    hwf (by omega) (by simp [ZOPFLI_MIN_MATCH])
  have hnot : ¬ (size - pos < ZOPFLI_MIN_MATCH) := by simp only [ZOPFLI_MIN_MATCH]; omega
  have hclamp : clampedLimit pos size 258 = 258 := by
    unfold clampedLimit
    rw [if_neg (by omega)]
  rcases hcase with ⟨hsm, _⟩ | ⟨_, hbest, _⟩
  · exact absurd hsm hnot
  rw [hclamp] at hbest
  have hdlt := ZopfliFindLongestMatch_distance_lt b h array pos size 258 (some s) r hr
  obtain ⟨s1, hs1⟩ := Option.isSome_iff_exists.mp (by rw [hsome]; rfl : r.sublen.isSome = true)
  have hstore := StoreInLongestMatchCache_write c lmc (pos - blockstart) 258 s1 r.distance
    r.length rfl hl hd
  obtain ⟨e1, e2⟩ := hk s1 (pos - blockstart) r.length
    { lmc with
      dist := Function.update lmc.dist (pos - blockstart)
        (if r.length < ZOPFLI_MIN_MATCH then 0 else r.distance)
      length := Function.update lmc.length (pos - blockstart)
        (if r.length < ZOPFLI_MIN_MATCH then 0 else r.length) }
  have hfirst : ZopfliFindLongestMatchLMC b c lmc blockstart h array pos size 258 (some s)
      = some (r, c.ZopfliSublenToCache s1 (pos - blockstart) r.length
          { lmc with
            dist := Function.update lmc.dist (pos - blockstart)
              (if r.length < ZOPFLI_MIN_MATCH then 0 else r.distance)
            length := Function.update lmc.length (pos - blockstart)
              (if r.length < ZOPFLI_MIN_MATCH then 0 else r.length) }) := by
    unfold ZopfliFindLongestMatchLMC
    simp only [TryGetFromLongestMatchCache_sentinel c lmc (pos - blockstart) 258 (some s) hl hd]
    rw [if_pos ⟨by simp [ZOPFLI_MAX_MATCH], by simp [ZOPFLI_MIN_MATCH], by omega⟩]
    simp only [hr]
    rw [if_neg hnot, hclamp, hs1, hstore]
    rfl
  refine ⟨r, _, hfirst, hbest.bl_pos, hbest.bl_le, ?_⟩
  generalize c.ZopfliSublenToCache s1 (pos - blockstart) r.length
    { lmc with
      dist := Function.update lmc.dist (pos - blockstart)
        (if r.length < ZOPFLI_MIN_MATCH then 0 else r.distance)
      length := Function.update lmc.length (pos - blockstart)
        (if r.length < ZOPFLI_MIN_MATCH then 0 else r.length) } = lmc1 at e1 e2 ⊢
  have hlen : lmc1.length (pos - blockstart) = (if r.length < 3 then 0 else r.length) := by
    rw [e1]; simp [ZOPFLI_MIN_MATCH]
  have hdist : lmc1.dist (pos - blockstart) = (if r.length < 3 then 0 else r.distance) := by
    rw [e2]; simp [ZOPFLI_MIN_MATCH]
  have hbl := hbest.bl_le
  have hpop : lmc1.length (pos - blockstart) = 0 ∨ lmc1.dist (pos - blockstart) ≠ 0 := by
    rw [hlen, hdist]
    by_cases h3 : r.length < 3
    · left; rw [if_pos h3]
    · right
      rw [if_neg h3]
      have := (hbest.vis_range _ (hbest.best (by omega)).1).1
      omega
  have hl258 : lmc1.length (pos - blockstart) ≤ 258 := by
    rw [hlen]; split <;> omega
  have hd65 : lmc1.dist (pos - blockstart) < 65536 := by
    rw [hdist]
    simp only [ZOPFLI_WINDOW_SIZE] at hdlt
    split <;> omega
  have hhit := TryGetFromLongestMatchCache_hit c lmc1 (pos - blockstart) hpop hl258 hd65
  have hsub := fun s2 => TryGetFromLongestMatchCache_sublen c lmc1 (pos - blockstart) s2 hpop
    hl258 hd65
  refine ⟨hlen, hdist, hpop, by rw [← hlen, ← hdist]; exact hhit, fun h2 => ?_,
    fun s2 h3 hc => ?_, fun s2 hc => (hsub s2).2 hc⟩
  · refine ⟨{ sublen := none, distance := lmc1.dist (pos - blockstart),
              length := lmc1.length (pos - blockstart), visited := [], lengths := [] },
      ?_, hlen, hdist⟩
    unfold ZopfliFindLongestMatchLMC
    simp only [hhit]
    rw [if_pos (by omega)]
  · have hlen3 : lmc1.length (pos - blockstart) = r.length := by
      rw [hlen, if_neg (by omega)]
    have hdist3 : lmc1.dist (pos - blockstart) = r.distance := by
      rw [hdist, if_neg (by omega)]
    have := (hsub s2).1 (by omega) (by rw [hlen3]; exact hc)
    rw [hlen3, hdist3] at this
    exact this

theorem C16_cache_round_trip_witness :
    plainCache.KeepsSlots ∧ HashWF (chainedHash 3) period3 3 261 ∧ 3 + 258 ≤ 261 ∧
      freshCache.length (3 - 0) = 1 ∧ freshCache.dist (3 - 0) = 0 ∧
      ∃ r lmc1, ZopfliFindLongestMatchLMC build64 plainCache freshCache 0 (chainedHash 3)
          period3 3 261 258 (some (fun _ => 0)) = some (r, lmc1) ∧
        1 ≤ r.length ∧ r.length ≤ 258 ∧
        lmc1.length (3 - 0) = (if r.length < 3 then 0 else r.length) ∧
        lmc1.dist (3 - 0) = (if r.length < 3 then 0 else r.distance) ∧
        (lmc1.length (3 - 0) = 0 ∨ lmc1.dist (3 - 0) ≠ 0) ∧
        TryGetFromLongestMatchCache plainCache lmc1 (3 - 0) 258 none
          = some (CacheLookup.hit none (if r.length < 3 then 0 else r.distance)
              (if r.length < 3 then 0 else r.length)) :=
  ⟨plainCache_keeps, chainedHash_wf _ _ _, by decide, rfl, rfl, by
    obtain ⟨r, lmc1, h1, h2, h3, h4, h5, h6, h7, _⟩ :=
      C16_cache_round_trip build64 plainCache plainCache_keeps freshCache 0 (chainedHash 3)
        period3 3 261 (fun _ => 0) (chainedHash_wf _ _ _) (by decide) rfl rfl
    exact ⟨r, lmc1, h1, h2, h3, h4, h5, h6, h7⟩⟩

/-! ## `ZopfliStoreLitLenDist` -/

/-- Doubling keeps the property "0 or a power of two" (`x & (x - 1) == 0`). -/
theorem land_pred_double (x : Nat) (hx : 1 ≤ x) (h : x &&& (x - 1) = 0) :
    (x * 2) &&& (x * 2 - 1) = 0 := by
  apply Nat.eq_of_testBit_eq
  intro i
  rw [Nat.testBit_and, Nat.zero_testBit]
  cases i with
  | zero =>
    have : (x * 2).testBit 0 = false := by
      rw [Nat.testBit_zero]; simp
    rw [this]; rfl
  | succ i =>
    have h1 : (x * 2).testBit (i + 1) = x.testBit i := by
      rw [Nat.testBit_succ]; congr 1; omega
    have h2 : (x * 2 - 1).testBit (i + 1) = (x - 1).testBit i := by
      rw [Nat.testBit_succ]; congr 1; omega
    rw [h1, h2, ← Nat.testBit_and, h, Nat.zero_testBit]

theorem toStore_append (s : StoreBuffers) (length dist : Nat) :
    StoreBuffers.toStore
        { size := s.size + 1
          litlens := fun i => if i = s.size then length else s.litlens i
          dists := fun i => if i = s.size then dist else s.dists i
          litlensCap := s.litlensCap
          distsCap := s.distsCap }
      = ZopfliStoreLitLenDist length dist s.toStore := by
  unfold StoreBuffers.toStore ZopfliStoreLitLenDist
  simp only [List.range_succ, List.map_append, List.map_cons, List.map_nil, if_true]
  have hl : ∀ (f : Nat → Nat) (v : Nat),
      (List.range s.size).map (fun i => if i = s.size then v else f i)
        = (List.range s.size).map f := by
    intro f v
    apply List.map_congr_left
    intro i hi
    have := List.mem_range.mp hi
    rw [if_neg (by omega)]
  rw [hl, hl]

/-- The capacity after the reallocation step of `ZopfliStoreLitLenDist` has room
for one more element and is again 0 or a power of two. -/
theorem grow_capacity (size cap : Nat) (h1 : size ≤ cap) (h3 : cap &&& (cap - 1) = 0) :
    size < (if decide (size &&& (size - 1) = 0) = true then
        (if size = 0 then 1 else size * 2) else cap) ∧
      (if decide (size &&& (size - 1) = 0) = true then
        (if size = 0 then 1 else size * 2) else cap) &&&
        ((if decide (size &&& (size - 1) = 0) = true then
          (if size = 0 then 1 else size * 2) else cap) - 1) = 0 := by
  by_cases hg : size &&& (size - 1) = 0
  · rw [if_pos (decide_eq_true hg)]
    by_cases h0 : size = 0
    · rw [if_pos h0]
      exact ⟨by omega, by decide⟩
    · rw [if_neg h0]
      exact ⟨by omega, land_pred_double size (by omega) hg⟩
  · rw [if_neg (by simpa using hg)]
    refine ⟨?_, h3⟩
    rcases Nat.lt_or_ge size cap with h | h
    · exact h
    · have : size = cap := by omega
      rw [this] at hg; exact absurd h3 hg

/-- C17, as the claim words it (for every store), fails: a store of three entries
copied by `ZopfliCopyLZ77Store` has buffers of exactly three elements; 3 is not a
power of two, so `ZopfliStoreLitLenDist` does not reallocate, and its write of
`litlens[3]` falls outside the buffer. -/
theorem C17_append_to_copy_leaves_buffer :
    ∃ s3, ((StoreBuffers.ZopfliStoreLitLenDist 65 0 StoreBuffers.init).bind
          (StoreBuffers.ZopfliStoreLitLenDist 66 0)).bind
          (StoreBuffers.ZopfliStoreLitLenDist 67 0) = some s3 ∧
      s3.size = 3 ∧
      (StoreBuffers.ZopfliCopyLZ77Store s3).size = 3 ∧
      (StoreBuffers.ZopfliCopyLZ77Store s3).litlensCap = 3 ∧
      StoreBuffers.ZopfliStoreLitLenDist 68 0 (StoreBuffers.ZopfliCopyLZ77Store s3) = none :=
  ⟨_, rfl, rfl, rfl, rfl, rfl⟩

/-- C17 (amended): `ZopfliStoreLitLenDist` is a pure append on every store whose buffers
follow the allocation discipline that `ZopfliInitLZ77Store` establishes and the
function maintains (each buffer has room for `size` elements and a capacity
that is 0 or a power of two).  The function returns, the write is inside the
buffers, afterwards the size is `n + 1`, `litlens[n]` is `length`, `dists[n]`
is `dist`, every element below `n` is unchanged, the discipline holds again,
and the two sequences held are those of the append and of equal length. -/
theorem C17_allocated_store_is_pure_append (length dist : Nat) (s : StoreBuffers)
    (halloc : s.Allocated) :
    (∃ s1, StoreBuffers.ZopfliStoreLitLenDist length dist s = some s1 ∧
      s1.size = s.size + 1 ∧ s.size < s1.litlensCap ∧ s.size < s1.distsCap ∧
      s1.litlens s.size = length ∧ s1.dists s.size = dist ∧
      (∀ i, i < s.size → s1.litlens i = s.litlens i ∧ s1.dists i = s.dists i) ∧
      s1.Allocated ∧ s1.toStore = ZopfliStoreLitLenDist length dist s.toStore ∧
      s1.toStore.litlens.length = s.size + 1 ∧ s1.toStore.dists.length = s.size + 1) ∧
    StoreBuffers.init.Allocated ∧ StoreBuffers.init.toStore = ZopfliInitLZ77Store := by
  refine ⟨?_, ⟨Nat.le_refl _, Nat.le_refl _, rfl, rfl⟩, rfl⟩
  obtain ⟨h1, h2, h3, h4⟩ := halloc
  obtain ⟨hl, hl2⟩ := grow_capacity s.size s.litlensCap h1 h3
  obtain ⟨hd, hd2⟩ := grow_capacity s.size s.distsCap h2 h4
  unfold StoreBuffers.ZopfliStoreLitLenDist
  simp only
  rw [if_pos ⟨hl, hd⟩]
  refine ⟨_, rfl, rfl, hl, hd, by simp, by simp, ?_, ?_, ?_, ?_, ?_⟩
  · intro i hi
    simp only
    rw [if_neg (by omega), if_neg (by omega)]
    exact ⟨rfl, rfl⟩
  · exact ⟨by simp only; omega, by simp only; omega, hl2, hd2⟩
  · exact toStore_append
      { s with
        litlensCap := if decide (s.size &&& (s.size - 1) = 0) = true then
          (if s.size = 0 then 1 else s.size * 2) else s.litlensCap
        distsCap := if decide (s.size &&& (s.size - 1) = 0) = true then
          (if s.size = 0 then 1 else s.size * 2) else s.distsCap } length dist
  · simp [StoreBuffers.toStore]
  · simp [StoreBuffers.toStore]

theorem C17_allocated_store_is_pure_append_witness :
    StoreBuffers.init.Allocated ∧
      ∃ s1, StoreBuffers.ZopfliStoreLitLenDist 65 0 StoreBuffers.init = some s1 ∧
        s1.size = StoreBuffers.init.size + 1 ∧ StoreBuffers.init.size < s1.litlensCap ∧
        StoreBuffers.init.size < s1.distsCap ∧
        s1.litlens StoreBuffers.init.size = 65 ∧ s1.dists StoreBuffers.init.size = 0 ∧
        (∀ i, i < StoreBuffers.init.size →
          s1.litlens i = StoreBuffers.init.litlens i ∧ s1.dists i = StoreBuffers.init.dists i) ∧
        s1.Allocated ∧ s1.toStore = ZopfliStoreLitLenDist 65 0 StoreBuffers.init.toStore ∧
        s1.toStore.litlens.length = StoreBuffers.init.size + 1 ∧
        s1.toStore.dists.length = StoreBuffers.init.size + 1 :=
  ⟨⟨Nat.le_refl _, Nat.le_refl _, rfl, rfl⟩,
    (C17_allocated_store_is_pure_append 65 0 StoreBuffers.init
      ⟨Nat.le_refl _, Nat.le_refl _, rfl, rfl⟩).1⟩

/-! ## Claims C21 to C30 -/

/-! ### The search for the split position -/

/-- The linear scan of `FindMinimum` returns the first index of the least value,
for values that fit `size_t`. -/
theorem FindMinimumScan_min (f : Nat → Nat) (start stop : Nat) (hlt : start < stop)
    (hf : ∀ j, start ≤ j → j < stop → f j ≤ SIZE_MAX) :
    ∀ (n i best result : Nat), i + n = stop → start ≤ i →
      (∀ j, start ≤ j → j < i → best ≤ f j) →
      ((best = SIZE_MAX ∧ result = start) ∨
        (start ≤ result ∧ result < i ∧ f result = best ∧
          ∀ j, start ≤ j → j < result → best < f j)) →
      start ≤ FindMinimumScan f n i best result ∧
        FindMinimumScan f n i best result < stop ∧
        (∀ j, start ≤ j → j < stop →
          f (FindMinimumScan f n i best result) ≤ f j) ∧
        (∀ j, start ≤ j → j < FindMinimumScan f n i best result →
          f (FindMinimumScan f n i best result) < f j) := by
  intro n
  induction n with
  | zero =>
    intro i best result hi hsi hA hB
    simp only [FindMinimumScan]
    rcases hB with ⟨hb, hr⟩ | ⟨h1, h2, h3, h4⟩
    · subst hr
      refine ⟨Nat.le_refl _, hlt, ?_, fun j h1 h2 => by omega⟩
      intro j h1 h2
      have := hA j h1 (by omega)
      have := hf result (Nat.le_refl _) hlt
      omega
    · refine ⟨h1, by omega, ?_, ?_⟩
      · intro j hj1 hj2
        have := hA j hj1 (by omega)
        omega
      · intro j hj1 hj2
        have := h4 j hj1 hj2
        omega
  | succ n ih =>
    intro i best result hi hsi hA hB
    simp only [FindMinimumScan]
    split
    · rename_i hlt2
      apply ih (i + 1) (f i) i (by omega) (by omega)
      · intro j hj1 hj2
        by_cases hji : j = i
        · rw [hji]
        · have := hA j hj1 (by omega)
          omega
      · right
        refine ⟨hsi, by omega, rfl, ?_⟩
        intro j hj1 hj2
        have := hA j hj1 hj2
        omega
    · rename_i hge
      apply ih (i + 1) best result (by omega) (by omega)
      · intro j hj1 hj2
        by_cases hji : j = i
        · rw [hji]; omega
        · exact hA j hj1 (by omega)
      · rcases hB with h | ⟨h1, h2, h3, h4⟩
        · exact Or.inl h
        · exact Or.inr ⟨h1, by omega, h3, h4⟩

/-- C21: for a range with `0 < end - start < 1024` and costs that fit `size_t`
(the value `SIZE_MAX` included), `FindMinimum(f, context, start, end)` returns an index `r` of
`[start, end)` with `f(r) <= f(j)` for every `j` of the range and
`f(r) < f(j)` for every `j` before `r`: the first index of the least cost. -/
theorem C21_linear_scan_first_minimum (f : Nat → Nat) (start stop : Nat)
    (hpos : 0 < stop - start) (hsmall : stop - start < 1024)
    (hf : ∀ j, start ≤ j → j < stop → f j ≤ SIZE_MAX) :
    start ≤ FindMinimum f start stop ∧ FindMinimum f start stop < stop ∧
      (∀ j, start ≤ j → j < stop → f (FindMinimum f start stop) ≤ f j) ∧
      (∀ j, start ≤ j → j < FindMinimum f start stop → f (FindMinimum f start stop) < f j) := by
  unfold FindMinimum
  rw [if_pos hsmall]
  exact FindMinimumScan_min f start stop (by omega) hf (stop - start) start SIZE_MAX start
    (by omega) (Nat.le_refl _) (fun j h1 h2 => by omega) (Or.inl ⟨rfl, rfl⟩)

theorem C21_linear_scan_first_minimum_witness :
    FindMinimum twoMinima 5 12 = 7 ∧
      (0 < 12 - 5 ∧ 12 - 5 < 1024 ∧ ∀ j, 5 ≤ j → j < 12 → twoMinima j ≤ SIZE_MAX) ∧
      (5 ≤ FindMinimum twoMinima 5 12 ∧ FindMinimum twoMinima 5 12 < 12 ∧
        (∀ j, 5 ≤ j → j < 12 → twoMinima (FindMinimum twoMinima 5 12) ≤ twoMinima j) ∧
        (∀ j, 5 ≤ j → j < FindMinimum twoMinima 5 12 →
          twoMinima (FindMinimum twoMinima 5 12) < twoMinima j)) :=
  ⟨by decide,
    ⟨by decide, by decide, fun j _ _ => by
      unfold twoMinima
      split
      · decide
      · exact Nat.le_refl _⟩,
    C21_linear_scan_first_minimum twoMinima 5 12 (by decide) (by decide) (fun j _ _ => by
      unfold twoMinima
      split
      · decide
      · exact Nat.le_refl _)⟩

/-- C22, as the claim words it, fails: with the constant cost `f = 0` on
`[0, 1024)` the first iteration records position 102 with least cost 0; the
second iteration (bracket `[0, 204)`) finds least cost 0 again, which does not
strictly improve on 0, yet the search goes on and returns 4, not 102. -/
theorem C22_tie_continues_search :
    FindMinimum (fun _ => 0) 0 1024 = 4 ∧
      FindMinimumBracket (fun _ => 0) 1024 0 1024 SIZE_MAX 0
        = FindMinimumBracket (fun _ => 0) 1023 0 204 0 102 ∧
      (bestProbe (fun i => (fun _ : Nat => 0) (probe 0 204 i))).2 = 0 ∧
      FindMinimumBracket (fun _ => 0) 1023 0 204 0 102 ≠ 102 := by
  decide

/-- C22 (amended): one iteration of the bracketed search of `FindMinimum`, with
enough fuel for the bracket `[start, end)`.  The search returns the recorded
position `pos` when `end - start <= 9`, and also when the least probe cost of
the iteration is strictly greater than the previous least cost `lastbest`.
Otherwise (least probe cost less than or equal to `lastbest`, a tie
included) it records the best probe position and its cost and goes on with the
narrower bracket.  For `end - start >= 1024` the function `FindMinimum` is this search
begun with `lastbest = SIZE_MAX` and `pos = start`. -/
theorem C22_search_stops_on_strictly_greater_cost (f : Nat → Nat)
    (fuel start stop lastbest pos : Nat) (hfuel : stop - start ≤ fuel) :
    (stop - start ≤ 9 → FindMinimumBracket f fuel start stop lastbest pos = pos) ∧
    (9 < stop - start → lastbest < (bestProbe (fun i => f (probe start stop i))).2 →
      FindMinimumBracket f fuel start stop lastbest pos = pos) ∧
    (9 < stop - start → (bestProbe (fun i => f (probe start stop i))).2 ≤ lastbest →
      FindMinimumBracket f fuel start stop lastbest pos
        = FindMinimumBracket f fuel
            (if (bestProbe (fun i => f (probe start stop i))).1 = 0 then start
              else probe start stop ((bestProbe (fun i => f (probe start stop i))).1 - 1))
            (if (bestProbe (fun i => f (probe start stop i))).1 = NUM - 1 then stop
              else probe start stop ((bestProbe (fun i => f (probe start stop i))).1 + 1))
            (bestProbe (fun i => f (probe start stop i))).2
            (probe start stop (bestProbe (fun i => f (probe start stop i))).1)) ∧
    (1024 ≤ stop - start →
      FindMinimum f start stop = FindMinimumBracket f fuel start stop SIZE_MAX start) := by
  refine ⟨?_, ?_, ?_, ?_⟩
  · intro h
    cases fuel with
    | zero => rfl
    | succ k => simp only [FindMinimumBracket, NUM, if_pos h]
  · intro h hb
    cases fuel with
    | zero => rfl
    | succ k =>
      simp only [FindMinimumBracket, NUM, if_neg (show ¬ stop - start ≤ 9 by omega)]
      rw [if_pos (by simpa [NUM] using hb)]
  · intro h hb
    cases fuel with
    | zero => omega
    | succ k =>
      have hs := bracket_shrinks start stop (bestProbe (fun i => f (probe start stop i))).1
        (by simp only [NUM]; omega) (bestProbe_fst_lt _)
      conv_lhs => simp only [FindMinimumBracket, NUM,
        if_neg (show ¬ stop - start ≤ 9 by omega)]
      rw [if_neg (by simpa [NUM] using hb)]
      rw [FindMinimumBracket_fuel f k _ _ _ _ (by simp only [NUM] at hs ⊢; omega),
        FindMinimumBracket_fuel f (k + 1) _ _ _ _ (by simp only [NUM] at hs ⊢; omega)]
      simp only [NUM]
  · intro h
    unfold FindMinimum
    rw [if_neg (show ¬ stop - start < 1024 by omega),
      FindMinimumBracket_fuel f fuel start stop _ _ hfuel]

theorem C22_search_stops_on_strictly_greater_cost_witness :
    (FindMinimumBracket (fun _ => 0) 1024 0 204 0 102 = 4) ∧
    (204 - 0 ≤ 1024) ∧
    ((204 - 0 ≤ 9 → FindMinimumBracket (fun _ => 0) 1024 0 204 0 102 = 102) ∧
    (9 < 204 - 0 → 0 < (bestProbe (fun i => (fun _ : Nat => 0) (probe 0 204 i))).2 →
      FindMinimumBracket (fun _ => 0) 1024 0 204 0 102 = 102) ∧
    (9 < 204 - 0 → (bestProbe (fun i => (fun _ : Nat => 0) (probe 0 204 i))).2 ≤ 0 →
      FindMinimumBracket (fun _ => 0) 1024 0 204 0 102
        = FindMinimumBracket (fun _ => 0) 1024
            (if (bestProbe (fun i => (fun _ : Nat => 0) (probe 0 204 i))).1 = 0 then 0
              else probe 0 204 ((bestProbe (fun i => (fun _ : Nat => 0) (probe 0 204 i))).1 - 1))
            (if (bestProbe (fun i => (fun _ : Nat => 0) (probe 0 204 i))).1 = NUM - 1 then 204
              else probe 0 204 ((bestProbe (fun i => (fun _ : Nat => 0) (probe 0 204 i))).1 + 1))
            (bestProbe (fun i => (fun _ : Nat => 0) (probe 0 204 i))).2
            (probe 0 204 (bestProbe (fun i => (fun _ : Nat => 0) (probe 0 204 i))).1)) ∧
    (1024 ≤ 204 - 0 →
      FindMinimum (fun _ => 0) 0 204
        = FindMinimumBracket (fun _ => 0) 1024 0 204 SIZE_MAX 0)) :=
  ⟨by decide, by decide,
    C22_search_stops_on_strictly_greater_cost (fun _ => 0) 1024 0 204 0 102 (by decide)⟩

/-- The pair that `bestProbe` returns is an index below `NUM` with its value, and
the value is the least of the `NUM` probe values. -/
theorem bestProbe_spec (vp : Nat → Nat) :
    (bestProbe vp).2 = vp (bestProbe vp).1 ∧ ∀ i, i < NUM → (bestProbe vp).2 ≤ vp i := by
  unfold bestProbe
  have key : ∀ (l : List Nat) (acc : Nat × Nat), acc.2 = vp acc.1 →
      (l.foldl (fun acc i => if vp i < acc.2 then (i, vp i) else acc) acc).2
          = vp (l.foldl (fun acc i => if vp i < acc.2 then (i, vp i) else acc) acc).1 ∧
        (l.foldl (fun acc i => if vp i < acc.2 then (i, vp i) else acc) acc).2 ≤ acc.2 ∧
        ∀ i ∈ l, (l.foldl (fun acc i => if vp i < acc.2 then (i, vp i) else acc) acc).2
          ≤ vp i := by
    intro l
    induction l with
    | nil => intro acc h; simpa using h
    | cons x xs ih =>
      intro acc h
      simp only [List.foldl_cons]
      have hacc : (if vp x < acc.2 then (x, vp x) else acc).2
          = vp (if vp x < acc.2 then (x, vp x) else acc).1 := by
        split
        · rfl
        · exact h
      have hle : (if vp x < acc.2 then (x, vp x) else acc).2 ≤ acc.2 ∧
          (if vp x < acc.2 then (x, vp x) else acc).2 ≤ vp x := by
        split
        · exact ⟨Nat.le_of_lt (by assumption), Nat.le_refl _⟩
        · exact ⟨Nat.le_refl _, Nat.le_of_not_lt (by assumption)⟩
      obtain ⟨h1, h2, h3⟩ := ih _ hacc
      refine ⟨h1, by omega, ?_⟩
      intro i hi
      rcases List.mem_cons.mp hi with e | e
      · rw [e]; omega
      · exact h3 i e
  obtain ⟨h1, h2, h3⟩ := key (List.range' 1 (NUM - 1)) (0, vp 0) rfl
  refine ⟨h1, ?_⟩
  intro i hi
  by_cases h0 : i = 0
  · rw [h0]; exact h2
  · apply h3
    simp only [NUM] at hi ⊢
    simp only [List.mem_range']
    exact ⟨i - 1, by omega, by omega⟩

/-- The bracketed search returns the recorded position or a probe position it
evaluated, and the cost there is least among the evaluated probes, provided the
recorded position costs at most `lastbest`. -/
theorem FindMinimumBracket_min (f : Nat → Nat) (fuel : Nat) :
    ∀ start stop lastbest pos, f pos ≤ lastbest →
      f (FindMinimumBracket f fuel start stop lastbest pos) ≤ lastbest ∧
        (∀ q ∈ bracketProbes f fuel start stop lastbest,
          f (FindMinimumBracket f fuel start stop lastbest pos) ≤ f q) ∧
        (FindMinimumBracket f fuel start stop lastbest pos = pos ∨
          FindMinimumBracket f fuel start stop lastbest pos
            ∈ bracketProbes f fuel start stop lastbest) := by
  induction fuel with
  | zero =>
    intro start stop lastbest pos h
    simp [FindMinimumBracket, bracketProbes, h]
  | succ fuel ih =>
    intro start stop lastbest pos h
    simp only [FindMinimumBracket, bracketProbes]
    split
    · simp [h]
    · obtain ⟨hb1, hb2⟩ := bestProbe_spec (fun i => f (probe start stop i))
      have hb := bestProbe_fst_lt (fun i => f (probe start stop i))
      split
      · rename_i hgt
        refine ⟨h, ?_, Or.inl rfl⟩
        intro q hq
        obtain ⟨i, hi, rfl⟩ := List.mem_map.mp hq
        have := hb2 i (List.mem_range.mp hi)
        simp only at this
        omega
      · rename_i hle
        obtain ⟨h1, h2, h3⟩ := ih
          (if (bestProbe fun i => f (probe start stop i)).1 = 0 then start
            else probe start stop ((bestProbe fun i => f (probe start stop i)).1 - 1))
          (if (bestProbe fun i => f (probe start stop i)).1 = NUM - 1 then stop
            else probe start stop ((bestProbe fun i => f (probe start stop i)).1 + 1))
          (bestProbe fun i => f (probe start stop i)).2
          (probe start stop (bestProbe fun i => f (probe start stop i)).1)
          (by rw [hb1])
        refine ⟨by omega, ?_, ?_⟩
        · intro q hq
          rcases List.mem_append.mp hq with hq | hq
          · obtain ⟨i, hi, rfl⟩ := List.mem_map.mp hq
            have := hb2 i (List.mem_range.mp hi)
            simp only at this
            omega
          · exact h2 q hq
        · right
          rcases h3 with e | e
          · rw [e]
            exact List.mem_append_left _
              (List.mem_map.mpr ⟨_, List.mem_range.mpr hb, rfl⟩)
          · exact List.mem_append_right _ e

/-- The record of probes does not depend on the fuel once the fuel covers the
bracket. -/
theorem bracketProbes_fuel (f : Nat → Nat) (fuel : Nat) :
    ∀ start stop lastbest, stop - start ≤ fuel →
      bracketProbes f fuel start stop lastbest
        = bracketProbes f (stop - start) start stop lastbest := by
  induction fuel using Nat.strong_induction_on with
  | _ fuel ih =>
    intro start stop lastbest hle
    by_cases hgt : stop - start ≤ NUM
    · cases fuel with
      | zero =>
        have : stop - start = 0 := by omega
        rw [this]
      | succ k =>
        cases hn : stop - start with
        | zero =>
          simp only [bracketProbes]
          rw [if_pos (by omega)]
        | succ m => simp [bracketProbes, hgt]
    · have hgt2 : NUM < stop - start := Nat.lt_of_not_le hgt
      obtain ⟨k, rfl⟩ : ∃ k, fuel = k + 1 := ⟨fuel - 1, by simp only [NUM] at hgt2; omega⟩
      obtain ⟨m, hm⟩ : ∃ m, stop - start = m + 1 := ⟨stop - start - 1, by simp only [NUM] at hgt2; omega⟩
      rw [hm]
      simp only [bracketProbes, hgt, if_false]
      split
      · rfl
      · have hb := bestProbe_fst_lt (fun i => f (probe start stop i))
        generalize (bestProbe fun i => f (probe start stop i)).1 = b at hb
        generalize (bestProbe fun i => f (probe start stop i)).2 = v
        have hs := bracket_shrinks start stop b hgt2 hb
        rw [ih k (Nat.lt_succ_self k) _ _ _ (by omega)]
        have hm2 : (if b = NUM - 1 then stop else probe start stop (b + 1))
            - (if b = 0 then start else probe start stop (b - 1)) ≤ m := by omega
        rcases Nat.eq_or_lt_of_le hle with e | e
        · have : k = m := by omega
          subst this
          rw [ih k (Nat.lt_succ_self k) _ _ _ hm2]
        · rw [ih m (by omega) _ _ _ hm2]

/-- C30: for `end - start >= 1024` and costs that fit `size_t`, the bracketed
search of `FindMinimum` ends by itself (any fuel of at least `end - start` gives the
same result and the same probes, and every continued iteration narrows the
bracket), and the position `p` it returns lies strictly between `start` and
`end`, is one of the probe positions at which `f` was evaluated, and has
`f(p) <= f(q)` for every evaluated probe position `q`. -/
theorem C30_bracket_search_returns_least_probe (f : Nat → Nat) (start stop : Nat)
    (hbig : 1024 ≤ stop - start) (hf : ∀ q, start < q → q < stop → f q ≤ SIZE_MAX) :
    (start < FindMinimum f start stop ∧ FindMinimum f start stop < stop) ∧
      FindMinimum f start stop ∈ bracketProbes f (stop - start) start stop SIZE_MAX ∧
      (∀ q ∈ bracketProbes f (stop - start) start stop SIZE_MAX,
        f (FindMinimum f start stop) ≤ f q) ∧
      (∀ fuel, stop - start ≤ fuel →
        FindMinimumBracket f fuel start stop SIZE_MAX start = FindMinimum f start stop ∧
          bracketProbes f fuel start stop SIZE_MAX
            = bracketProbes f (stop - start) start stop SIZE_MAX) ∧
      (∀ s e b, NUM < e - s → b < NUM →
        (if b = NUM - 1 then e else probe s e (b + 1))
          - (if b = 0 then s else probe s e (b - 1)) < e - s) := by
  have hdef : FindMinimum f start stop
      = FindMinimumBracket f (stop - start) start stop SIZE_MAX start := by
    unfold FindMinimum
    rw [if_neg (show ¬ stop - start < 1024 by omega)]
  obtain ⟨m, hm⟩ : ∃ m, stop - start = m + 1 := ⟨stop - start - 1, by omega⟩
  have hgt : NUM < stop - start := by simp only [NUM]; omega
  obtain ⟨hb1, hb2⟩ := bestProbe_spec (fun i => f (probe start stop i))
  have hb := bestProbe_fst_lt (fun i => f (probe start stop i))
  have hp := probe_bounds start stop _ hgt hb
  have hsh := bracket_shrinks start stop _ hgt hb
  have hbest : ¬ (bestProbe fun i => f (probe start stop i)).2 > SIZE_MAX := by
    rw [hb1]
    have := hf _ hp.1 hp.2
    simp only at this ⊢
    omega
  have hstep : FindMinimum f start stop
      = FindMinimumBracket f m
          (if (bestProbe fun i => f (probe start stop i)).1 = 0 then start
            else probe start stop ((bestProbe fun i => f (probe start stop i)).1 - 1))
          (if (bestProbe fun i => f (probe start stop i)).1 = NUM - 1 then stop
            else probe start stop ((bestProbe fun i => f (probe start stop i)).1 + 1))
          (bestProbe fun i => f (probe start stop i)).2
          (probe start stop (bestProbe fun i => f (probe start stop i)).1) := by
    rw [hdef]
    conv_lhs => rw [hm]
    simp only [FindMinimumBracket]
    rw [if_neg (show ¬ stop - start ≤ NUM by omega), if_neg hbest]
  have hprobes : bracketProbes f (stop - start) start stop SIZE_MAX
      = (List.range NUM).map (probe start stop) ++ bracketProbes f m
          (if (bestProbe fun i => f (probe start stop i)).1 = 0 then start
            else probe start stop ((bestProbe fun i => f (probe start stop i)).1 - 1))
          (if (bestProbe fun i => f (probe start stop i)).1 = NUM - 1 then stop
            else probe start stop ((bestProbe fun i => f (probe start stop i)).1 + 1))
          (bestProbe fun i => f (probe start stop i)).2 := by
    conv_lhs => rw [hm]
    simp only [bracketProbes]
    rw [if_neg (show ¬ stop - start ≤ NUM by omega), if_neg hbest]
  obtain ⟨h1, h2, h3⟩ := FindMinimumBracket_min f m
    (if (bestProbe fun i => f (probe start stop i)).1 = 0 then start
      else probe start stop ((bestProbe fun i => f (probe start stop i)).1 - 1))
    (if (bestProbe fun i => f (probe start stop i)).1 = NUM - 1 then stop
      else probe start stop ((bestProbe fun i => f (probe start stop i)).1 + 1))
    (bestProbe fun i => f (probe start stop i)).2
    (probe start stop (bestProbe fun i => f (probe start stop i)).1) (by rw [hb1])
  rw [← hstep] at h1 h2 h3
  refine ⟨?_, ?_, ?_, ?_, ?_⟩
  · rcases FindMinimumBracket_range f m
      (if (bestProbe fun i => f (probe start stop i)).1 = 0 then start
        else probe start stop ((bestProbe fun i => f (probe start stop i)).1 - 1))
      (if (bestProbe fun i => f (probe start stop i)).1 = NUM - 1 then stop
        else probe start stop ((bestProbe fun i => f (probe start stop i)).1 + 1))
      (bestProbe fun i => f (probe start stop i)).2
      (probe start stop (bestProbe fun i => f (probe start stop i)).1) with e | e
    · rw [← hstep] at e
      rw [e]; exact hp
    · rw [← hstep] at e
      omega
  · rw [hprobes]
    rcases h3 with e | e
    · rw [e]
      exact List.mem_append_left _ (List.mem_map.mpr ⟨_, List.mem_range.mpr hb, rfl⟩)
    · exact List.mem_append_right _ e
  · rw [hprobes]
    intro q hq
    rcases List.mem_append.mp hq with hq | hq
    · obtain ⟨i, hi, rfl⟩ := List.mem_map.mp hq
      have := hb2 i (List.mem_range.mp hi)
      simp only at this
      omega
    · exact h2 q hq
  · intro fuel hfuel
    exact ⟨by rw [hdef, FindMinimumBracket_fuel f fuel start stop _ _ hfuel],
      bracketProbes_fuel f fuel start stop _ hfuel⟩
  · intro s e b h1 h2
    exact (bracket_shrinks s e b h1 h2).2.2

theorem C30_bracket_search_returns_least_probe_witness :
    FindMinimum veeCost 0 2000 = 697 ∧
      (1024 ≤ 2000 - 0 ∧ ∀ q, 0 < q → q < 2000 → veeCost q ≤ SIZE_MAX) ∧
      ((0 < FindMinimum veeCost 0 2000 ∧ FindMinimum veeCost 0 2000 < 2000) ∧
        FindMinimum veeCost 0 2000 ∈ bracketProbes veeCost (2000 - 0) 0 2000 SIZE_MAX ∧
        ∀ q ∈ bracketProbes veeCost (2000 - 0) 0 2000 SIZE_MAX,
          veeCost (FindMinimum veeCost 0 2000) ≤ veeCost q) :=
  ⟨by decide,
    ⟨by decide, fun q _ h => by
      unfold veeCost SIZE_MAX
      split <;> omega⟩,
    (C30_bracket_search_returns_least_probe veeCost 0 2000 (by decide) (fun q _ h => by
      unfold veeCost SIZE_MAX
      split <;> omega)).1,
    (C30_bracket_search_returns_least_probe veeCost 0 2000 (by decide) (fun q _ h => by
      unfold veeCost SIZE_MAX
      split <;> omega)).2.1,
    (C30_bracket_search_returns_least_probe veeCost 0 2000 (by decide) (fun q _ h => by
      unfold veeCost SIZE_MAX
      split <;> omega)).2.2.1⟩

/-! ### The block with the most symbols -/

/-- C23: with `llsize = 20`, the split point 9 and nothing done, the partition is
`[0, 9)`, `[9, 20)` and its longest block with a not-done left endpoint is
`[9, 20)`; `FindLargestSplittableBlock` returns 1 with `(lstart, lend) = (9, 19)`.
With the split point 19 and `done[0]` set, the block `[19, 20)` has a not-done
left endpoint, and the function returns 0. -/
theorem C23_last_block_end_is_llsize_minus_one :
    (FindLargestSplittableBlock 20 (fun _ => false) [9] 0 20).found = true ∧
      (FindLargestSplittableBlock 20 (fun _ => false) [9] 0 20).lstart = 9 ∧
      (FindLargestSplittableBlock 20 (fun _ => false) [9] 0 20).lend = 19 ∧
      (FindLargestSplittableBlock 20 (fun i => decide (i = 0)) [19] 0 19).found = false := by
  decide

/-! ### The passes of the splitting loop -/

/-- The record of passes goes with the result of `splitLoop`: dropping the record
from `splitPasses` gives `splitLoop`. -/
theorem splitPasses_result (blockSize : List Nat → List Nat → Nat → Nat → Nat → Nat)
    (litlens dists : List Nat) (llsize maxblocks : Nat) :
    ∀ (fuel lstart lend numblocks : Nat) (done : Nat → Bool) (pts : List Nat),
      (splitPasses blockSize litlens dists llsize maxblocks fuel lstart lend numblocks
          done pts).map Prod.snd
        = splitLoop blockSize litlens dists llsize maxblocks fuel lstart lend numblocks
          done pts := by
  intro fuel
  induction fuel with
  | zero => intro _ _ _ _ _; rfl
  | succ fuel ih =>
    intro lstart lend numblocks done pts
    simp only [splitPasses, splitLoop, apply_ite (Option.map Prod.snd), Option.map_some',
      Option.map_map, ← ih]
    rfl

/-- Every pass of the loop of `ZopfliBlockSplitLZ77` satisfies `PassInv`, the loop
returns, every returned point was there at the start or was inserted by a pass
whose split cost did not exceed the cost of the unsplit block, and the number
of passes is bounded by the number of not-done positions plus the number of
points that can still be inserted. -/
theorem splitPasses_spec (blockSize : List Nat → List Nat → Nat → Nat → Nat → Nat)
    (litlens dists : List Nat) (llsize maxblocks : Nat) :
    ∀ (fuel lstart lend numblocks : Nat) (done : Nat → Bool) (pts : List Nat),
      pts.Pairwise (· < ·) → (∀ x ∈ pts, 0 < x ∧ x < llsize) →
      lstart + 10 ≤ lend → lend ≤ llsize → (∀ x ∈ pts, x ≤ lstart ∨ lend ≤ x) →
      done lstart = false → numblocks = pts.length + 1 →
      notDone done llsize + (llsize - pts.length) < fuel →
      ∃ passes out, splitPasses blockSize litlens dists llsize maxblocks fuel lstart lend
          numblocks done pts = some (passes, out) ∧
        (∀ p ∈ passes, PassInv blockSize litlens dists llsize p) ∧
        (∀ x ∈ out, x ∈ pts ∨ ∃ p ∈ passes, p.llpos = x ∧
          p.points1 = AddSorted x p.points ∧ p.splitcost ≤ p.origcost ∧
          p.llpos ≠ p.lstart + 1) ∧
        passes.length ≤ notDone done llsize + (llsize - pts.length) := by
  intro fuel
  induction fuel with
  | zero => intro _ _ _ _ _ _ _ _ _ _ _ _ hf; omega
  | succ fuel ih =>
    intro lstart lend numblocks done pts hs hb hlt hle hgap hnd hnb hf
    -- what happens after the update of `done` / `splitpoints`
    have tail : ∀ (pass : SplitPass) (done1 : Nat → Bool) (pts1 : List Nat) (nb1 : Nat),
        PassInv blockSize litlens dists llsize pass →
        pts1.Pairwise (· < ·) → (∀ x ∈ pts1, 0 < x ∧ x < llsize) →
        nb1 = pts1.length + 1 →
        notDone done1 llsize + (llsize - pts1.length) < fuel →
        notDone done1 llsize + (llsize - pts1.length)
          < notDone done llsize + (llsize - pts.length) →
        (∀ x ∈ pts1, x ∈ pts ∨ (pass.llpos = x ∧
          pass.points1 = AddSorted x pass.points ∧ pass.splitcost ≤ pass.origcost ∧
          pass.llpos ≠ pass.lstart + 1)) →
        ∃ passes out, (if (FindLargestSplittableBlock llsize done1 pts1 lstart lend).found = false
              then some ([pass], pts1)
            else if (FindLargestSplittableBlock llsize done1 pts1 lstart lend).lend
                - (FindLargestSplittableBlock llsize done1 pts1 lstart lend).lstart < 10
              then some ([pass], pts1)
            else (splitPasses blockSize litlens dists llsize maxblocks fuel
              (FindLargestSplittableBlock llsize done1 pts1 lstart lend).lstart
              (FindLargestSplittableBlock llsize done1 pts1 lstart lend).lend nb1 done1
                pts1).map (fun t => (pass :: t.1, t.2)))
            = some (passes, out) ∧
          (∀ p ∈ passes, PassInv blockSize litlens dists llsize p) ∧
          (∀ x ∈ out, x ∈ pts ∨ ∃ p ∈ passes, p.llpos = x ∧
            p.points1 = AddSorted x p.points ∧ p.splitcost ≤ p.origcost ∧
            p.llpos ≠ p.lstart + 1) ∧
          passes.length ≤ notDone done llsize + (llsize - pts.length) := by
      intro pass done1 pts1 nb1 hpass hs1 hb1 hnb1 hf1 hdec hnew
      have hfin : ∃ passes out, some ([pass], pts1) = some (passes, out) ∧
          (∀ p ∈ passes, PassInv blockSize litlens dists llsize p) ∧
          (∀ x ∈ out, x ∈ pts ∨ ∃ p ∈ passes, p.llpos = x ∧
            p.points1 = AddSorted x p.points ∧ p.splitcost ≤ p.origcost ∧
            p.llpos ≠ p.lstart + 1) ∧
          passes.length ≤ notDone done llsize + (llsize - pts.length) := by
        refine ⟨[pass], pts1, rfl, ?_, ?_, ?_⟩
        · intro p hp
          rw [List.mem_singleton.mp hp]; exact hpass
        · intro x hx
          rcases hnew x hx with h | h
          · exact Or.inl h
          · exact Or.inr ⟨pass, List.mem_singleton.mpr rfl, h⟩
        · simp only [List.length_singleton]; omega
      split
      · exact hfin
      · rename_i hfound
        split
        · exact hfin
        · rename_i hlong
          obtain ⟨i, hi, e1, e2, hd1, hlt1⟩ :=
            FindLargestSplittableBlock_found llsize done1 pts1 lstart lend (by simpa using hfound)
          rw [e1, e2] at hlong ⊢
          have hend := blockEnd_le llsize pts1 i hi hb1
          obtain ⟨passes, out, hrun, hall, hout, hlen⟩ :=
            ih _ _ nb1 done1 pts1 hs1 hb1 (by omega) (by omega)
              (block_gap llsize pts1 i hi hs1) hd1 hnb1 hf1
          refine ⟨pass :: passes, out, by rw [hrun]; rfl, ?_, ?_, ?_⟩
          · intro p hp
            rcases List.mem_cons.mp hp with h | h
            · rw [h]; exact hpass
            · exact hall p h
          · intro x hx
            rcases hout x hx with h | ⟨p, hp, h⟩
            · rcases hnew x h with h2 | h2
              · exact Or.inl h2
              · exact Or.inr ⟨pass, List.mem_cons_self _ _, h2⟩
            · exact Or.inr ⟨p, List.mem_cons_of_mem _ hp, h⟩
          · simp only [List.length_cons]; omega
    simp only [splitPasses]
    split
    · exact ⟨[], pts, rfl, by simp, fun x hx => Or.inl hx, by simp⟩
    · rename_i hcont
      generalize hll : FindMinimum (SplitCost blockSize litlens dists lstart lend) (lstart + 1) lend
        = llpos
      have hrange := FindMinimum_range (SplitCost blockSize litlens dists lstart lend)
        (lstart + 1) lend
      rw [hll] at hrange
      have hin : lstart < llpos ∧ llpos < lend := by
        rcases hrange with h | h <;> omega
      have hnotin : llpos ∉ pts := by
        intro hmem
        rcases hgap llpos hmem with h | h <;> omega
      by_cases hrefuse : (EstimateCost blockSize litlens dists lstart llpos
            + EstimateCost blockSize litlens dists llpos lend) % 2 ^ 64
            > EstimateCost blockSize litlens dists lstart lend ∨ llpos = lstart + 1 ∨ llpos = lend
      · simp only [hrefuse, decide_True, if_true]
        have hm := notDone_mark_lt done lstart llsize (by omega) hnd
        apply tail _ _ _ _ _ hs hb hnb (by omega) (by omega) (fun x hx => Or.inl hx)
        exact
          { block := ⟨hlt, hle⟩, llpos_eq := hll.symm, split_eq := rfl, orig_eq := rfl,
            asserts := ⟨by show lstart < lend; omega, hin.1, hin.2⟩, not_done := hnd, fresh := hnotin,
            refused := fun _ => ⟨rfl, rfl⟩,
            inserted := fun hno => by
              exfalso
              rcases hrefuse with h | h | h
              · exact hno (Or.inl h)
              · exact hno (Or.inr h)
              · omega }
      · simp only [hrefuse, decide_False, Bool.false_eq_true, if_false]
        have hs1 := AddSorted_pairwise llpos pts hs hnotin
        have hb1 : ∀ x ∈ AddSorted llpos pts, 0 < x ∧ x < llsize := by
          intro x hx
          rcases (mem_AddSorted llpos x pts).mp hx with h | h
          · rw [h]; omega
          · exact hb x h
        have hlen := length_AddSorted llpos pts
        have hbound := length_le_of_sorted_lt _ llsize hs1 (fun x hx => (hb1 x hx).2)
        apply tail _ _ _ _ _ hs1 hb1 (by omega) (by omega) (by omega)
        · intro x hx
          rcases (mem_AddSorted llpos x pts).mp hx with h | h
          · right
            refine ⟨h.symm, by rw [h], ?_, ?_⟩
            · simp only
              by_contra hgt
              exact hrefuse (Or.inl (by omega))
            · simp only
              intro h1
              exact hrefuse (Or.inr (Or.inl h1))
          · exact Or.inl h
        · exact
          { block := ⟨hlt, hle⟩, llpos_eq := hll.symm, split_eq := rfl, orig_eq := rfl,
            asserts := ⟨by show lstart < lend; omega, hin.1, hin.2⟩, not_done := hnd, fresh := hnotin,
            refused := fun hyes => by
              exfalso
              rcases hyes with h | h
              · exact hrefuse (Or.inl h)
              · exact hrefuse (Or.inr (Or.inl h)),
            inserted := fun _ => ⟨rfl, rfl⟩ }

/-- The run of `ZopfliBlockSplitLZ77` from an empty list of split points: the loop
returns, with a record of at most `2 * llsize` passes that satisfy `PassInv`,
and every returned point was inserted by one of the passes. -/
theorem ZopfliBlockSplitLZ77_passes (blockSize : List Nat → List Nat → Nat → Nat → Nat → Nat)
    (litlens dists : List Nat) (llsize maxblocks : Nat) :
    ∃ passes out,
      (if llsize < 10 then passes = []
        else splitPasses blockSize litlens dists llsize maxblocks (2 * llsize + 1) 0 llsize 1
          (fun _ => false) [] = some (passes, out)) ∧
      ZopfliBlockSplitLZ77 blockSize litlens dists llsize maxblocks [] = some out ∧
      passes.length ≤ 2 * llsize ∧
      (∀ p ∈ passes, PassInv blockSize litlens dists llsize p) ∧
      (∀ x ∈ out, ∃ p ∈ passes, p.llpos = x ∧ p.points1 = AddSorted x p.points ∧
        p.splitcost ≤ p.origcost ∧ p.llpos ≠ p.lstart + 1) := by
  by_cases hsmall : llsize < 10
  · refine ⟨[], [], by rw [if_pos hsmall], ?_, by simp, by simp, by simp⟩
    unfold ZopfliBlockSplitLZ77
    rw [if_pos hsmall]
  · obtain ⟨passes, out, hrun, hall, hout, hlen⟩ :=
      splitPasses_spec blockSize litlens dists llsize maxblocks (2 * llsize + 1) 0 llsize 1
        (fun _ => false) [] List.Pairwise.nil (by simp) (by omega) (Nat.le_refl _) (by simp)
        rfl rfl (by
          have := notDone_le (fun _ => false) llsize
          simp only [List.length_nil]
          omega)
    refine ⟨passes, out, by rw [if_neg hsmall]; exact hrun, ?_, ?_, hall, ?_⟩
    · unfold ZopfliBlockSplitLZ77
      rw [if_neg hsmall, ← splitPasses_result, hrun]
      rfl
    · have := notDone_le (fun _ => false) llsize
      simp only [List.length_nil] at hlen
      omega
    · intro x hx
      rcases hout x hx with h | h
      · simp at h
      · exact h

/-- C29: the main loop of `ZopfliBlockSplitLZ77` returns for every store, every
`maxblocks` and every cost function, after at most `2 * llsize` passes.  In
every pass the assertions `lstart < lend`, `llpos > lstart` and `llpos < lend`
hold, and the pass either inserts `llpos`, which was not a split point before,
or marks the block start `lstart`, which was not done before, as done. -/
theorem C29_split_loop_terminates (blockSize : List Nat → List Nat → Nat → Nat → Nat → Nat)
    (litlens dists : List Nat) (llsize maxblocks : Nat) :
    ∃ passes out,
      (if llsize < 10 then passes = []
        else splitPasses blockSize litlens dists llsize maxblocks (2 * llsize + 1) 0 llsize 1
          (fun _ => false) [] = some (passes, out)) ∧
      ZopfliBlockSplitLZ77 blockSize litlens dists llsize maxblocks [] = some out ∧
      passes.length ≤ 2 * llsize ∧
      ∀ p ∈ passes,
        (p.lstart < p.lend ∧ p.llpos > p.lstart ∧ p.llpos < p.lend) ∧
        ((p.points1 = AddSorted p.llpos p.points ∧ p.llpos ∉ p.points ∧ p.done1 = p.done) ∨
          (p.points1 = p.points ∧ p.done p.lstart = false ∧
            p.done1 = fun i => if i = p.lstart then true else p.done i)) := by
  obtain ⟨passes, out, hrun, hres, hlen, hall, _⟩ :=
    ZopfliBlockSplitLZ77_passes blockSize litlens dists llsize maxblocks
  refine ⟨passes, out, hrun, hres, hlen, ?_⟩
  intro p hp
  have hinv := hall p hp
  refine ⟨hinv.asserts, ?_⟩
  by_cases h : p.splitcost > p.origcost ∨ p.llpos = p.lstart + 1
  · exact Or.inr ⟨(hinv.refused h).1, hinv.not_done, (hinv.refused h).2⟩
  · exact Or.inl ⟨(hinv.inserted h).1, hinv.fresh, (hinv.inserted h).2⟩

/-- When the sum of the two part costs wraps in `size_t`, the loop works with the
wrapped sum: with `wrapCost` the split of `[0, 13)` at 5 costs
`(2^63 + 2^63) mod 2^64 = 0`, which is below the cost 1 of the unsplit block,
and 5 is inserted. -/
theorem ZopfliBlockSplitLZ77_wrapped_sum :
    SplitCost wrapCost [] [] 0 13 5 = 0 ∧
      FindMinimum (SplitCost wrapCost [] [] 0 13) (0 + 1) 13 = 5 ∧
      ZopfliBlockSplitLZ77 wrapCost [] [] 13 0 [] = some [5] := by
  decide

theorem ZopfliGetDistSymbol_range (d : Int) (h1 : 1 ≤ d) (h2 : d ≤ 32768) :
    0 ≤ ZopfliGetDistSymbol d ∧ ZopfliGetDistSymbol d ≤ 29 := by
  by_cases h5 : d < 5
  · rw [ZopfliGetDistSymbol_small d h5]
    omega
  · unfold ZopfliGetDistSymbol
    repeat' split
    all_goals omega

theorem sum_set_add (l : List Nat) : ∀ (k v : Nat), k < l.length →
    (l.set k v).sum + l.getD k 0 = l.sum + v := by
  induction l with
  | nil => intro k v h; simp at h
  | cons x xs ih =>
    intro k v h
    cases k with
    | zero => simp [List.set]; omega
    | succ k =>
      have := ih k v (by simpa using h)
      simp only [List.set, List.sum_cons, List.getD_cons_succ]
      omega

theorem getD_set (l : List Nat) (k v s : Nat) (hk : k < l.length) :
    (l.set k v).getD s 0 = if s = k then v else l.getD s 0 := by
  rw [List.getD_eq_getElem?_getD, List.getD_eq_getElem?_getD, List.getElem?_set]
  by_cases h : k = s
  · subst h
    simp [hk]
  · rw [if_neg h, if_neg (fun e => h e.symm)]

/-- What `counts[k]++` does to the entries and to their sum. -/
theorem bumpCount_spec (counts : List Nat) (k : Nat) (hk : k < counts.length) :
    ∃ c1, bumpCount counts k = some c1 ∧ c1.length = counts.length ∧
      (∀ s, c1.getD s 0 = counts.getD s 0 + (if s = k then 1 else 0)) ∧
      c1.sum = counts.sum + 1 := by
  refine ⟨counts.set k (counts.getD k 0 + 1), by unfold bumpCount; rw [if_pos hk],
    by simp, ?_, ?_⟩
  · intro s
    rw [getD_set counts k _ s hk]
    split
    · rename_i h; rw [h]
    · rfl
  · have := sum_set_add counts k (counts.getD k 0 + 1) hk
    omega

theorem getElem_opt_eq_some_getD (l : List Nat) (i : Nat) (h : i < l.length) :
    l[i]? = some (l.getD i 0) := by
  rw [List.getD_eq_getElem?_getD, List.getElem?_eq_getElem h]; rfl

/-- The counting loop of `ZopfliLZ77Counts` over the positions `l` of a valid store:
it returns counters, each entry has grown by the number of positions with that
symbol, and the sums have grown by the number of positions and of
back-references. -/
theorem counts_fold (litlens dists : List Nat) :
    ∀ (l : List Nat) (ll d : List Nat), ll.length = 288 → d.length = 32 →
      (∀ i ∈ l, i < litlens.length ∧ i < dists.length ∧
        ((dists.getD i 0 = 0 ∧ litlens.getD i 0 ≤ 255) ∨
          (1 ≤ dists.getD i 0 ∧ dists.getD i 0 ≤ 32768 ∧ 3 ≤ litlens.getD i 0 ∧
            litlens.getD i 0 ≤ 258))) →
      ∃ ll1 d1, l.foldl (countStep litlens dists) (some (ll, d)) = some (ll1, d1) ∧
        ll1.length = 288 ∧ d1.length = 32 ∧
        (∀ s, ll1.getD s 0
          = ll.getD s 0 + l.countP (fun i => decide (litLenSymbol litlens dists i = s))) ∧
        (∀ s, d1.getD s 0 = d.getD s 0 + l.countP (fun i => decide (dists.getD i 0 ≠ 0 ∧
          (ZopfliGetDistSymbol (Int.ofNat (dists.getD i 0))).toNat = s))) ∧
        ll1.sum = ll.sum + l.length ∧
        d1.sum = d.sum + l.countP (fun i => decide (dists.getD i 0 ≠ 0)) := by
  intro l
  induction l with
  | nil =>
    intro ll d hll hd _
    exact ⟨ll, d, rfl, hll, hd, by simp, by simp, by simp, by simp⟩
  | cons x xs ih =>
    intro ll d hll hd hv
    obtain ⟨hx1, hx2, hx⟩ := hv x (List.mem_cons_self _ _)
    have hrest : ∀ i ∈ xs, i < litlens.length ∧ i < dists.length ∧
        ((dists.getD i 0 = 0 ∧ litlens.getD i 0 ≤ 255) ∨
          (1 ≤ dists.getD i 0 ∧ dists.getD i 0 ≤ 32768 ∧ 3 ≤ litlens.getD i 0 ∧
            litlens.getD i 0 ≤ 258)) := fun i hi => hv i (List.mem_cons_of_mem _ hi)
    have e1 := getElem_opt_eq_some_getD litlens x hx1
    have e2 := getElem_opt_eq_some_getD dists x hx2
    simp only [List.foldl_cons]
    rcases hx with ⟨h0, h255⟩ | ⟨h1, h2, h3, h258⟩
    · obtain ⟨ll1, hb, hlen, hget, hsum⟩ := bumpCount_spec ll (litlens.getD x 0) (by omega)
      have hstep : countStep litlens dists (some (ll, d)) x = some (ll1, d) := by
        unfold countStep
        simp only [e1, e2, if_pos h0, hb, Option.map_some']
      rw [hstep]
      obtain ⟨ll2, d2, hrun, hl2, hd2, hg2, hgd2, hs2, hsd2⟩ := ih ll1 d (by omega) hd hrest
      have hsym : litLenSymbol litlens dists x = litlens.getD x 0 := by
        unfold litLenSymbol; rw [if_pos h0]
      refine ⟨ll2, d2, hrun, hl2, hd2, ?_, ?_, ?_, ?_⟩
      · intro s
        rw [hg2 s, hget s, List.countP_cons]
        simp only [hsym, decide_eq_true_eq]
        split_ifs <;> omega
      · intro s
        rw [hgd2 s, List.countP_cons]
        simp only [decide_eq_true_eq]
        rw [if_neg (fun h => h.1 h0)]
        rfl
      · rw [hs2, hsum, List.length_cons]; omega
      · rw [hsd2, List.countP_cons]
        simp only [decide_eq_true_eq]
        rw [if_neg (fun h => h h0)]
        rfl
    · have hls := length_tables_rows (litlens.getD x 0) (by omega) h3
      have hds := ZopfliGetDistSymbol_range (Int.ofNat (dists.getD x 0))
        (by simp only [Int.ofNat_eq_coe]; omega) (by simp only [Int.ofNat_eq_coe]; omega)
      have hne : dists.getD x 0 ≠ 0 := by omega
      obtain ⟨ll1, hb, hlen, hget, hsum⟩ :=
        bumpCount_spec ll (ZopfliGetLengthSymbol (litlens.getD x 0)) (by omega)
      obtain ⟨d1, hbd, hlend, hgetd, hsumd⟩ :=
        bumpCount_spec d (ZopfliGetDistSymbol (Int.ofNat (dists.getD x 0))).toNat (by omega)
      have hstep : countStep litlens dists (some (ll, d)) x = some (ll1, d1) := by
        unfold countStep
        simp only [e1, e2, if_neg hne, hb, hbd]
      rw [hstep]
      obtain ⟨ll2, d2, hrun, hl2, hd2, hg2, hgd2, hs2, hsd2⟩ :=
        ih ll1 d1 (by omega) (by omega) hrest
      have hsym : litLenSymbol litlens dists x = ZopfliGetLengthSymbol (litlens.getD x 0) := by
        unfold litLenSymbol; rw [if_neg hne]
      refine ⟨ll2, d2, hrun, hl2, hd2, ?_, ?_, ?_, ?_⟩
      · intro s
        rw [hg2 s, hget s, List.countP_cons]
        simp only [hsym, decide_eq_true_eq]
        split_ifs <;> omega
      · intro s
        rw [hgd2 s, hgetd s, List.countP_cons]
        simp only [decide_eq_true_eq]
        by_cases hs : (ZopfliGetDistSymbol (Int.ofNat (dists.getD x 0))).toNat = s
        · rw [if_pos hs.symm, if_pos ⟨hne, hs⟩]; omega
        · rw [if_neg (fun e => hs e.symm), if_neg (fun e => hs e.2)]; omega
      · rw [hs2, hsum, List.length_cons]; omega
      · rw [hsd2, hsumd, List.countP_cons]
        simp only [decide_eq_true_eq]
        rw [if_pos hne]; omega

/-- C25: for a valid store (every entry of the range is a literal `0..255` with
distance 0, or a length `3..258` with a distance `1..32768`) and
`start <= end <= size`, `ZopfliLZ77Counts` returns counters with `ll_count[256] == 1`,
with `ll_count[s]` for `s != 256` the number of positions of `[start, end)`
whose literal value or length symbol is `s`, and with `d_count[s]` the number
of back-references of the range whose distance symbol is `s`; the entries of
`ll_count` add up to `(end - start) + 1`, those of `d_count` to the number of
back-references. -/
theorem C25_counts_tally_symbols (litlens dists : List Nat) (start stop : Nat)
    (hsize : litlens.length = dists.length) (hle : start ≤ stop)
    (hstop : stop ≤ litlens.length)
    (hvalid : ∀ i, start ≤ i → i < stop →
      (dists.getD i 0 = 0 ∧ litlens.getD i 0 ≤ 255) ∨
        (1 ≤ dists.getD i 0 ∧ dists.getD i 0 ≤ 32768 ∧ 3 ≤ litlens.getD i 0 ∧
          litlens.getD i 0 ≤ 258)) :
    ∃ ll d, ZopfliLZ77Counts litlens dists start stop = some (ll, d) ∧
      ll.length = 288 ∧ d.length = 32 ∧
      ll.getD 256 0 = 1 ∧
      (∀ s, s ≠ 256 → ll.getD s 0 = (List.range' start (stop - start)).countP
        (fun i => decide (litLenSymbol litlens dists i = s))) ∧
      (∀ s, d.getD s 0 = (List.range' start (stop - start)).countP
        (fun i => decide (dists.getD i 0 ≠ 0 ∧
          (ZopfliGetDistSymbol (Int.ofNat (dists.getD i 0))).toNat = s))) ∧
      ll.sum = (stop - start) + 1 ∧
      d.sum = (List.range' start (stop - start)).countP
        (fun i => decide (dists.getD i 0 ≠ 0)) := by
  have hmem : ∀ i ∈ List.range' start (stop - start), start ≤ i ∧ i < stop := by
    intro i hi
    rw [List.mem_range'_1] at hi
    omega
  unfold ZopfliLZ77Counts
  obtain ⟨ll1, d1, hrun, hl1, hd1, hg1, hgd1, hs1, hsd1⟩ := counts_fold litlens dists
    (List.range' start (stop - start)) (List.replicate 288 0) (List.replicate 32 0)
    (List.length_replicate _ _) (List.length_replicate _ _)
    (fun i hi => ⟨by have := hmem i hi; omega, by have := hmem i hi; omega,
      hvalid i (hmem i hi).1 (hmem i hi).2⟩)
  simp only []
  rw [hrun]
  have hzero : ∀ s, (List.replicate 288 0).getD s 0 = 0 := by
    intro s
    rw [List.getD_eq_getElem?_getD, List.getElem?_replicate]
    split <;> rfl
  have hzerod : ∀ s, (List.replicate 32 0).getD s 0 = 0 := by
    intro s
    rw [List.getD_eq_getElem?_getD, List.getElem?_replicate]
    split <;> rfl
  -- no entry of the range has the symbol 256
  have h256 : (List.range' start (stop - start)).countP
      (fun i => decide (litLenSymbol litlens dists i = 256)) = 0 := by
    rw [List.countP_eq_zero]
    intro i hi
    simp only [decide_eq_true_eq]
    unfold litLenSymbol
    rcases hvalid i (hmem i hi).1 (hmem i hi).2 with ⟨h0, h255⟩ | ⟨h1, h2, h3, h258⟩
    · rw [if_pos h0]; omega
    · rw [if_neg (by omega)]
      have := length_tables_rows (litlens.getD i 0) (by omega) h3
      omega
  have hold : ll1.getD 256 0 = 0 := by rw [hg1 256, hzero, h256]
  refine ⟨ll1.set 256 1, d1, rfl, by simp [hl1], hd1, ?_, ?_, ?_, ?_, ?_⟩
  · rw [getD_set ll1 256 1 256 (by omega)]; simp
  · intro s hs
    rw [getD_set ll1 256 1 s (by omega), if_neg hs, hg1 s, hzero]
    omega
  · intro s
    rw [hgd1 s, hzerod]
    omega
  · have := sum_set_add ll1 256 1 (by omega)
    rw [hold] at this
    rw [hs1] at this
    simp only [List.sum_replicate, smul_eq_mul, Nat.mul_zero, List.length_range'] at this
    omega
  · rw [hsd1]
    simp

theorem C25_counts_tally_symbols_witness :
    ([97, 98, 97, 3].length = [0, 0, 0, 3].length ∧ 0 ≤ 4 ∧ 4 ≤ [97, 98, 97, 3].length) ∧
      ∃ ll d, ZopfliLZ77Counts [97, 98, 97, 3] [0, 0, 0, 3] 0 4 = some (ll, d) ∧
        ll.length = 288 ∧ d.length = 32 ∧
        ll.getD 256 0 = 1 ∧
        (∀ s, s ≠ 256 → ll.getD s 0 = (List.range' 0 (4 - 0)).countP
          (fun i => decide (litLenSymbol [97, 98, 97, 3] [0, 0, 0, 3] i = s))) ∧
        (∀ s, d.getD s 0 = (List.range' 0 (4 - 0)).countP
          (fun i => decide (([0, 0, 0, 3] : List Nat).getD i 0 ≠ 0 ∧
            (ZopfliGetDistSymbol (Int.ofNat (([0, 0, 0, 3] : List Nat).getD i 0))).toNat = s))) ∧
        ll.sum = (4 - 0) + 1 ∧
        d.sum = (List.range' 0 (4 - 0)).countP
          (fun i => decide (([0, 0, 0, 3] : List Nat).getD i 0 ≠ 0)) :=
  ⟨⟨rfl, by decide, by decide⟩,
    C25_counts_tally_symbols [97, 98, 97, 3] [0, 0, 0, 3] 0 4 rfl (by decide) (by decide)
      (by
        intro i _ h2
        interval_cases i <;> decide)⟩

/-! ### The comparison of byte sequences -/

/-- C26: whatever the word size (8 bytes, 4 bytes or the unrolled comparison),
`GetMatch(scan, match, end)` with `scan <= end` returns `scan + n` where `n` is
the length of the longest common prefix of the bytes at `scan` and at `match`
bounded by `end - scan`: `n <= end - scan`, the first `n` bytes agree, and the
bytes at offset `n` differ unless `n = end - scan`.  The result is that of the
byte-by-byte loop run alone from `scan`. -/
theorem C26_word_comparison_equals_bytewise (ws : WordSize) (array : Nat → Nat)
    (scan mtch stop : Nat) (h : scan ≤ stop) :
    ∃ n, GetMatch ws array scan mtch stop = scan + n ∧
      n = matchLength array (stop - scan) scan mtch ∧
      n ≤ stop - scan ∧
      (∀ k, k < n → array (scan + k) = array (mtch + k)) ∧
      (n < stop - scan → array (scan + n) ≠ array (mtch + n)) ∧
      (∀ m, m ≤ stop - scan → (∀ k, k < m → array (scan + k) = array (mtch + k)) → m ≤ n) ∧
      GetMatch ws array scan mtch stop = GetMatchBytes array (stop - scan) scan mtch stop := by
  refine ⟨matchLength array (stop - scan) scan mtch, GetMatch_eq ws array scan mtch stop h, rfl,
    matchLength_le _ _ _ _, fun k hk => matchLength_eq _ _ _ _ k hk,
    fun hlt => matchLength_stop _ _ _ _ hlt,
    fun m hm heq => (le_matchLength_iff array _ scan mtch m).mpr ⟨hm, heq⟩, ?_⟩
  rw [GetMatch_eq ws array scan mtch stop h,
    GetMatchBytes_eq array _ scan mtch stop h (Nat.le_refl _)]

theorem C26_word_comparison_equals_bytewise_witness :
    (3 : Nat) ≤ 23 ∧
    ∃ n, GetMatch WordSize.eight period3 3 0 23 = 3 + n ∧
      n = matchLength period3 (23 - 3) 3 0 ∧
      n ≤ 23 - 3 ∧
      (∀ k, k < n → period3 (3 + k) = period3 (0 + k)) ∧
      (n < 23 - 3 → period3 (3 + n) ≠ period3 (0 + n)) ∧
      (∀ m, m ≤ 23 - 3 → (∀ k, k < m → period3 (3 + k) = period3 (0 + k)) → m ≤ n) ∧
      GetMatch WordSize.eight period3 3 0 23 = GetMatchBytes period3 (23 - 3) 3 0 23 :=
  ⟨by decide, C26_word_comparison_equals_bytewise WordSize.eight period3 3 0 23 (by decide)⟩

/-! ### The gzip container -/

/-- The four bytes `x % 256`, `(x >> 8) % 256`, `(x >> 16) % 256`,
`(x >> 24) % 256` are the little-endian digits of `x mod 2^32`. -/
theorem littleEndian_four (x : Nat) :
    littleEndian [x % 256, (x >>> 8) % 256, (x >>> 16) % 256, (x >>> 24) % 256]
      = x % 2 ^ 32 := by
  simp only [littleEndian, Nat.shiftRight_eq_div_pow]
  omega

/-- C27: with an append macro that appends one byte and a deflate collaborator
that appends the bytes `body` for the input, `ZopfliGzipCompress` turns the output
`out` into `out`, the header `31 139 8 0 0 0 0 0 2 3`, `body`, the four bytes
`(crc >> 8k) mod 256` of the checksum and the four bytes `(insize >> 8k) mod 256`
of the input size, `k = 0..3`; the last two groups are the little-endian
digits of the checksum and of `insize`, each taken mod `2^32`. -/
theorem C27_gzip_container_layout (ops : GzipOps) (input out body : List Nat)
    (happend : ∀ v o, ops.ZOPFLI_APPEND_DATA v o = o ++ [v])
    (hdeflate : ∀ o, (ops.ZopfliDeflate 2 1 input 0 o).2 = o ++ body) :
    ZopfliGzipCompress ops input out
        = out ++ [31, 139, 8, 0, 0, 0, 0, 0, 2, 3] ++ body
          ++ [ops.lodepng_crc32 input % 256, (ops.lodepng_crc32 input >>> 8) % 256,
              (ops.lodepng_crc32 input >>> 16) % 256, (ops.lodepng_crc32 input >>> 24) % 256]
          ++ [input.length % 256, (input.length >>> 8) % 256,
              (input.length >>> 16) % 256, (input.length >>> 24) % 256] ∧
      littleEndian [ops.lodepng_crc32 input % 256, (ops.lodepng_crc32 input >>> 8) % 256,
          (ops.lodepng_crc32 input >>> 16) % 256, (ops.lodepng_crc32 input >>> 24) % 256]
        = ops.lodepng_crc32 input % 2 ^ 32 ∧
      littleEndian [input.length % 256, (input.length >>> 8) % 256,
          (input.length >>> 16) % 256, (input.length >>> 24) % 256]
        = input.length % 2 ^ 32 := by
  refine ⟨?_, littleEndian_four _, littleEndian_four _⟩
  unfold ZopfliGzipCompress
  simp only [happend, hdeflate, List.append_assoc, List.cons_append, List.nil_append]

theorem C27_gzip_container_layout_witness :
    ZopfliGzipCompress sampleGzipOps [1, 2, 3] [7]
        = [7, 31, 139, 8, 0, 0, 0, 0, 0, 2, 3, 1, 2, 3, 6, 0, 0, 0, 3, 0, 0, 0] ∧
      ((∀ v o, sampleGzipOps.ZOPFLI_APPEND_DATA v o = o ++ [v]) ∧
        ∀ o, (sampleGzipOps.ZopfliDeflate 2 1 [1, 2, 3] 0 o).2 = o ++ [1, 2, 3]) ∧
      (ZopfliGzipCompress sampleGzipOps [1, 2, 3] [7]
        = [7] ++ [31, 139, 8, 0, 0, 0, 0, 0, 2, 3] ++ [1, 2, 3]
          ++ [sampleGzipOps.lodepng_crc32 [1, 2, 3] % 256,
              (sampleGzipOps.lodepng_crc32 [1, 2, 3] >>> 8) % 256,
              (sampleGzipOps.lodepng_crc32 [1, 2, 3] >>> 16) % 256,
              (sampleGzipOps.lodepng_crc32 [1, 2, 3] >>> 24) % 256]
          ++ [[1, 2, 3].length % 256, ([1, 2, 3].length >>> 8) % 256,
              ([1, 2, 3].length >>> 16) % 256, ([1, 2, 3].length >>> 24) % 256]) :=
  ⟨by decide, ⟨fun _ _ => rfl, fun _ => rfl⟩,
    (C27_gzip_container_layout sampleGzipOps [1, 2, 3] [7] [1, 2, 3]
      (fun _ _ => rfl) (fun _ => rfl)).1⟩

/-! ### Coverage of the input by the greedy producer -/

theorem coveredBytes_append (es : List (Nat × Nat)) (l d : Nat) :
    coveredBytes (es ++ [(l, d)]) = coveredBytes es + (if d = 0 then 1 else l) := by
  unfold coveredBytes
  simp

/-- The part "Add to output" keeps the coverage invariant. -/
theorem addToOutput_cover (ops : HashOps) (array : Nat → Nat) (instart inend : Nat)
    (store0 : ZopfliLZ77Store) (st : GreedyState) (leng dist : Nat) (lengthscore : Int)
    (hhash : st.h = hashBefore ops array instart inend (st.i + 1)) (hi : instart ≤ st.i)
    (hlt : st.i < inend) (hok : st.inRange = true) (hav : st.match_available = false)
    (hcov : ∃ es, Appended store0 st.store es ∧ coveredBytes es = st.i - instart)
    (hgood : lengthscore ≥ 3 → 3 ≤ leng ∧ st.i + leng ≤ inend ∧ 1 ≤ dist) :
    CoverInv ops array instart inend store0
        { addToOutput ops array inend st leng dist lengthscore with
          i := (addToOutput ops array inend st leng dist lengthscore).i + 1 } := by
  obtain ⟨es, hes, hsum⟩ := hcov
  unfold addToOutput
  simp only [ZOPFLI_MIN_MATCH, Nat.cast_ofNat]
  by_cases hs : lengthscore ≥ 3
  · obtain ⟨h3, hend, hd⟩ := hgood hs
    simp only [hs, decide_True, if_true]
    obtain ⟨e1, e2⟩ := skipPositions_spec ops array instart inend (leng - 1) st.i st.h
      st.inRange hi hhash
    have e3 := skipPositions_inRange ops array inend (leng - 1) st.i st.h (by omega)
    refine
      { hash := by simp only; rw [e2, e1]
        i_ge := by simp only; rw [e1]; omega
        i_le := by simp only; rw [e1]; omega
        ok := by simp only; rw [hok]; exact e3
        cover := ?_
        avail := by simp only; intro h; rw [hav] at h; simp at h }
    refine ⟨es ++ [(leng, dist)], appended_store _ _ _ _ _ hes, ?_⟩
    simp only
    rw [coveredBytes_append, if_neg (show ¬ dist = 0 by omega), e1, hav]
    simp only [Bool.false_eq_true, if_false]
    omega
  · simp only [hs, decide_False, Bool.false_eq_true, if_false]
    obtain ⟨e1, e2⟩ := skipPositions_spec ops array instart inend (1 - 1) st.i st.h
      st.inRange hi hhash
    have e3 := skipPositions_inRange ops array inend (1 - 1) st.i st.h (by omega)
    refine
      { hash := by simp only; rw [e2, e1]
        i_ge := by simp only; rw [e1]; omega
        i_le := by simp only; rw [e1]; omega
        ok := by simp only; rw [hok]; exact e3
        cover := ?_
        avail := by simp only; intro h; rw [hav] at h; simp at h }
    refine ⟨es ++ [(array st.i, 0)], appended_store _ _ _ _ _ hes, ?_⟩
    simp only
    rw [coveredBytes_append, if_pos rfl, e1, hav]
    simp only [Bool.false_eq_true, if_false]
    omega

/-- One pass through the loop body of `ZopfliLZ77Greedy` keeps the coverage
invariant, when the finder answers and its answers of length at least 3 end
inside the input and have a distance of at least 1. -/
theorem greedyBody_cover (find : ZopfliHash → Nat → (Nat → Nat) → Option MatchResult)
    (ops : HashOps) (array : Nat → Nat) (instart inend : Nat)
    (store0 : ZopfliLZ77Store) (st : GreedyState)
    (hinv : CoverInv ops array instart inend store0 st) (hi : st.i < inend)
    (hfind : ∀ s, (find (hashAt ops array instart inend st.i) st.i s).isSome = true)
    (hgood : ∀ s r, find (hashAt ops array instart inend st.i) st.i s = some r →
      3 ≤ r.length → st.i + r.length ≤ inend ∧ 1 ≤ r.distance) :
    ∃ st1, greedyBody find ops array inend st = some st1 ∧
      CoverInv ops array instart inend store0 { st1 with i := st1.i + 1 } := by
  have hh1 : ops.update array st.i inend st.h
      = hashBefore ops array instart inend (st.i + 1) := by
    rw [hashBefore_succ ops array instart inend st.i hinv.i_ge, hinv.hash]; rfl
  have hh0 : ops.update array st.i inend st.h = hashAt ops array instart inend st.i := by
    rw [hinv.hash]; rfl
  obtain ⟨r, hr⟩ := Option.isSome_iff_exists.mp (hfind st.dummysublen)
  have hg := hgood st.dummysublen r hr
  rw [← hh0] at hr
  obtain ⟨es, hes, hsum⟩ := hinv.cover
  have hige := hinv.i_ge
  unfold greedyBody
  simp only [hr, ZOPFLI_MIN_MATCH, Nat.cast_ofNat]
  generalize hsc : GetLengthScore r.length r.distance = lengthscore
  have hgood2 : lengthscore ≥ 3 → 3 ≤ r.length ∧ st.i + r.length ≤ inend ∧ 1 ≤ r.distance := by
    intro h
    have h3 := lengthScore_ge r.length r.distance (by rw [hsc]; exact h)
    exact ⟨h3, hg h3⟩
  by_cases hav : st.match_available = true
  · rw [if_pos hav]
    obtain ⟨hlt, hp3, hpd, hpend⟩ := hinv.avail hav
    rw [if_pos hav] at hsum
    by_cases hlazy : lengthscore > GetLengthScore st.prev_length st.prev_match + 1
    · rw [if_pos hlazy]
      have hcov2 : ∃ es2, Appended store0
          (ZopfliStoreLitLenDist (array (st.i - 1)) 0 st.store) es2 ∧
          coveredBytes es2 = st.i - instart := by
        refine ⟨es ++ [(array (st.i - 1), 0)], appended_store _ _ _ _ _ hes, ?_⟩
        rw [coveredBytes_append, if_pos rfl]
        exact hsum
      by_cases hdefer : lengthscore ≥ 3 ∧ r.length < ZOPFLI_MAX_MATCH
      · rw [if_pos hdefer]
        obtain ⟨g1, g2, g3⟩ := hgood2 hdefer.1
        refine ⟨_, rfl, ?_⟩
        obtain ⟨es2, hes2, hsum2⟩ := hcov2
        exact
          { hash := hh1
            i_ge := by simp only; omega
            i_le := by simp only; omega
            ok := hinv.ok
            cover := ⟨es2, hes2, by simp only [if_true]; omega⟩
            avail := fun _ => ⟨by simp only; omega, g1, g3, by
              simp only [Nat.add_sub_cancel]; exact g2⟩ }
      · rw [if_neg hdefer]
        refine ⟨_, rfl, ?_⟩
        exact addToOutput_cover ops array instart inend store0 _ r.length r.distance lengthscore
          hh1 hinv.i_ge hi hinv.ok rfl hcov2 hgood2
    · rw [if_neg hlazy]
      obtain ⟨e1, e2⟩ := skipPositions_spec ops array instart inend (st.prev_length - 2) st.i
        (ops.update array st.i inend st.h) st.inRange hinv.i_ge hh1
      have e3 := skipPositions_inRange ops array inend (st.prev_length - 2) st.i
        (ops.update array st.i inend st.h) (by omega)
      refine ⟨_, rfl, ?_⟩
      refine
        { hash := by simp only; rw [e2, e1]
          i_ge := by simp only; rw [e1]; omega
          i_le := by simp only; rw [e1]; omega
          ok := by simp only; rw [hinv.ok]; exact e3
          cover := ?_
          avail := by simp }
      refine ⟨es ++ [(st.prev_length, st.prev_match)], appended_store _ _ _ _ _ hes, ?_⟩
      simp only
      rw [coveredBytes_append, if_neg (show ¬ st.prev_match = 0 by omega), e1]
      simp only [Bool.false_eq_true, if_false]
      omega
  · rw [if_neg hav]
    rw [if_neg hav] at hsum
    by_cases hdefer : lengthscore ≥ 3 ∧ r.length < ZOPFLI_MAX_MATCH
    · rw [if_pos hdefer]
      obtain ⟨g1, g2, g3⟩ := hgood2 hdefer.1
      refine ⟨_, rfl, ?_⟩
      exact
        { hash := hh1
          i_ge := by simp only; omega
          i_le := by simp only; omega
          ok := hinv.ok
          cover := ⟨es, hes, by simp only [if_true]; omega⟩
          avail := fun _ => ⟨by simp only; omega, g1, g3, by
            simp only [Nat.add_sub_cancel]; exact g2⟩ }
    · rw [if_neg hdefer]
      refine ⟨_, rfl, ?_⟩
      exact addToOutput_cover ops array instart inend store0 _ r.length r.distance lengthscore
        hh1 hinv.i_ge hi hinv.ok (by simpa using hav)
        ⟨es, hes, by show coveredBytes es = st.i - instart; omega⟩ hgood2

/-- The main loop of `ZopfliLZ77Greedy` returns and keeps the coverage invariant. -/
theorem greedyLoop_cover (find : ZopfliHash → Nat → (Nat → Nat) → Option MatchResult)
    (ops : HashOps) (array : Nat → Nat) (instart inend : Nat) (store0 : ZopfliLZ77Store)
    (hfind : ∀ i s, instart ≤ i → i < inend →
      (find (hashAt ops array instart inend i) i s).isSome = true)
    (hgood : ∀ i s r, instart ≤ i → i < inend →
      find (hashAt ops array instart inend i) i s = some r →
      3 ≤ r.length → i + r.length ≤ inend ∧ 1 ≤ r.distance) :
    ∀ (fuel : Nat) (st : GreedyState), CoverInv ops array instart inend store0 st →
      inend ≤ st.i + fuel →
      ∃ out, greedyLoop find ops array inend fuel st = some out ∧
        CoverInv ops array instart inend store0 out ∧ out.i = inend := by
  intro fuel
  induction fuel with
  | zero =>
    intro st hinv hf
    simp only [greedyLoop]
    rw [if_neg (by omega)]
    exact ⟨st, rfl, hinv, by have := hinv.i_le; omega⟩
  | succ fuel ih =>
    intro st hinv hf
    simp only [greedyLoop]
    by_cases hi : st.i < inend
    · rw [if_pos hi]
      obtain ⟨st1, h1, hinv1⟩ := greedyBody_cover find ops array instart inend store0 st hinv hi
        (fun s => hfind st.i s hinv.i_ge hi) (fun s r => hgood st.i s r hinv.i_ge hi)
      obtain ⟨st2, h2, hle, _⟩ := greedyBody_committed find ops array instart inend st
        hinv.hash hinv.i_ge (fun s => hfind st.i s hinv.i_ge hi)
      rw [h1] at h2
      have hst : st1 = st2 := Option.some.inj h2
      rw [h1]
      exact ih _ hinv1 (by simp only; rw [hst]; omega)
    · rw [if_neg hi]
      exact ⟨st, rfl, hinv, by have := hinv.i_le; omega⟩

/-- An answer of the match finder of length at least 3, on a well-formed hash
state, ends inside the input and has a distance of at least 1. -/
theorem finder_bounds (b : Build) (h : ZopfliHash) (array : Nat → Nat) (i inend : Nat)
    (sublen : Nat → Nat) (hwf : HashWF h array i inend) (hi : i < inend) (r : MatchResult)
    (hr : ZopfliFindLongestMatch b h array i inend ZOPFLI_MAX_MATCH (some sublen) = some r)
    (h3 : 3 ≤ r.length) : i + r.length ≤ inend ∧ 1 ≤ r.distance := by
  obtain ⟨r1, hr1, hgood⟩ := ZopfliFindLongestMatch_spec b h array i inend ZOPFLI_MAX_MATCH
    (some sublen) hwf hi (by simp [ZOPFLI_MIN_MATCH, ZOPFLI_MAX_MATCH])
  rw [hr] at hr1
  have e : r = r1 := Option.some.inj hr1
  subst e
  rcases hgood.2 with ⟨_, h0, _⟩ | ⟨_, hinv, _⟩
  · omega
  · obtain ⟨hm, he, _⟩ := hinv.best (by omega)
    have hrange := hinv.vis_range _ hm
    have hle := hinv.bl_le
    have hcl : i + clampedLimit i inend ZOPFLI_MAX_MATCH ≤ inend := by
      unfold clampedLimit
      simp only [ZOPFLI_MAX_MATCH]
      split <;> omega
    exact ⟨by omega, by omega⟩

/-- C28: for every input and range `instart <= inend`, if the match finder
answers at every position of the range and each answer `(L, d)` at a position
`p` with `L >= 3` has `p + L <= inend` and `d >= 1`, then `ZopfliLZ77Greedy`
returns and the entries it appends tile the range: the sum over the appended
entries of `1` for `dist == 0` and of `litlen` otherwise is `inend - instart`;
no deferred match is left at the end; the loop index ends at `inend`, and no
`assert(i < inend)` fails. -/
theorem C28_greedy_tiles_range (find : ZopfliHash → Nat → (Nat → Nat) → Option MatchResult)
    (ops : HashOps) (array : Nat → Nat) (instart inend : Nat) (store0 : ZopfliLZ77Store)
    (hle : instart ≤ inend)
    (hfind : ∀ i s, instart ≤ i → i < inend →
      (find (hashAt ops array instart inend i) i s).isSome = true)
    (hgood : ∀ i s r, instart ≤ i → i < inend →
      find (hashAt ops array instart inend i) i s = some r →
      3 ≤ r.length → i + r.length ≤ inend ∧ 1 ≤ r.distance) :
    ∃ out es, LZ77GreedyWith find ops array instart inend store0 = some out ∧
      Appended store0 out.store es ∧ coveredBytes es = inend - instart ∧
      out.match_available = false ∧ out.i = inend ∧ out.inRange = true := by
  have hinv0 : CoverInv ops array instart inend store0
      { i := instart, h := hashBefore ops array instart inend instart, store := store0,
        dummysublen := fun _ => 0, prev_length := 0, prev_match := 0,
        match_available := false, verified := [], inRange := true } :=
    { hash := rfl, i_ge := Nat.le_refl _, i_le := hle, ok := rfl,
      cover := ⟨[], ⟨by simp, by simp⟩, by simp [coveredBytes]⟩,
      avail := by simp }
  have hfinal : ∀ out, CoverInv ops array instart inend store0 out → out.i = inend →
      ∃ es, Appended store0 out.store es ∧ coveredBytes es = inend - instart ∧
        out.match_available = false ∧ out.i = inend ∧ out.inRange = true := by
    intro out hinv hi
    have hav : out.match_available = false := by
      by_contra h
      have h1 : out.match_available = true := by simpa using h
      have := hinv.avail h1
      omega
    obtain ⟨es, hes, hsum⟩ := hinv.cover
    rw [hav, hi] at hsum
    exact ⟨es, hes, by simpa using hsum, hav, hi, hinv.ok⟩
  unfold LZ77GreedyWith
  simp only
  by_cases he : instart = inend
  · rw [if_pos he]
    obtain ⟨es, h⟩ := hfinal _ hinv0 he
    exact ⟨_, es, rfl, h⟩
  · rw [if_neg he]
    obtain ⟨out, hrun, hinv, hi⟩ := greedyLoop_cover find ops array instart inend store0 hfind
      hgood (inend - instart) _ hinv0 (by simp only; omega)
    obtain ⟨es, h⟩ := hfinal out hinv hi
    exact ⟨out, es, hrun, h⟩

theorem C28_greedy_tiles_range_witness :
    ((0 : Nat) ≤ 9 ∧
      (∀ i s, 0 ≤ i → i < 9 →
        (ZopfliFindLongestMatch build64 (hashAt chainedOps period3 0 9 i) period3 i 9
          ZOPFLI_MAX_MATCH (some s)).isSome = true) ∧
      ∀ i s r, 0 ≤ i → i < 9 →
        ZopfliFindLongestMatch build64 (hashAt chainedOps period3 0 9 i) period3 i 9
          ZOPFLI_MAX_MATCH (some s) = some r →
        3 ≤ r.length → i + r.length ≤ 9 ∧ 1 ≤ r.distance) ∧
      ∃ out es, ZopfliLZ77Greedy build64 chainedOps period3 0 9 ZopfliInitLZ77Store = some out ∧
        Appended ZopfliInitLZ77Store out.store es ∧ coveredBytes es = 9 - 0 ∧
        out.match_available = false ∧ out.i = 9 ∧ out.inRange = true :=
  ⟨⟨by decide,
      finder_answers build64 chainedOps period3 0 9 (fun i _ _ => chainedOps_wf period3 0 9 i),
      fun i s r _ hi hr h3 => finder_bounds build64 _ period3 i 9 s
        (chainedOps_wf period3 0 9 i) hi r hr h3⟩,
    C28_greedy_tiles_range
      (fun h i sublen => ZopfliFindLongestMatch build64 h period3 i 9 ZOPFLI_MAX_MATCH
        (some sublen))
      chainedOps period3 0 9 ZopfliInitLZ77Store (by decide)
      (finder_answers build64 chainedOps period3 0 9 (fun i _ _ => chainedOps_wf period3 0 9 i))
      (fun i s r _ hi hr h3 => finder_bounds build64 _ period3 i 9 s
        (chainedOps_wf period3 0 9 i) hi r hr h3)⟩

end Zopfli
